import Mathlib

/-!
# astrmap: the region extractor of `pkg/mapper/mapper.go`

A shallow embedding of `GenerateMap`: the per-line scan (depth update, scope
closure, manual markers, construct / dependency / markup detection, scope
push with parent naming), the end-of-file closure, the sort, the extension of
point regions and the rows written to the per-file map.

Conventions of the embedding.

* A Go `string` holding text is a `List Char` (`Str`); the file is the list of
  lines that `bufio.Scanner` yields, in order (the scanner stops at a line
  longer than its buffer; the lines are then those before it). Byte lengths,
  where the source uses them (`len`, `name[n:]`), are UTF-8 byte counts of the
  characters.
* Line numbers are `Nat`; the running brace / paren depths are `Int`.
* The scope stack is a list whose head is the innermost (last pushed) scope;
  the Go slice keeps it at the highest index.
* Go's `regexp` (RE2 syntax, leftmost-first submatch semantics) is embedded as
  a small backtracking matcher over a regular-expression tree; every pattern of
  the source is written out as such a tree.
* `sort.Slice` is a library routine whose order among equal keys is not
  specified; it is a parameter of `GenerateMap`, constrained in the theorems by
  its contract (`SliceSortContract`); the insertion sort that the library runs
  on short slices satisfies the contract and is used for concrete files.
* `GenerateMap` is embedded from the point where the file is open: the guard
  on the path suffix and the failures of opening, reading and writing, after
  which nothing is written, are not part of the embedding.
-/

namespace Astrmap

/-- Text: a Go string seen as its sequence of runes. -/
abbrev Str := List Char

/-! ## Characters that the source names in literals -/

/-- The double quote character. -/
def chQuote : Char := Char.ofNat 34
/-- The single quote character. -/
def chApos : Char := Char.ofNat 39
/-- The opening curly bracket. -/
def chLBrace : Char := Char.ofNat 123
/-- The closing curly bracket. -/
def chRBrace : Char := Char.ofNat 125

/-! ## The `strings` and `unicode` functions the scan uses -/

/-- Go `unicode.IsSpace`: the Unicode White_Space runes. -/
def unicode.IsSpace (c : Char) : Bool :=
  let n := c.toNat
  n == 32 || (9 ≤ n && n ≤ 13) || n == 0x85 || n == 0xA0 || n == 0x1680 ||
    (0x2000 ≤ n && n ≤ 0x200A) || n == 0x2028 || n == 0x2029 || n == 0x202F ||
    n == 0x205F || n == 0x3000

/-- Go `strings.HasPrefix`. -/
def strings.HasPrefix (s p : Str) : Bool := p.isPrefixOf s

/-- Go `strings.Contains`. -/
def strings.Contains : Str → Str → Bool
  | [], sub => sub.isEmpty
  | c :: cs, sub => sub.isPrefixOf (c :: cs) || strings.Contains cs sub

/-- Go `strings.Count` for a one-character substring: its occurrences. -/
def strings.Count (s : Str) (c : Char) : Nat := s.count c

/-- Go `strings.TrimFunc`: strip the runes satisfying `f` from both ends. -/
def strings.TrimFunc (s : Str) (f : Char → Bool) : Str :=
  ((s.dropWhile f).reverse.dropWhile f).reverse

/-- Go `strings.TrimSpace`. -/
def strings.TrimSpace (s : Str) : Str := strings.TrimFunc s unicode.IsSpace

/-- Go `strings.TrimLeft(s, " ")`: strip the leading runes that occur in the cutset. -/
def strings.TrimLeft (s cutset : Str) : Str := s.dropWhile (fun c => cutset.contains c)

/-- Go `strings.Fields`, with the field being built (reversed) and the fields found so far. -/
def strings.fieldsAux : Str → Str → List Str
  | [], cur => if cur.isEmpty then [] else [cur.reverse]
  | c :: cs, cur =>
    if unicode.IsSpace c then
      (if cur.isEmpty then strings.fieldsAux cs [] else cur.reverse :: strings.fieldsAux cs [])
    else strings.fieldsAux cs (c :: cur)

/-- Go `strings.Fields`: the maximal runs of non-space runes. -/
def strings.Fields (s : Str) : List Str := strings.fieldsAux s []

/-- Go `unicode.ToLower` on the runes that matter to a comparison with ASCII text:
ASCII letters, and the two non-ASCII runes whose lower case is ASCII (U+0130 and
U+212A). Every other rune is non-ASCII before and after the mapping and is left as it is. -/
def unicode.ToLower (c : Char) : Char :=
  if c.toNat == 0x130 then Char.ofNat 105
  else if c.toNat == 0x212A then Char.ofNat 107
  else c.toLower

/-- Go `strings.ToLower`. -/
def strings.ToLower (s : Str) : Str := s.map unicode.ToLower

/-- Go `strings.ToUpper`, used by the source on ASCII method names only. -/
def strings.ToUpper (s : Str) : Str := s.map Char.toUpper

/-- Go `len(s)` of a string: its length in UTF-8 bytes. -/
def byteLen (s : Str) : Nat := (s.map Char.utf8Size).sum

/-- Go `s[n:]` for a byte offset `n` that lies on a rune boundary of `s`. -/
def sliceFrom : Nat → Str → Str
  | _, [] => []
  | n, c :: cs => if n = 0 then c :: cs else sliceFrom (n - c.utf8Size) cs

/-! ## Regular expressions -/

/-- A position of a match in progress: the rune before it (none at the start of
the text), the text still to read, and the groups captured so far (latest first). -/
structure MatchState where
  prev : Option Char
  rest : Str
  caps : List (Nat × Str)

/-- Regular-expression trees for the RE2 constructs the source patterns use. -/
inductive Re where
  | eps : Re
  | cls : (Char → Bool) → Re
  | cat : Re → Re → Re
  | alt : Re → Re → Re
  | star : Re → Re
  | cap : Nat → Re → Re
  | bot : Re
  | eot : Re
  | wordB : Re

/-- ASCII word characters, the class `\w`. -/
def isWordChar (c : Char) : Bool := c.isAlphanum || c == '_'

/-- Greedy iteration of one step of a match: as many rounds as the text allows, each
round consuming at least one rune, preferring one more round over stopping. -/
def starLoop (step : (MatchState → Option MatchState) → MatchState → Option MatchState)
    (k : MatchState → Option MatchState) : Nat → MatchState → Option MatchState
  | 0, s => k s
  | n + 1, s =>
    match step (fun t => if t.rest.length < s.rest.length then starLoop step k n t else none) s with
    | some r => some r
    | none => k s

/-- Backtracking match of a tree at a position, with the continuation for what
follows it; alternatives are tried left to right (leftmost-first semantics). -/
def Re.run : Re → (MatchState → Option MatchState) → MatchState → Option MatchState
  | .eps, k, s => k s
  | .cls p, k, s =>
    match s.rest with
    | [] => none
    | c :: cs => if p c then k { s with prev := some c, rest := cs } else none
  | .cat a b, k, s => a.run (b.run k) s
  | .alt a b, k, s =>
    match a.run k s with
    | some r => some r
    | none => b.run k s
  | .star a, k, s => starLoop a.run k s.rest.length s
  | .cap i a, k, s =>
    a.run (fun t => k { t with caps := (i, s.rest.take (s.rest.length - t.rest.length)) :: t.caps }) s
  | .bot, k, s => if s.prev.isNone then k s else none
  | .eot, k, s => if s.rest.isEmpty then k s else none
  | .wordB, k, s =>
    let before := match s.prev with
      | some c => isWordChar c
      | none => false
    let after := match s.rest with
      | c :: _ => isWordChar c
      | [] => false
    if before != after then k s else none

/-- Number of capture groups of a tree (its highest group index). -/
def Re.numCap : Re → Nat
  | .cat a b => max a.numCap b.numCap
  | .alt a b => max a.numCap b.numCap
  | .star a => a.numCap
  | .cap i a => max i a.numCap
  | _ => 0

/-- Leftmost match: the first start position, scanning left to right, at which the tree matches. -/
def Re.search (r : Re) : Option Char → Str → Option (List (Nat × Str))
  | prev, [] => ((Re.cap 0 r).run some ⟨prev, [], []⟩).map (fun s => s.caps)
  | prev, c :: cs =>
    match (Re.cap 0 r).run some ⟨prev, c :: cs, []⟩ with
    | some s => some s.caps
    | none => r.search (some c) cs

/-- Go `Regexp.FindStringSubmatch`: the whole match followed by the text of each
group (empty for a group that took no part); the empty list (Go `nil`) when there is no match. -/
def FindStringSubmatch (r : Re) (text : Str) : List Str :=
  match r.search none text with
  | none => []
  | some caps => (List.range (r.numCap + 1)).map (fun i => (caps.lookup i).getD [])

/-- Go `Regexp.MatchString`. -/
def MatchString (r : Re) (text : Str) : Bool := (r.search none text).isSome

/-- Go slice indexing `m[i]` on a submatch list. -/
def sub (m : List Str) (i : Nat) : Str := m.getD i []

/-! ### Pattern building blocks -/

/-- One given rune. -/
def Re.ch (c : Char) : Re := .cls (fun d => d == c)
/-- A literal text. -/
def Re.lit (s : String) : Re := s.data.foldr (fun c r => Re.cat (Re.ch c) r) Re.eps
/-- A sequence of trees. -/
def Re.seq (rs : List Re) : Re := rs.foldr Re.cat Re.eps
/-- One or more, greedy. -/
def Re.plus (a : Re) : Re := .cat a (.star a)
/-- Zero or one, preferring one. -/
def Re.opt (a : Re) : Re := .alt a .eps
/-- Any rune not in the list: a negated class. -/
def Re.noneOf (cs : List Char) : Re := .cls (fun c => !cs.contains c)
/-- Alternatives among literal words, in order. -/
def Re.words : List String → Re
  | [] => .cls (fun _ => false)
  | [w] => Re.lit w
  | w :: ws => .alt (Re.lit w) (Re.words ws)

/-- The class `\s` of RE2: tab, newline, form feed, carriage return, space. -/
def isReSpace (c : Char) : Bool := c == ' ' || c == '\t' || c == '\n' || c == '\r' || c.toNat == 12
/-- The pattern `\s*`. -/
def ws0 : Re := .star (.cls isReSpace)
/-- The pattern `\s+`. -/
def ws1 : Re := Re.plus (.cls isReSpace)
/-- The class `[a-zA-Z0-9_]`. -/
def identCh : Re := .cls isWordChar
/-- The pattern `([a-zA-Z0-9_]+)` as group `i`. -/
def identCap (i : Nat) : Re := .cap i (Re.plus identCh)
/-- The class of the two quote characters. -/
def quoteCh : Re := .cls (fun c => c == chQuote || c == chApos)
/-- The pattern of a quoted text whose content is group `i`. -/
def quoted (i : Nat) : Re :=
  Re.seq [quoteCh, .cap i (Re.plus (Re.noneOf [chQuote, chApos])), quoteCh]
/-- The pattern `.*`: any runes but a newline. -/
def anyStar : Re := .star (.cls (fun c => c != '\n'))
/-- The pattern `(?:export\s+)?`. -/
def optExport : Re := Re.opt (Re.seq [Re.lit "export", ws1])
/-- The pattern `(?:async\s+)?`. -/
def optAsync : Re := Re.opt (Re.seq [Re.lit "async", ws1])
/-- The pattern `(?:\([^)]*\)|[a-zA-Z0-9_]+)`: the parameters of an arrow function. -/
def arrowParams : Re :=
  .alt (Re.seq [Re.ch '(', .star (Re.noneOf [')']), Re.ch ')']) (Re.plus identCh)

/-! ## The patterns of `GenerateMap` -/

/-- Pattern `^\s*//\s*(?:(\d+)\.|#region|={3})\s*(.*)$`. -/
def codeRe : Re :=
  Re.seq [.bot, ws0, Re.lit "//", ws0,
    .alt (Re.seq [.cap 1 (Re.plus (.cls Char.isDigit)), Re.ch '.'])
      (.alt (Re.lit "#region") (Re.lit "===")),
    ws0, .cap 2 anyStar, .eot]

/-- Pattern `^(#+)\s+(.*)$`. -/
def mdRe : Re := Re.seq [.bot, .cap 1 (Re.plus (Re.ch '#')), ws1, .cap 2 anyStar, .eot]

/-- The class `[a-zA-Z0-9-]`. -/
def tagCh : Re := .cls (fun c => c.isAlphanum || c == '-')

/-- Pattern `<\s*([a-zA-Z0-9-]+)\b([^>]*)>|<\s*/\s*([a-zA-Z0-9-]+)\s*>`. -/
def htmlTagRe : Re :=
  .alt (Re.seq [Re.ch '<', ws0, .cap 1 (Re.plus tagCh), .wordB, .cap 2 (.star (Re.noneOf ['>'])), Re.ch '>'])
    (Re.seq [Re.ch '<', ws0, Re.ch '/', ws0, .cap 3 (Re.plus tagCh), ws0, Re.ch '>'])

/-- The pattern `([A-Z][a-zA-Z0-9_]*)` as group `i`. -/
def exportedCap (i : Nat) : Re := .cap i (Re.seq [.cls Char.isUpper, .star identCh])

/-- Pattern `^func\s+(?:\([^)]+\)\s+)?([A-Z][a-zA-Z0-9_]*)\s*\(`. -/
def goFuncRe : Re :=
  Re.seq [.bot, Re.lit "func", ws1,
    Re.opt (Re.seq [Re.ch '(', Re.plus (Re.noneOf [')']), Re.ch ')', ws1]),
    exportedCap 1, ws0, Re.ch '(']

/-- Pattern `^type\s+([A-Z][a-zA-Z0-9_]*)\s+(struct|interface)`. -/
def goTypeRe : Re :=
  Re.seq [.bot, Re.lit "type", ws1, exportedCap 1, ws1, .cap 2 (Re.words ["struct", "interface"])]

/-- Pattern `^import\s*\(`. -/
def goImportRe : Re := Re.seq [.bot, Re.lit "import", ws0, Re.ch '(']
/-- Pattern `^const\s*\(`. -/
def goConstRe : Re := Re.seq [.bot, Re.lit "const", ws0, Re.ch '(']
/-- Pattern `^var\s*\(`. -/
def goVarRe : Re := Re.seq [.bot, Re.lit "var", ws0, Re.ch '(']

/-- Pattern `^(?:export\s+)?(?:async\s+)?function\s+([a-zA-Z0-9_]+)\s*\(`. -/
def jsFuncRe : Re :=
  Re.seq [.bot, optExport, optAsync, Re.lit "function", ws1, identCap 1, ws0, Re.ch '(']

/-- Pattern `^(?:export\s+)?class\s+([a-zA-Z0-9_]+)`. -/
def jsClassRe : Re := Re.seq [.bot, optExport, Re.lit "class", ws1, identCap 1]

/-- Pattern `^(?:export\s+)?(?:const|let|var)\s+([a-zA-Z0-9_]+)\s*=\s*(?:async\s*)?(?:\([^)]*\)|[a-zA-Z0-9_]+)\s*=>`. -/
def jsArrowRe : Re :=
  Re.seq [.bot, optExport, Re.words ["const", "let", "var"], ws1, identCap 1, ws0, Re.ch '=', ws0,
    Re.opt (Re.seq [Re.lit "async", ws0]), arrowParams, ws0, Re.lit "=>"]

/-- Pattern `^(?:export\s+)?interface\s+([a-zA-Z0-9_]+)`. -/
def tsInterfaceRe : Re := Re.seq [.bot, optExport, Re.lit "interface", ws1, identCap 1]

/-- Pattern `^(?:describe|context|suite)\s*\(\s*["']([^"']+)["']`. -/
def jsDescribeRe : Re :=
  Re.seq [.bot, Re.words ["describe", "context", "suite"], ws0, Re.ch '(', ws0, quoted 1]

/-- Pattern `^(?:it|test)\s*\(\s*["']([^"']+)["']`. -/
def jsItRe : Re := Re.seq [.bot, Re.words ["it", "test"], ws0, Re.ch '(', ws0, quoted 1]

/-- Pattern `^(?:export\s+)?(?:const|let|var)\s+([a-zA-Z0-9_]+)\s*=\s*\{`. -/
def jsObjRe : Re :=
  Re.seq [.bot, optExport, Re.words ["const", "let", "var"], ws1, identCap 1, ws0, Re.ch '=', ws0,
    Re.ch chLBrace]

/-- Pattern `^export\s+default\s*\{`. -/
def jsExportDefaultRe : Re :=
  Re.seq [.bot, Re.lit "export", ws1, Re.lit "default", ws0, Re.ch chLBrace]

/-- Pattern `^(?:router|app)\.(get|post|put|delete|patch|use)\s*\(\s*["']([^"']+)["']`. -/
def jsRouteRe : Re :=
  Re.seq [.bot, Re.words ["router", "app"], Re.ch '.',
    .cap 1 (Re.words ["get", "post", "put", "delete", "patch", "use"]), ws0, Re.ch '(', ws0, quoted 2]

/-- Pattern `^\s*(?:async\s+)?([a-zA-Z0-9_]+)\s*\([^)]*\)\s*\{`. -/
def jsMethodRe : Re :=
  Re.seq [.bot, ws0, optAsync, identCap 1, ws0, Re.ch '(', .star (Re.noneOf [')']), Re.ch ')', ws0,
    Re.ch chLBrace]

/-- Pattern `^\s*([a-zA-Z0-9_]+)\s*:\s*(?:async\s+)?function\s*\(`. -/
def jsPropFuncRe : Re :=
  Re.seq [.bot, ws0, identCap 1, ws0, Re.ch ':', ws0, optAsync, Re.lit "function", ws0, Re.ch '(']

/-- Pattern `^\s*([a-zA-Z0-9_]+)\s*:\s*(?:async\s+)?(?:\([^)]*\)|[a-zA-Z0-9_]+)\s*=>`. -/
def jsPropArrowRe : Re :=
  Re.seq [.bot, ws0, identCap 1, ws0, Re.ch ':', ws0, optAsync, arrowParams, ws0, Re.lit "=>"]

/-- The words `jsKeywords` excludes from method names. -/
def jsKeywords : List String :=
  ["if", "for", "while", "switch", "catch", "function", "return", "await", "else"]

/-- Pattern `^([^{]+)\{\s*$`. -/
def cssRe : Re :=
  Re.seq [.bot, .cap 1 (Re.plus (Re.noneOf [chLBrace])), Re.ch chLBrace, ws0, .eot]

/-- Pattern `^\s*import\s*(?:\(\s*)?["']([^"']+)["']`. -/
def depGoRe : Re :=
  Re.seq [.bot, ws0, Re.lit "import", ws0, Re.opt (Re.seq [Re.ch '(', ws0]), quoted 1]

/-- Pattern `^\s*(?:import\s+.*from\s+|require\s*\(\s*)["']([^"']+)["']`. -/
def depJsRe : Re :=
  Re.seq [.bot, ws0,
    .alt (Re.seq [Re.lit "import", ws1, anyStar, Re.lit "from", ws1])
      (Re.seq [Re.lit "require", ws0, Re.ch '(', ws0]),
    quoted 1]

/-- Pattern `<\s*script\s+[^>]*src=["']([^"']+)["']`. -/
def depHtmlScriptRe : Re :=
  Re.seq [Re.ch '<', ws0, Re.lit "script", ws1, .star (Re.noneOf ['>']), Re.lit "src=", quoted 1]

/-- The pattern `rel=["']stylesheet["']`. -/
def relStylesheet : Re := Re.seq [Re.lit "rel=", quoteCh, Re.lit "stylesheet", quoteCh]

/-- Pattern `<\s*link\s+[^>]*href=["']([^"']+)["'][^>]*rel=["']stylesheet["']|<\s*link\s+[^>]*rel=["']stylesheet["'][^>]*href=["']([^"']+)["']`. -/
def depHtmlLinkRe : Re :=
  .alt
    (Re.seq [Re.ch '<', ws0, Re.lit "link", ws1, .star (Re.noneOf ['>']), Re.lit "href=", quoted 1,
      .star (Re.noneOf ['>']), relStylesheet])
    (Re.seq [Re.ch '<', ws0, Re.lit "link", ws1, .star (Re.noneOf ['>']), relStylesheet,
      .star (Re.noneOf ['>']), Re.lit "href=", quoted 2])

/-- Pattern `@import\s*(?:url\s*\(\s*)?["']?([^"'\)]+)["']?`. -/
def depCssRe : Re :=
  Re.seq [Re.lit "@import", ws0, Re.opt (Re.seq [Re.lit "url", ws0, Re.ch '(', ws0]), Re.opt quoteCh,
    .cap 1 (Re.plus (Re.noneOf [chQuote, chApos, ')'])), Re.opt quoteCh]

/-- Pattern `^(\s*)def\s+([a-zA-Z0-9_]+)\s*\(`. -/
def pyDefRe : Re := Re.seq [.bot, .cap 1 ws0, Re.lit "def", ws1, identCap 2, ws0, Re.ch '(']

/-- Pattern `^(\s*)class\s+([a-zA-Z0-9_]+)`. -/
def pyClassRe : Re := Re.seq [.bot, .cap 1 ws0, Re.lit "class", ws1, identCap 2]

/-- The pattern `(?:static\s+)?(?:final\s+)?`. -/
def optStaticFinal : Re :=
  Re.seq [Re.opt (Re.seq [Re.lit "static", ws1]), Re.opt (Re.seq [Re.lit "final", ws1])]

/-- Pattern `^\s*(?:public|protected|private)?\s*(?:static\s+)?(?:final\s+)?class\s+([a-zA-Z0-9_]+)`. -/
def javaClassRe : Re :=
  Re.seq [.bot, ws0, Re.opt (Re.words ["public", "protected", "private"]), ws0, optStaticFinal,
    Re.lit "class", ws1, identCap 1]

/-- Pattern `^\s*(?:public|protected|private)\s+(?:static\s+)?(?:final\s+)?[\w<>\[\]]+\s+([a-zA-Z0-9_]+)\s*\(`. -/
def javaMethodRe : Re :=
  Re.seq [.bot, ws0, Re.words ["public", "protected", "private"], ws1, optStaticFinal,
    Re.plus (.cls (fun c => isWordChar c || c == '<' || c == '>' || c == '[' || c == ']')), ws1,
    identCap 1, ws0, Re.ch '(']

/-- Pattern `id=["']([^"']+)["']`. -/
def idRe : Re := Re.seq [Re.lit "id=", quoted 1]
/-- Pattern `class=["']([^"']+)["']`. -/
def classRe : Re := Re.seq [Re.lit "class=", quoted 1]

/-- The tags of `structuralTags`. -/
def structuralTags : List String :=
  ["body", "div", "section", "article", "header", "footer", "nav", "main", "script", "style",
    "template"]

/-! ## Data model -/

/-- The source's `Region`: a named range of lines. -/
structure Region where
  Start : Nat
  End : Nat
  Name : Str
deriving DecidableEq

/-- The source's `Scope`: a region awaiting closure with its closure data. -/
structure Scope where
  Region : Region
  OpenLevel : Int
  Indent : Int
  CloseChar : Str
  Tag : Str
deriving DecidableEq

/-- The variables of the scan loop that live across lines. -/
structure ScanState where
  lineNum : Nat
  braceLevel : Int
  parenLevel : Int
  scopeStack : List Scope
  regions : List Region

/-- The per-line variables `name`, `matched`, `newIndent`, `closeChar`, `tagName`,
with the defaults the source declares them with. -/
structure Vars where
  name : Str := []
  matched : Bool := false
  newIndent : Nat := 0
  closeChar : Str := [chRBrace]
  tagName : Str := []
deriving DecidableEq

/-- Membership of an extension in a list of literals. -/
def extIn (ext : Str) (l : List String) : Bool := l.any (fun e => ext == e.data)

/-- The source's `isBraceLang`. -/
def isBraceLang (ext : Str) : Bool :=
  extIn ext [".go", ".js", ".ts", ".jsx", ".tsx", ".java", ".cs", ".css", ".scss", ".less"]
/-- The source's `isPython`. -/
def isPython (ext : Str) : Bool := ext == ".py".data
/-- The source's `isHtml`. -/
def isHtml (ext : Str) : Bool := extIn ext [".html", ".htm", ".xml", ".vue", ".php"]
/-- The JavaScript / TypeScript extensions. -/
def isJs (ext : Str) : Bool := extIn ext [".js", ".ts", ".jsx", ".tsx"]

/-! ## Step 1 of a line: scope closure -/

/-- The source's `currentIndent`: the number of leading spaces of the line,
`len(text) - len(strings.TrimLeft(text, " "))`. -/
def currentIndent (text : Str) : Nat := byteLen text - byteLen (strings.TrimLeft text [' '])

/-- The source's `shouldClose` for one scope, at a line with the depths already updated. -/
def shouldClose (ext text : Str) (braceLevel parenLevel : Int) (scope : Scope) : Bool :=
  if isBraceLang ext then
    if scope.CloseChar == [chRBrace] then
      decide (braceLevel ≤ scope.OpenLevel) && strings.Contains text [chRBrace]
    else if scope.CloseChar == [')'] then
      decide (parenLevel ≤ scope.OpenLevel) && strings.Contains text [')']
    else false
  else if isPython ext then
    if strings.TrimSpace text != [] then decide ((currentIndent text : Int) ≤ scope.Indent)
    else false
  else if isHtml ext then
    scope.Tag != [] &&
      strings.Contains (strings.ToLower text) ("</".data ++ strings.ToLower scope.Tag ++ ">".data)
  else false

/-- The brace depth after the line's `\x7b` and `\x7d` are counted (brace dialects only). -/
def braceAfter (ext : Str) (st : ScanState) (text : Str) : Int :=
  if isBraceLang ext then
    st.braceLevel + (strings.Count text chLBrace : Int) - (strings.Count text chRBrace : Int)
  else st.braceLevel

/-- The paren depth after the line's parentheses are counted (brace dialects only). -/
def parenAfter (ext : Str) (st : ScanState) (text : Str) : Int :=
  if isBraceLang ext then
    st.parenLevel + (strings.Count text '(' : Int) - (strings.Count text ')' : Int)
  else st.parenLevel

/-- The closing test of the line, as a predicate on scopes. -/
def closesAt (ext : Str) (st : ScanState) (text : Str) : Scope → Bool :=
  shouldClose ext text (braceAfter ext st text) (parenAfter ext st text)

/-- The regions the closure loop appends at a line: the scopes that close, innermost
first, each with `End` set to the line's number. -/
def closedNow (ext : Str) (st : ScanState) (text : Str) : List Region :=
  (st.scopeStack.takeWhile (closesAt ext st text)).map
    (fun s => { s.Region with End := st.lineNum + 1 })

/-- The scope stack after the closure loop: the stack from its first non-closing scope on. -/
def stackAfterClose (ext : Str) (st : ScanState) (text : Str) : List Scope :=
  st.scopeStack.dropWhile (closesAt ext st text)

/-- The state after step 0 (depth update) and step 1 (closure) of a line. -/
def closePhase (ext : Str) (st : ScanState) (text : Str) : ScanState :=
  { lineNum := st.lineNum + 1
    braceLevel := braceAfter ext st text
    parenLevel := parenAfter ext st text
    scopeStack := stackAfterClose ext st text
    regions := st.regions ++ closedNow ext st text }

/-! ## Step 2 of a line: detection -/

/-- The cleaned label of a manual marker line, when the line is one: the `//` test, the
`codeRe` match with its three submatches, and the trimming of separators. -/
def markerLabel (text : Str) : Option Str :=
  if strings.Contains text "//".data then
    let m := FindStringSubmatch codeRe text
    if m.length == 3 then
      some (strings.TrimFunc (strings.TrimSpace (sub m 2))
        (fun r => r == '=' || r == '-' || r == ' ' || r == '\t'))
    else none
  else none

/-- Auto-detection for `.go`. -/
def detectGo (text : Str) : Vars :=
  let m := FindStringSubmatch goFuncRe text
  if m.length > 1 then { name := "ƒ ".data ++ sub m 1, matched := true }
  else
    let m := FindStringSubmatch goTypeRe text
    if m.length > 1 then
      { name := "📦 ".data ++ sub m 1 ++ " (".data ++ sub m 2 ++ ")".data, matched := true }
    else if MatchString goImportRe text then
      { name := "📥 Imports".data, matched := true, closeChar := [')'] }
    else if MatchString goConstRe text then
      { name := "🧱 Const".data, matched := true, closeChar := [')'] }
    else if MatchString goVarRe text then
      { name := "🔨 Var".data, matched := true, closeChar := [')'] }
    else {}

/-- Auto-detection for `.js`, `.ts`, `.jsx`, `.tsx`: the first matching pattern wins. -/
def detectJs (text : Str) : Vars :=
  let m := FindStringSubmatch jsFuncRe text
  if m.length > 1 then { name := "ƒ ".data ++ sub m 1, matched := true } else
  let m := FindStringSubmatch jsClassRe text
  if m.length > 1 then { name := "📦 ".data ++ sub m 1, matched := true } else
  let m := FindStringSubmatch jsArrowRe text
  if m.length > 1 then { name := "ƒ ".data ++ sub m 1, matched := true } else
  let m := FindStringSubmatch tsInterfaceRe text
  if m.length > 1 then { name := "📄 ".data ++ sub m 1, matched := true } else
  let m := FindStringSubmatch jsDescribeRe text
  if m.length > 1 then { name := "🧪 ".data ++ sub m 1, matched := true, closeChar := [')'] } else
  let m := FindStringSubmatch jsItRe text
  if m.length > 1 then { name := "✓ ".data ++ sub m 1, matched := true, closeChar := [')'] } else
  let m := FindStringSubmatch jsObjRe text
  if m.length > 1 then { name := "🧱 ".data ++ sub m 1, matched := true } else
  if MatchString jsExportDefaultRe text then
    { name := "📦 default export".data, matched := true } else
  let m := FindStringSubmatch jsRouteRe text
  if m.length > 2 then
    { name := "🛣️ ".data ++ strings.ToUpper (sub m 1) ++ " ".data ++ sub m 2, matched := true,
      closeChar := [')'] } else
  let m := FindStringSubmatch jsMethodRe text
  if m.length > 1 then
    (if jsKeywords.any (fun k => k.data == sub m 1) then {}
     else { name := "ƒ ".data ++ sub m 1, matched := true }) else
  let m := FindStringSubmatch jsPropFuncRe text
  if m.length > 1 then { name := "ƒ ".data ++ sub m 1, matched := true } else
  let m := FindStringSubmatch jsPropArrowRe text
  if m.length > 1 then { name := "ƒ ".data ++ sub m 1, matched := true } else {}

/-- Auto-detection for `.java`, `.cs`. -/
def detectJava (text : Str) : Vars :=
  let m := FindStringSubmatch javaClassRe text
  if m.length > 1 then { name := "📦 ".data ++ sub m 1, matched := true } else
  let m := FindStringSubmatch javaMethodRe text
  if m.length > 1 then { name := "ƒ ".data ++ sub m 1, matched := true } else {}

/-- Auto-detection for `.css`, `.scss`, `.less`. -/
def detectCss (text : Str) : Vars :=
  if strings.Contains text [chLBrace] then
    let m := FindStringSubmatch cssRe (strings.TrimSpace text)
    if m.length > 1 then { name := "🎨 ".data ++ strings.TrimSpace (sub m 1), matched := true }
    else {}
  else {}

/-- Auto-detection for `.py`: the construct and the width of the matched indentation. -/
def detectPy (text : Str) : Vars :=
  let m := FindStringSubmatch pyDefRe text
  if m.length > 1 then
    { name := "ƒ ".data ++ sub m 2, matched := true, newIndent := byteLen (sub m 1) } else
  let m := FindStringSubmatch pyClassRe text
  if m.length > 1 then
    { name := "📦 ".data ++ sub m 2, matched := true, newIndent := byteLen (sub m 1) } else {}

/-- Outcome of the auto-detection block: a markdown heading (its region is appended and
the loop continues with the next line) or the per-line variables. -/
inductive Detect where
  | heading : Str → Detect
  | vars : Vars → Detect
deriving DecidableEq

/-- The auto-detection block, dispatching on the extension. -/
def autoDetect (ext text : Str) : Detect :=
  if isBraceLang ext then
    if ext == ".go".data then .vars (detectGo text)
    else if isJs ext then .vars (detectJs text)
    else if extIn ext [".java", ".cs"] then .vars (detectJava text)
    else if extIn ext [".css", ".scss", ".less"] then .vars (detectCss text)
    else .vars {}
  else if isPython ext then .vars (detectPy text)
  else if ext == ".md".data then
    let m := FindStringSubmatch mdRe text
    if m.length > 1 then .heading (sub m 2) else .vars {}
  else .vars {}

/-- The source's `depName`: the target of an import / include on the line, or empty. -/
def depName (ext text : Str) : Str :=
  if ext == ".go".data && MatchString depGoRe text then
    let m := FindStringSubmatch depGoRe text
    if m.length > 1 then sub m 1 else []
  else if isJs ext && MatchString depJsRe text then
    let m := FindStringSubmatch depJsRe text
    if m.length > 1 then sub m 1 else []
  else if isHtml ext then
    let m := FindStringSubmatch depHtmlScriptRe text
    if m.length > 1 then sub m 1
    else
      let m := FindStringSubmatch depHtmlLinkRe text
      if m.length > 1 then (if sub m 1 != [] then sub m 1 else sub m 2) else []
  else if ext == ".css".data && MatchString depCssRe text then
    let m := FindStringSubmatch depCssRe text
    if m.length > 1 then sub m 1 else []
  else []

/-- The markup block: an opening structural tag sets the name, `matched` and the tag. -/
def htmlDetect (ext text : Str) (v : Vars) : Vars :=
  if isHtml ext then
    let m := FindStringSubmatch htmlTagRe text
    if m.length > 1 then
      let openTag := sub m 1
      if openTag != [] then
        let lowerTag := strings.ToLower openTag
        if structuralTags.any (fun t => t.data == lowerTag) then
          let name := "<".data ++ openTag ++ ">".data
          let idMatch := FindStringSubmatch idRe text
          let classMatch := FindStringSubmatch classRe text
          let name :=
            if idMatch.length > 1 then name ++ " #".data ++ sub idMatch 1
            else if classMatch.length > 1 then
              let fields := strings.Fields (sub classMatch 1)
              if fields.length > 0 then name ++ " .".data ++ sub fields 0 else name
            else name
          { v with name := name, matched := true, tagName := lowerTag,
                   closeChar := "</".data ++ lowerTag ++ ">".data }
        else v
      else v
    else v
  else v

/-- The per-line variables after auto-detection and the markup block. -/
def detectLine (ext text : Str) (v : Vars) : Vars := htmlDetect ext text v

/-! ## Step 3 of a line: scope push and parent naming -/

/-- The source's `startParam`: the depth (or indent) recorded for a new scope. -/
def startParam (ext text : Str) (v : Vars) (braceLevel parenLevel : Int) : Int :=
  if isBraceLang ext then
    if v.closeChar == [chRBrace] then
      (if strings.Contains text [chLBrace] then braceLevel - 1 else braceLevel)
    else if v.closeChar == [')'] then
      (if strings.Contains text ['('] then parenLevel - 1 else parenLevel)
    else 0
  else if isPython ext then (v.newIndent : Int)
  else 0

/-- The test the parent search applies to an open scope: its name contains one of
the three container icons. -/
def hasContainerIcon (s : Scope) : Bool :=
  strings.Contains s.Region.Name "📦".data || strings.Contains s.Region.Name "🧱".data ||
    strings.Contains s.Region.Name "📄".data

/-- The source's `parentName`: the second field of the name of the innermost open
scope that passes the container test (empty when there is none). -/
def parentName (scopeStack : List Scope) : Str :=
  match scopeStack.find? hasContainerIcon with
  | none => []
  | some s =>
    let parts := strings.Fields s.Region.Name
    if parts.length > 1 then sub parts 1 else []

/-- The renaming of a new scope by its parent. -/
def qualifyName (parent name : Str) : Str :=
  if parent != [] && (strings.HasPrefix name "ƒ".data || strings.HasPrefix name "✓".data) then
    let cleanCurrent := strings.TrimSpace (sliceFrom (byteLen "ƒ ".data) name)
    if strings.HasPrefix name "✓".data then
      "✓ ".data ++ parent ++ " » ".data ++ strings.TrimSpace (sliceFrom (byteLen "✓ ".data) name)
    else "ƒ ".data ++ parent ++ ".".data ++ cleanCurrent
  else name

/-- The scope pushed for a matched construct, on a state that is past the closure step. -/
def newScope (ext text : Str) (st : ScanState) (v : Vars) : Scope :=
  { Region := { Start := st.lineNum, End := 0, Name := qualifyName (parentName st.scopeStack) v.name }
    OpenLevel := startParam ext text v st.braceLevel st.parenLevel
    Indent := startParam ext text v st.braceLevel st.parenLevel
    CloseChar := v.closeChar
    Tag := v.tagName }

/-- Steps 2 and 3 of a line, on the state that is past the closure step. -/
def openPhase (ext : Str) (st : ScanState) (text : Str) : ScanState :=
  match markerLabel text with
  | some cleanName =>
    if cleanName.length > 0 then
      { st with regions := st.regions ++ [⟨st.lineNum, st.lineNum, "📍 ".data ++ cleanName⟩] }
    else st
  | none =>
    match autoDetect ext text with
    | .heading name => { st with regions := st.regions ++ [⟨st.lineNum, st.lineNum, name⟩] }
    | .vars v0 =>
      let dep := depName ext text
      let st1 : ScanState :=
        if dep != [] then
          { st with regions := st.regions ++
              [⟨st.lineNum, st.lineNum, "🔗 depends on: ".data ++ dep⟩] }
        else st
      let v := detectLine ext text v0
      if v.matched then { st1 with scopeStack := newScope ext text st1 v :: st1.scopeStack }
      else st1

/-- One iteration of the scan loop. -/
def processLine (ext : Str) (st : ScanState) (text : Str) : ScanState :=
  openPhase ext (closePhase ext st text) text

/-- The regions a line appends after the closure step: at most one point region
(marker, heading or dependency reference), on the line itself. -/
def pointNow (ext : Str) (st : ScanState) (text : Str) : List Region :=
  match markerLabel text with
  | some cleanName =>
    if cleanName.length > 0 then [⟨st.lineNum + 1, st.lineNum + 1, "📍 ".data ++ cleanName⟩] else []
  | none =>
    match autoDetect ext text with
    | .heading name => [⟨st.lineNum + 1, st.lineNum + 1, name⟩]
    | .vars _ =>
      if depName ext text != [] then
        [⟨st.lineNum + 1, st.lineNum + 1, "🔗 depends on: ".data ++ depName ext text⟩]
      else []

/-- The scope a line pushes, if it pushes one. -/
def pushedNow (ext : Str) (st : ScanState) (text : Str) : Option Scope :=
  match markerLabel text with
  | some _ => none
  | none =>
    match autoDetect ext text with
    | .heading _ => none
    | .vars v0 =>
      if (detectLine ext text v0).matched then
        some (newScope ext text (closePhase ext st text) (detectLine ext text v0))
      else none

/-- The state before the first line. -/
def initState : ScanState :=
  { lineNum := 0, braceLevel := 0, parenLevel := 0, scopeStack := [], regions := [] }

/-- The scan loop over the lines of the file, from a given state. -/
def scanFrom (ext : Str) (st : ScanState) (lines : List Str) : ScanState :=
  lines.foldl (processLine ext) st

/-- The regions of the scopes still open at the end of the file, innermost first,
each closed at the last line. -/
def closeRemaining (st : ScanState) : List Region :=
  st.scopeStack.map (fun s => { s.Region with End := st.lineNum })

/-- The source's `regions` when the scan and the end-of-file closure are done. -/
def scanRegions (ext : Str) (lines : List Str) : List Region :=
  let st := scanFrom ext initState lines
  st.regions ++ closeRemaining st

/-- The regions that come from the scope stack (appended by the closure loop of some
line or by the end-of-file closure), in the order they are appended, scanning from a state. -/
def scopeRegionsFrom (ext : Str) : ScanState → List Str → List Region
  | st, [] => closeRemaining st
  | st, l :: ls => closedNow ext st l ++ scopeRegionsFrom ext (processLine ext st l) ls

/-- The regions of a file that come from the scope stack. -/
def scopeRegions (ext : Str) (lines : List Str) : List Region :=
  scopeRegionsFrom ext initState lines

/-! ## Sorting, post-processing and the rows written -/

/-- One pass of the library's insertion sort: the new element moves left past every
element with a larger `Start` (the prefix is kept reversed, last element first). -/
def bubble (x : Region) : List Region → List Region
  | [] => [x]
  | y :: ys => if x.Start < y.Start then y :: bubble x ys else x :: y :: ys

/-- The insertion sort of the library (`insertionSortLessFunc`), with the source's `less`
(`Start <`): what `sort.Slice` runs on a slice of at most 6 elements in every release of
the library (at most 12 in the releases that sort by pattern-defeating quicksort). -/
def insertionSort (l : List Region) : List Region :=
  (l.foldl (fun acc x => bubble x acc) []).reverse

/-- The contract of `sort.Slice` with the source's `less`, for a function standing for
the library routine: the result is a rearrangement of the slice in which no element is
less than an earlier one. -/
def SliceSortContract (sort : List Region → List Region) : Prop :=
  (∀ l, List.Perm (sort l) l) ∧
  (∀ l, (sort l).Pairwise (fun a b => a.Start ≤ b.Start))

/-- The post-processing loop: a region with `Start == End` is extended to the line
before the next region's start when that start is larger, and to the end of the file
when it is the last region. -/
def extendMarkers (lineNum : Nat) : List Region → List Region
  | [] => []
  | [r] => [if r.Start == r.End then { r with End := lineNum } else r]
  | r :: n :: rest =>
    (if r.Start == r.End then (if n.Start > r.Start then { r with End := n.Start - 1 } else r)
     else r) :: extendMarkers lineNum (n :: rest)

/-- The sanity check of the writing loop. -/
def clampEnd (r : Region) : Region := if r.End < r.Start then { r with End := r.Start } else r

/-- The rows written after the header, from the final `regions` and `lineNum`. -/
def writeRows (lineNum : Nat) (regions : List Region) : List Region :=
  if regions.length > 0 then regions.map clampEnd
  else [⟨1, lineNum, "(Entire File)".data⟩]

/-- What `GenerateMap` writes that depends on the content: the `LOC:` value of the
header and the region rows. -/
structure MapFile where
  LOC : Nat
  rows : List Region
deriving DecidableEq

/-- The source's `GenerateMap` on a file with the given lower-cased extension and lines;
`sort` stands for `sort.Slice` with the source's `less`. -/
def GenerateMap (sort : List Region → List Region) (ext : Str) (lines : List Str) : MapFile :=
  let lineNum := (scanFrom ext initState lines).lineNum
  let regions := sort (scanRegions ext lines)
  { LOC := lineNum, rows := writeRows lineNum (extendMarkers lineNum regions) }

/-! ## Invariants of the scan -/

/-- Line bounds of a scan state: every region recorded so far lies within the lines
read, with `Start ≤ End`, and every open scope started on a line already read. -/
def Bounded (st : ScanState) : Prop :=
  (∀ r ∈ st.regions, 1 ≤ r.Start ∧ r.Start ≤ r.End ∧ r.End ≤ st.lineNum) ∧
  (∀ s ∈ st.scopeStack, 1 ≤ s.Region.Start ∧ s.Region.Start ≤ st.lineNum)

/-- Stack order of a scan state: from the innermost scope outward the start lines
strictly decrease, and none is beyond the lines read. -/
def StackOrdered (st : ScanState) : Prop :=
  st.scopeStack.Pairwise (fun a b => b.Region.Start < a.Region.Start) ∧
  (∀ s ∈ st.scopeStack, s.Region.Start ≤ st.lineNum)

/-! ## Concrete files -/

/-- The lines of a file given as string literals. -/
def linesOf (l : List String) : List Str := l.map String.data

/-- A markdown file of 20 lines with headings on lines 1, 5 and 12. -/
def fileMdHeadings : List Str :=
  linesOf ["# Intro", "text", "text", "", "## Usage", "text", "text", "text", "text", "text", "",
    "# Notes", "text", "text", "text", "text", "text", "text", "text", "text"]

/-- A plain text file of two lines, in which nothing is detected. -/
def filePlain : List Str := linesOf ["hello", "world"]

/-- A JavaScript file whose first line opens and closes a function body. -/
def fileJsOneLiner : List Str :=
  linesOf ["function foo() \x7b return 1; \x7d", "let x = 1;", "let y = 2;"]

/-- A JavaScript class on lines 1 to 5 with a method on lines 2 to 4. -/
def fileJsWidget : List Str :=
  linesOf ["class Widget \x7b", "  method() \x7b", "    return 1;", "  \x7d", "\x7d"]

/-- A Python class on line 1, a method on line 2, its body on lines 3 and 4, and a
statement at column 0 on line 5. -/
def filePyClass : List Str :=
  linesOf ["class A:", "    def m(self):", "        x = 1", "        return x", "y = 2"]

/-- A Go file: a `const` block on lines 3 to 5 whose comment holds an opening
parenthesis, then a function on lines 7 and 8. -/
def fileGoConst : List Str :=
  linesOf ["package main", "", "const (", "    A = 1 // (see below", ")", "",
    "func Foo() \x7b", "\x7d"]

/-- An HTML file whose first line is a script element with a source. -/
def fileHtmlScript : List Str :=
  linesOf ["<script src=\"app.js\"></script>", "<div id=\"main\">", "</div>"]

/-- A Go file that starts with a banner comment and a numbered marker. -/
def fileGoBanner : List Str :=
  linesOf ["// ==========", "// 1. Setup", "package main"]

/-- An HTML file with a `div` on line 1, a `div` inside it on line 2, text on line 3 and
the two closing tags on lines 4 and 5. -/
def fileHtmlNested : List Str :=
  linesOf ["<div class=\"outer\">", "<div class=\"inner\">", "text", "</div>", "</div>"]

/-- A Python class whose method is indented with a tab. -/
def filePyTabs : List Str :=
  linesOf ["class A:", "\tdef m(self):", "\t\treturn 1", "", "x = 2"]

/-- A Go file whose struct type is opened and closed on line 1, followed by two functions. -/
def fileGoStruct : List Str :=
  linesOf ["type T struct \x7b\x7d", "func A() \x7b", "\x7d", "func B() \x7b", "\x7d"]

/-! ## Brace-governed files -/

/-- The condition of a file in which every opened scope is brace-governed and every
construct-opening line contains `\x7b` with a net brace change of exactly +1, checked line
by line from a state on. -/
def bracePushesOnly (ext : Str) : ScanState → List Str → Bool
  | _, [] => true
  | st, l :: ls =>
    (match pushedNow ext st l with
      | none => true
      | some sc =>
        sc.CloseChar == [chRBrace] && strings.Contains l [chLBrace] &&
          decide (braceAfter ext st l = st.braceLevel + 1)) &&
    bracePushesOnly ext (processLine ext st l) ls

/-- In the words of the specification: the number of the first later line whose post-line
running brace depth is at most the given enclosing depth, or of the last line of the file
if there is no such line; counted from a state on. -/
def firstLineAtDepth (ext : Str) : ScanState → List Str → Int → Nat
  | st, [], _ => st.lineNum
  | st, l :: ls, lvl =>
    if braceAfter ext st l ≤ lvl then st.lineNum + 1
    else firstLineAtDepth ext (processLine ext st l) ls lvl

/-- Invariant of a brace-governed scan: every open scope is closed by a brace and the
running depth is above its recorded depth; the recorded depths strictly decrease from
the innermost scope outward. -/
def BraceStack (st : ScanState) : Prop :=
  (∀ s ∈ st.scopeStack, s.CloseChar = [chRBrace] ∧ s.OpenLevel < st.braceLevel) ∧
  st.scopeStack.Pairwise (fun a b => b.OpenLevel < a.OpenLevel)

/-! ## The scan with its run-time checks

The same steps as above, with every index expression on a submatch or field list, every
string slice and the slice of the scope stack written as a partial operation: `none` stands
for the run-time panic that Go raises when the index or the bound is out of range. -/

/-- Go index expression `m[i]`; `none` when `i` is out of range. -/
def index? {α : Type} (m : List α) (i : Nat) : Option α := m[i]?

/-- Go slice expression `s[n:]` on a string; `none` when `n` exceeds the length in bytes. -/
def sliceFrom? (n : Nat) (s : Str) : Option Str :=
  if n ≤ byteLen s then some (sliceFrom n s) else none

/-- Go slice expression `scopeStack[:len(scopeStack)-closedCount]`, on the stack kept
innermost first; `none` when the bound is negative. -/
def dropTop? (closedCount : Nat) (scopeStack : List Scope) : Option (List Scope) :=
  if closedCount ≤ scopeStack.length then some (scopeStack.drop closedCount) else none

/-- The closure step with the slice of the stack checked. -/
def closePhaseC (ext : Str) (st : ScanState) (text : Str) : Option ScanState :=
  let closedCount := (st.scopeStack.takeWhile (closesAt ext st text)).length
  (if closedCount > 0 then dropTop? closedCount st.scopeStack else some st.scopeStack).bind
    fun stack =>
      some { lineNum := st.lineNum + 1
             braceLevel := braceAfter ext st text
             parenLevel := parenAfter ext st text
             scopeStack := stack
             regions := st.regions ++ closedNow ext st text }

/-- The marker test with `matches[2]` checked. -/
def markerLabelC (text : Str) : Option (Option Str) :=
  if strings.Contains text "//".data then
    let m := FindStringSubmatch codeRe text
    if m.length == 3 then
      (index? m 2).bind fun raw =>
        some (some (strings.TrimFunc (strings.TrimSpace raw)
          (fun r => r == '=' || r == '-' || r == ' ' || r == '\t')))
    else some none
  else some none

/-- Auto-detection for `.go` with the submatch indexes checked. -/
def detectGoC (text : Str) : Option Vars :=
  let m := FindStringSubmatch goFuncRe text
  if m.length > 1 then
    (index? m 1).bind fun m1 => some { name := "ƒ ".data ++ m1, matched := true }
  else
    let m := FindStringSubmatch goTypeRe text
    if m.length > 1 then
      (index? m 1).bind fun m1 => (index? m 2).bind fun m2 =>
        some { name := "📦 ".data ++ m1 ++ " (".data ++ m2 ++ ")".data, matched := true }
    else if MatchString goImportRe text then
      some { name := "📥 Imports".data, matched := true, closeChar := [')'] }
    else if MatchString goConstRe text then
      some { name := "🧱 Const".data, matched := true, closeChar := [')'] }
    else if MatchString goVarRe text then
      some { name := "🔨 Var".data, matched := true, closeChar := [')'] }
    else some {}

/-- Auto-detection for JavaScript / TypeScript with the submatch indexes checked. -/
def detectJsC (text : Str) : Option Vars :=
  let m := FindStringSubmatch jsFuncRe text
  if m.length > 1 then
    (index? m 1).bind fun m1 => some { name := "ƒ ".data ++ m1, matched := true } else
  let m := FindStringSubmatch jsClassRe text
  if m.length > 1 then
    (index? m 1).bind fun m1 => some { name := "📦 ".data ++ m1, matched := true } else
  let m := FindStringSubmatch jsArrowRe text
  if m.length > 1 then
    (index? m 1).bind fun m1 => some { name := "ƒ ".data ++ m1, matched := true } else
  let m := FindStringSubmatch tsInterfaceRe text
  if m.length > 1 then
    (index? m 1).bind fun m1 => some { name := "📄 ".data ++ m1, matched := true } else
  let m := FindStringSubmatch jsDescribeRe text
  if m.length > 1 then
    (index? m 1).bind fun m1 =>
      some { name := "🧪 ".data ++ m1, matched := true, closeChar := [')'] } else
  let m := FindStringSubmatch jsItRe text
  if m.length > 1 then
    (index? m 1).bind fun m1 =>
      some { name := "✓ ".data ++ m1, matched := true, closeChar := [')'] } else
  let m := FindStringSubmatch jsObjRe text
  if m.length > 1 then
    (index? m 1).bind fun m1 => some { name := "🧱 ".data ++ m1, matched := true } else
  if MatchString jsExportDefaultRe text then
    some { name := "📦 default export".data, matched := true } else
  let m := FindStringSubmatch jsRouteRe text
  if m.length > 2 then
    (index? m 1).bind fun m1 => (index? m 2).bind fun m2 =>
      some { name := "🛣️ ".data ++ strings.ToUpper m1 ++ " ".data ++ m2, matched := true,
             closeChar := [')'] } else
  let m := FindStringSubmatch jsMethodRe text
  if m.length > 1 then
    (index? m 1).bind fun candidate =>
      if jsKeywords.any (fun k => k.data == candidate) then some {}
      else some { name := "ƒ ".data ++ candidate, matched := true } else
  let m := FindStringSubmatch jsPropFuncRe text
  if m.length > 1 then
    (index? m 1).bind fun m1 => some { name := "ƒ ".data ++ m1, matched := true } else
  let m := FindStringSubmatch jsPropArrowRe text
  if m.length > 1 then
    (index? m 1).bind fun m1 => some { name := "ƒ ".data ++ m1, matched := true } else some {}

/-- Auto-detection for `.java`, `.cs` with the submatch indexes checked. -/
def detectJavaC (text : Str) : Option Vars :=
  let m := FindStringSubmatch javaClassRe text
  if m.length > 1 then
    (index? m 1).bind fun m1 => some { name := "📦 ".data ++ m1, matched := true } else
  let m := FindStringSubmatch javaMethodRe text
  if m.length > 1 then
    (index? m 1).bind fun m1 => some { name := "ƒ ".data ++ m1, matched := true } else some {}

/-- Auto-detection for the style sheets with the submatch index checked. -/
def detectCssC (text : Str) : Option Vars :=
  if strings.Contains text [chLBrace] then
    let m := FindStringSubmatch cssRe (strings.TrimSpace text)
    if m.length > 1 then
      (index? m 1).bind fun m1 =>
        some { name := "🎨 ".data ++ strings.TrimSpace m1, matched := true }
    else some {}
  else some {}

/-- Auto-detection for `.py` with the submatch indexes checked. -/
def detectPyC (text : Str) : Option Vars :=
  let m := FindStringSubmatch pyDefRe text
  if m.length > 1 then
    (index? m 1).bind fun indentStr => (index? m 2).bind fun m2 =>
      some { name := "ƒ ".data ++ m2, matched := true, newIndent := byteLen indentStr } else
  let m := FindStringSubmatch pyClassRe text
  if m.length > 1 then
    (index? m 1).bind fun indentStr => (index? m 2).bind fun m2 =>
      some { name := "📦 ".data ++ m2, matched := true, newIndent := byteLen indentStr }
  else some {}

/-- The auto-detection block with the submatch indexes checked. -/
def autoDetectC (ext text : Str) : Option Detect :=
  if isBraceLang ext then
    if ext == ".go".data then (detectGoC text).map Detect.vars
    else if isJs ext then (detectJsC text).map Detect.vars
    else if extIn ext [".java", ".cs"] then (detectJavaC text).map Detect.vars
    else if extIn ext [".css", ".scss", ".less"] then (detectCssC text).map Detect.vars
    else some (.vars {})
  else if isPython ext then (detectPyC text).map Detect.vars
  else if ext == ".md".data then
    let m := FindStringSubmatch mdRe text
    if m.length > 1 then (index? m 2).map Detect.heading else some (.vars {})
  else some (.vars {})

/-- The dependency block with the submatch indexes checked. -/
def depNameC (ext text : Str) : Option Str :=
  if ext == ".go".data && MatchString depGoRe text then
    let m := FindStringSubmatch depGoRe text
    if m.length > 1 then index? m 1 else some []
  else if isJs ext && MatchString depJsRe text then
    let m := FindStringSubmatch depJsRe text
    if m.length > 1 then index? m 1 else some []
  else if isHtml ext then
    let m := FindStringSubmatch depHtmlScriptRe text
    if m.length > 1 then index? m 1
    else
      let m := FindStringSubmatch depHtmlLinkRe text
      if m.length > 1 then
        (index? m 1).bind fun m1 => if m1 != [] then index? m 1 else index? m 2
      else some []
  else if ext == ".css".data && MatchString depCssRe text then
    let m := FindStringSubmatch depCssRe text
    if m.length > 1 then index? m 1 else some []
  else some []

/-- The markup block with the submatch and field indexes checked. -/
def htmlDetectC (ext text : Str) (v : Vars) : Option Vars :=
  if isHtml ext then
    let m := FindStringSubmatch htmlTagRe text
    if m.length > 1 then
      (index? m 1).bind fun openTag =>
        if openTag != [] then
          let lowerTag := strings.ToLower openTag
          if structuralTags.any (fun t => t.data == lowerTag) then
            let name := "<".data ++ openTag ++ ">".data
            let idMatch := FindStringSubmatch idRe text
            let classMatch := FindStringSubmatch classRe text
            (if idMatch.length > 1 then
                (index? idMatch 1).bind fun i => some (name ++ " #".data ++ i)
              else if classMatch.length > 1 then
                (index? classMatch 1).bind fun c =>
                  let fields := strings.Fields c
                  if fields.length > 0 then
                    (index? fields 0).bind fun f => some (name ++ " .".data ++ f)
                  else some name
              else some name).bind fun name =>
              some { v with name := name, matched := true, tagName := lowerTag,
                            closeChar := "</".data ++ lowerTag ++ ">".data }
          else some v
        else some v
    else some v
  else some v

/-- The parent search with `parts[1]` checked. -/
def parentNameC (scopeStack : List Scope) : Option Str :=
  match scopeStack.find? hasContainerIcon with
  | none => some []
  | some s =>
    let parts := strings.Fields s.Region.Name
    if parts.length > 1 then index? parts 1 else some []

/-- The renaming with the two byte slices checked. -/
def qualifyNameC (parent name : Str) : Option Str :=
  if parent != [] && (strings.HasPrefix name "ƒ".data || strings.HasPrefix name "✓".data) then
    (sliceFrom? (byteLen "ƒ ".data) name).bind fun s1 =>
      let cleanCurrent := strings.TrimSpace s1
      if strings.HasPrefix name "✓".data then
        (sliceFrom? (byteLen "✓ ".data) name).bind fun s2 =>
          some ("✓ ".data ++ parent ++ " » ".data ++ strings.TrimSpace s2)
      else some ("ƒ ".data ++ parent ++ ".".data ++ cleanCurrent)
  else some name

/-- The scope pushed for a matched construct, with the checks of the naming. -/
def newScopeC (ext text : Str) (st : ScanState) (v : Vars) : Option Scope :=
  (parentNameC st.scopeStack).bind fun parent =>
    (qualifyNameC parent v.name).bind fun name =>
      some { Region := { Start := st.lineNum, End := 0, Name := name }
             OpenLevel := startParam ext text v st.braceLevel st.parenLevel
             Indent := startParam ext text v st.braceLevel st.parenLevel
             CloseChar := v.closeChar
             Tag := v.tagName }

/-- Steps 2 and 3 of a line with their checks. -/
def openPhaseC (ext : Str) (st : ScanState) (text : Str) : Option ScanState :=
  (markerLabelC text).bind fun marker =>
    match marker with
    | some cleanName =>
      if cleanName.length > 0 then
        some { st with regions :=
          st.regions ++ [⟨st.lineNum, st.lineNum, "📍 ".data ++ cleanName⟩] }
      else some st
    | none =>
      (autoDetectC ext text).bind fun d =>
        match d with
        | .heading name =>
          some { st with regions := st.regions ++ [⟨st.lineNum, st.lineNum, name⟩] }
        | .vars v0 =>
          (depNameC ext text).bind fun dep =>
            let st1 : ScanState :=
              if dep != [] then
                { st with regions := st.regions ++
                    [⟨st.lineNum, st.lineNum, "🔗 depends on: ".data ++ dep⟩] }
              else st
            (htmlDetectC ext text v0).bind fun v =>
              if v.matched then
                (newScopeC ext text st1 v).bind fun sc =>
                  some { st1 with scopeStack := sc :: st1.scopeStack }
              else some st1

/-- One iteration of the scan loop with its checks. -/
def processLineC (ext : Str) (st : ScanState) (text : Str) : Option ScanState :=
  (closePhaseC ext st text).bind fun st1 => openPhaseC ext st1 text

/-- The scan loop with its checks. -/
def scanFromC (ext : Str) : ScanState → List Str → Option ScanState
  | st, [] => some st
  | st, l :: ls => (processLineC ext st l).bind fun st1 => scanFromC ext st1 ls

/-- One iteration of the post-processing loop, in place, with `regions[i]` and
`regions[i+1]` checked. -/
def extendStepC (lineNum : Nat) (regions : List Region) (i : Nat) : Option (List Region) :=
  (index? regions i).bind fun ri =>
    if ri.Start == ri.End then
      if i + 1 < regions.length then
        (index? regions (i + 1)).bind fun rn =>
          if rn.Start > ri.Start then some (regions.set i { ri with End := rn.Start - 1 })
          else some regions
      else some (regions.set i { ri with End := lineNum })
    else some regions

/-- The post-processing loop `for i := 0; i < len(regions); i++`, from index `i` with the
given number of iterations left. -/
def extendLoopC (lineNum : Nat) : Nat → Nat → List Region → Option (List Region)
  | 0, _, regions => some regions
  | k + 1, i, regions =>
    (extendStepC lineNum regions i).bind fun rs => extendLoopC lineNum k (i + 1) rs

/-- The source's `GenerateMap` with its run-time checks: `none` if any index or slice
expression of the scan, of the naming or of the post-processing is out of range. -/
def GenerateMapC (sort : List Region → List Region) (ext : Str) (lines : List Str) :
    Option MapFile :=
  (scanFromC ext initState lines).bind fun st =>
    let regions := sort (st.regions ++ closeRemaining st)
    (extendLoopC st.lineNum regions.length 0 regions).bind fun rs =>
      some { LOC := st.lineNum, rows := writeRows st.lineNum rs }

/-- The shape of a name that makes the two byte slices of the renaming lie within it: a name
that starts with one of the two icons is at least as long as the icon with its blank. -/
def NameOk (name : Str) : Prop :=
  (strings.HasPrefix name "ƒ".data = true → byteLen "ƒ ".data ≤ byteLen name) ∧
  (strings.HasPrefix name "✓".data = true → byteLen "✓ ".data ≤ byteLen name)

/-! ## The sidecar text and its two readers in `writeLevelMaps` -/

/-- Go `strings.Cut` for a one-character separator: the text before and after its first
occurrence, if there is one. -/
def strings.Cut : Str → Char → Option (Str × Str)
  | [], _ => none
  | c :: cs, sep =>
    if c == sep then some ([], cs)
    else (strings.Cut cs sep).map fun p => (c :: p.1, p.2)

/-- Go `strings.SplitN` for a one-character separator and a count `n ≥ 0`: at most `n`
pieces, the last one being the unsplit rest (no piece at all for `n = 0`). -/
def strings.SplitN (s : Str) (sep : Char) : Nat → List Str
  | 0 => []
  | 1 => [s]
  | n + 2 =>
    match strings.Cut s sep with
    | none => [s]
    | some (a, rest) => a :: strings.SplitN rest sep (n + 1)

/-- Go `strings.Split` for a one-character separator: `genSplit` with the count set to the
number of separators plus one. -/
def strings.Split (s : Str) (sep : Char) : List Str :=
  strings.SplitN s sep (strings.Count s sep + 1)

/-- The verb `%4s`: the text padded on the left with spaces to four runes. -/
def pad4 (s : Str) : Str := List.replicate (4 - s.length) ' ' ++ s

/-- The verb `%4d` on a non-negative number. -/
def pad4d (n : Nat) : Str := pad4 (Nat.repr n).data

/-- The canonical row `fmt.Sprintf("| %4s | %4s | %s\n", start, end, name)`. -/
def fmtRow (start stop name : Str) : Str :=
  "| ".data ++ pad4 start ++ " | ".data ++ pad4 stop ++ " | ".data ++ name ++ "\n".data

/-- The row `GenerateMap` writes for a region: `"| %4d | %4d | %s\n"`. -/
def renderRow (r : Region) : Str :=
  "| ".data ++ pad4d r.Start ++ " | ".data ++ pad4d r.End ++ " | ".data ++ r.Name ++ "\n".data

/-- The text of the sidecar `GenerateMap` writes: the five header lines, the separator and
the region rows. The base name, the path, the size and the modification time are those of
the source file, already formatted. -/
def sidecarContent (base path size modified : Str) (m : MapFile) : Str :=
  "File: ".data ++ base ++ "\n".data ++
  "Path: ".data ++ path ++ "\n".data ++
  "Size: ".data ++ size ++ " KB\n".data ++
  "LOC: ".data ++ (Nat.repr m.LOC).data ++ "\n".data ++
  "Modified: ".data ++ modified ++ "\n".data ++
  "--------------------------------------------------\n".data ++
  (m.rows.map renderRow).flatten

/-- The header fields the Level-1 reader skips while it is in the header. -/
def isHeaderField (l : Str) : Bool :=
  strings.HasPrefix l "File:".data || strings.HasPrefix l "Path:".data ||
    strings.HasPrefix l "Size:".data || strings.HasPrefix l "LOC:".data ||
    strings.HasPrefix l "Modified:".data

/-- The test `unicode.IsDigit(rune(l[0]))` on a non-empty line: the first byte is an ASCII
digit (no other byte is a digit as a Latin-1 rune). -/
def firstByteIsDigit : Str → Bool
  | [] => false
  | c :: _ => c.isDigit

/-- The row the Level-1 reader writes for a trimmed content line: the current format
first, then the old one, then the best-effort row. -/
def level1Row (l : Str) : Str :=
  let parts := strings.SplitN (sliceFrom 1 l) '|' 3
  if strings.HasPrefix l "|".data && parts.length ≥ 3 then
    fmtRow (strings.TrimSpace (sub parts 0)) (strings.TrimSpace (sub parts 1))
      (strings.TrimSpace (sub parts 2))
  else
    let parts := strings.SplitN l '|' 2
    if parts.length == 2 then
      fmtRow (strings.TrimSpace (sub parts 0)) (strings.TrimSpace (sub parts 0))
        (strings.TrimSpace (sub parts 1))
    else fmtRow "?".data "?".data l

/-- State of the Level-1 reader: the header flag and the rows written so far. -/
structure Level1State where
  inHeader : Bool
  out : List Str
  deriving DecidableEq, Repr

/-- One iteration of the Level-1 reader loop on a line of the sidecar. -/
def level1Step (st : Level1State) (raw : Str) : Level1State :=
  let l := strings.TrimSpace raw
  if l.isEmpty then st
  else if st.inHeader && isHeaderField l then st
  else if st.inHeader && strings.HasPrefix l "-----".data then { st with inHeader := false }
  else
    let inHeader := st.inHeader &&
      !(strings.HasPrefix l "|".data || (strings.Contains l "|".data && firstByteIsDigit l))
    if inHeader then st
    else { inHeader := false, out := st.out ++ [level1Row l] }

/-- The Level-1 reader loop over the lines of a sidecar. -/
def level1Lines (lines : List Str) : List Str :=
  (lines.foldl level1Step { inHeader := true, out := [] }).out

/-- The rows Level-1 writes for a sidecar content. -/
def level1Rows (content : Str) : List Str := level1Lines (strings.Split content '\n')

/-- The row Level-3 writes for a line of the sidecar, if it writes one. -/
def level3Line (indent raw : Str) : Option Str :=
  let l := strings.TrimSpace raw
  let parts := strings.SplitN l '|' 4
  if parts.length ≥ 3 && strings.HasPrefix l "|".data then
    let p := strings.Split l '|'
    if p.length ≥ 4 then
      some (indent ++ "    ".data ++
        fmtRow (strings.TrimSpace (sub p 1)) (strings.TrimSpace (sub p 2))
          (strings.TrimSpace (sub p 3)))
    else none
  else none

/-- The rows Level-3 inlines for a sidecar content, at an indentation. -/
def level3Rows (indent content : Str) : List Str :=
  (strings.Split content '\n').filterMap (level3Line indent)

/-- A record of a sidecar: a current-format row with its three fields, or an old two-field
row with its range and name. -/
inductive Record where
  | current (s e n : Str)
  | legacy (r n : Str)
  deriving DecidableEq, Repr

/-- The text of a record: `|s|e|n`, or `r|n`. -/
def Record.text : Record → Str
  | .current s e n => '|' :: (s ++ '|' :: (e ++ '|' :: n))
  | .legacy r n => r ++ '|' :: n

/-- The fields are fields: no `|` in the start and end of a current row, and a non-empty
range without `|` in an old row. -/
def Record.wellFormed : Record → Bool
  | .current s e _ => !s.contains '|' && !e.contains '|'
  | .legacy r _ => !r.contains '|' && !r.isEmpty

/-- A record the reader recognises while it is still in the header: a current row, or an
old row whose range starts with a digit. -/
def Record.selfDetecting : Record → Bool
  | .current _ _ _ => true
  | .legacy r _ => firstByteIsDigit r

/-- The canonical row of a record: fields trimmed, an old range as both start and end. -/
def Record.canonical : Record → Str
  | .current s e n => fmtRow (strings.TrimSpace s) (strings.TrimSpace e) (strings.TrimSpace n)
  | .legacy r n => fmtRow (strings.TrimSpace r) (strings.TrimSpace r) (strings.TrimSpace n)

/-- A markdown file whose heading contains the field separator. -/
def fileMdPipe : List Str := linesOf ["# a | b", "text"]

/-! ## The file tree and the clean-up walks (`cleanup.go`, `fs.go`) -/

/-- Go `strings.HasSuffix`. -/
def strings.HasSuffix (s suffix : Str) : Bool := suffix.reverse.isPrefixOf s.reverse

/-- Go `strings.TrimSuffix`. -/
def strings.TrimSuffix (s suffix : Str) : Str :=
  if strings.HasSuffix s suffix then s.take (s.length - suffix.length) else s

/-- The key of a rune under simple case folding, for the runes that fold to an ASCII
letter: the ASCII letters themselves, U+212A (Kelvin sign) and U+017F (long s). -/
def unicode.foldKey (c : Char) : Char :=
  if c.toNat == 0x212A then Char.ofNat 107
  else if c.toNat == 0x17F then Char.ofNat 115
  else c.toLower

/-- Go `strings.EqualFold` on ASCII text: rune by rune under `unicode.foldKey`. It is the
library function whenever one of the two sides is ASCII text. -/
def strings.EqualFold (s t : Str) : Bool :=
  s.length == t.length && (s.zip t).all fun p => unicode.foldKey p.1 == unicode.foldKey p.2

/-- The two case functions of the Go library that `fs.ShouldIgnoreName` and `CleanupMaps`
call, `strings.ToLower` and `strings.EqualFold`, taken as they are: the clean-up is stated
for any pair of them. -/
structure CaseFns where
  ToLower : Str → Str
  EqualFold : Str → Str → Bool

/-- The case functions on ASCII names, for the concrete trees (their names, extensions and
ignore lists are ASCII). -/
def asciiCase : CaseFns := { ToLower := strings.ToLower, EqualFold := strings.EqualFold }

/-- The list `IgnoredDirs` of `fs.go`. -/
def IgnoredDirs : List Str :=
  linesOf [".git", "node_modules", "dist", "bin", "vendor", ".idea", ".vscode"]

/-- `fs.ShouldIgnoreName`. -/
def ShouldIgnoreName (go : CaseFns) (name : Str) (extra : List Str) : Bool :=
  if strings.HasPrefix name ".".data && name != ".".data then true
  else if IgnoredDirs.any (fun ignored => go.EqualFold name ignored) then true
  else extra.any (fun ignored => go.EqualFold name ignored)

/-- A path: the names from the root of the file system down. -/
abbrev Path := List Str

/-- `fs.ShouldIgnore`: the path is not looked at, only `info.Name()`. -/
def ShouldIgnore (go : CaseFns) (_path : Str) (infoName : Str) (extraIgnores : List Str) :
    Bool :=
  ShouldIgnoreName go infoName extraIgnores

/-- An existing file or directory. -/
structure Entry where
  path : Path
  isDir : Bool
  deriving DecidableEq, Repr

/-- The name `info.Name()` of an entry the walk reports: the last name of its path. -/
def Entry.Name (e : Entry) : Str := e.path.getLast?.getD "/".data

/-- The state of the file tree: its files and directories, each listed once, every
directory above an entry listed too. -/
abbrev Tree := List Entry

/-- The text of a path: `/` before every name. -/
def pathString : Path → Str
  | [] => "/".data
  | n :: ns => (n :: ns).flatMap fun name => '/' :: name

/-- The path that the text of a path names for the operating system: empty names and `.`
are dropped, `..` goes one directory up. -/
def os.resolve (s : Str) : Path :=
  (strings.Split s '/').foldl
    (fun acc name =>
      if name == [] || name == ".".data then acc
      else if name == "..".data then acc.dropLast
      else acc ++ [name]) []

/-- The `Name()` of the info `os.Stat` returns for a path text: trailing slashes
stripped, then what follows the last slash. -/
def os.basename (s : Str) : Str :=
  match (s.reverse.dropWhile fun c => c == '/') with
  | [] => if s.isEmpty then [] else "/".data
  | c :: rest => (c :: rest.takeWhile fun d => d != '/').reverse

/-- Go `filepath.Ext`: the suffix from the last dot of the last element of the path text,
empty if that element has no dot. -/
def filepath.Ext (s : Str) : Str :=
  let seg := s.reverse.takeWhile fun c => c != '/'
  if seg.contains '.' then ('.' :: (seg.takeWhile fun c => c != '.').reverse) else []

/-- `os.Stat(p)` returns no error: something exists at the path. The root of the file
system always exists. -/
def os.exists (fs : Tree) (p : Path) : Bool := p.isEmpty || fs.any fun e => e.path == p

/-- Something exists strictly below the path. -/
def hasChildren (fs : Tree) (p : Path) : Bool :=
  fs.any fun e => p.isPrefixOf e.path && e.path != p

/-- `os.Remove(p)`: a file at the path is removed; a directory only if it is empty. -/
def os.Remove (fs : Tree) (p : Path) : Tree :=
  fs.filter fun e => !(e.path == p && (!e.isDir || !hasChildren fs p))

/-- Byte-wise order of names, as `sort.Strings` compares them. -/
def nameLt : Str → Str → Bool
  | [], [] => false
  | [], _ :: _ => true
  | _ :: _, [] => false
  | a :: as, b :: bs => decide (a.toNat < b.toNat) || (a == b && nameLt as bs)

/-- The order in which a walk reaches two paths: a directory before what it holds, the
names of a directory in lexical order. -/
def pathLt : Path → Path → Bool
  | [], [] => false
  | [], _ :: _ => true
  | _ :: _, [] => false
  | a :: as, b :: bs => nameLt a b || (a == b && pathLt as bs)

/-- Insertion of an entry at its place in the walk order. -/
def insertEntry (e : Entry) : List Entry → List Entry
  | [] => [e]
  | x :: xs => if pathLt x.path e.path then x :: insertEntry e xs else e :: x :: xs

/-- The entries at or below a root, in the order `filepath.Walk` reaches them. -/
def walkOrder (fs : Tree) (root : Path) : List Entry :=
  (fs.filter fun e => root.isPrefixOf e.path).foldr insertEntry []

/-- State of a walk: the tree, and the directories the callback asked to skip. -/
structure WalkState where
  fs : Tree
  skipped : List Path
  deriving DecidableEq, Repr

/-- One step of `filepath.Walk`: unless the entry lies in a skipped directory, the callback
runs on it, with its info if `lstat` still finds it and with an error otherwise; a
directory for which the callback returns `SkipDir` is not entered. -/
def walkStep (fn : Tree → Path → Option Entry → Tree × Bool) (st : WalkState) (e : Entry) :
    WalkState :=
  if st.skipped.any (fun d => d.isPrefixOf e.path) then st
  else
    let info := if st.fs.contains e then some e else none
    let r := fn st.fs e.path info
    { fs := r.1, skipped := if r.2 && e.isDir && info.isSome then e.path :: st.skipped
                            else st.skipped }

/-- Go `filepath.Walk` with a callback that returns the new tree and whether it answers
`SkipDir` (it answers `nil` otherwise). A root that does not exist is reported to the
callback with an error. -/
def filepath.Walk (fn : Tree → Path → Option Entry → Tree × Bool) (root : Path)
    (fs : Tree) : Tree :=
  if fs.any (fun e => e.path == root) then
    ((walkOrder fs root).foldl (walkStep fn) { fs := fs, skipped := [] }).fs
  else (fn fs root none).1

/-- `config.RootConfig`. -/
structure RootConfig where
  Path : Path
  AllowedExts : List Str
  IgnoredDirs : List Str
  deriving DecidableEq, Repr

/-- `config.Config`, its roots. -/
structure Config where
  Roots : List RootConfig
  deriving DecidableEq, Repr

/-- The four directory-level artifacts. -/
def levelFiles : List Str :=
  linesOf ["_level_0.map.txt", "_level_1.map.txt", "_level_2.map.txt", "_level_3.map.txt"]

/-- The test `strings.HasSuffix(path, ".map.txt")` on a path. -/
def isMapPath (p : Path) : Bool := strings.HasSuffix (pathString p) ".map.txt".data

/-- The text `sourcePath := strings.TrimSuffix(path, ".map.txt")`. -/
def sourcePath (p : Path) : Str := strings.TrimSuffix (pathString p) ".map.txt".data

/-- The removal of the level artifacts directly inside an ignored directory. -/
def removeLevelFiles (fs : Tree) (path : Path) : Tree :=
  levelFiles.foldl
    (fun fs f =>
      let mapPath := path ++ [f]
      if os.exists fs mapPath then os.Remove fs mapPath else fs) fs

/-- The callback of the walk in `CleanupMaps` for a root. It never answers `SkipDir`. -/
def cleanupVisit (go : CaseFns) (rc : RootConfig) (fs : Tree) (path : Path)
    (info : Option Entry) : Tree × Bool :=
  match info with
  | none => (fs, false)
  | some info =>
    if info.isDir then
      if ShouldIgnore go (pathString path) info.Name rc.IgnoredDirs then
        (removeLevelFiles fs path, false)
      else (fs, false)
    else if isMapPath path then
      let sourcePath := sourcePath path
      if !os.exists fs (os.resolve sourcePath) then (os.Remove fs path, false)
      else if ShouldIgnore go sourcePath (os.basename sourcePath) rc.IgnoredDirs then
        (os.Remove fs path, false)
      else
        let ext := go.ToLower (filepath.Ext sourcePath)
        let isAllowed := rc.AllowedExts.any fun allowed => allowed == ext
        if !isAllowed then (os.Remove fs path, false) else (fs, false)
    else (fs, false)

/-- `CleanupMaps`: the walk of every root in turn. -/
def CleanupMaps (go : CaseFns) (cfg : Config) (fs : Tree) : Tree :=
  cfg.Roots.foldl (fun fs rc => filepath.Walk (cleanupVisit go rc) rc.Path fs) fs

/-- The callback of the walk in `DeepClean`. -/
def deepCleanVisit (fs : Tree) (path : Path) (info : Option Entry) : Tree × Bool :=
  match info with
  | none => (fs, false)
  | some info =>
    if !info.isDir && isMapPath path then (os.Remove fs path, false) else (fs, false)

/-- `DeepClean`. -/
def DeepClean (targetDir : Path) (fs : Tree) : Tree :=
  filepath.Walk deepCleanVisit targetDir fs

/-- A path from its text, for the concrete trees. -/
def pathOf (s : String) : Path := os.resolve s.data

/-- A file entry from the text of its path. -/
def fileAt (s : String) : Entry := { path := pathOf s, isDir := false }

/-- A directory entry from the text of its path. -/
def dirAt (s : String) : Entry := { path := pathOf s, isDir := true }

/-- A root that allows `.go` only, after `a.go` was deleted: its four level artifacts, the
orphaned sidecar of `a.go`, `b.go` with its sidecar, and an ignored directory with a
source and its sidecar. -/
def treeGoRoot : Tree :=
  [dirAt "/proj", fileAt "/proj/_level_0.map.txt", fileAt "/proj/_level_1.map.txt",
   fileAt "/proj/_level_2.map.txt", fileAt "/proj/_level_3.map.txt",
   fileAt "/proj/a.go.map.txt", fileAt "/proj/b.go", fileAt "/proj/b.go.map.txt",
   dirAt "/proj/node_modules", fileAt "/proj/node_modules/x.go",
   fileAt "/proj/node_modules/x.go.map.txt"]

/-- The configuration of `treeGoRoot`. -/
def cfgGoRoot : Config :=
  { Roots := [{ Path := pathOf "/proj", AllowedExts := linesOf [".go"], IgnoredDirs := [] }] }

/-- An ignored directory with a level artifact, an orphaned sidecar directly inside and
another one in a deeper directory. -/
def treeIgnored : Tree :=
  [dirAt "/proj", fileAt "/proj/main.js", fileAt "/proj/main.js.map.txt",
   dirAt "/proj/node_modules", fileAt "/proj/node_modules/_level_0.map.txt",
   fileAt "/proj/node_modules/x.js.map.txt", dirAt "/proj/node_modules/pkg",
   fileAt "/proj/node_modules/pkg/y.js.map.txt", fileAt "/proj/node_modules/pkg/z.txt"]

/-- The configuration of `treeIgnored`. -/
def cfgJsRoot : Config :=
  { Roots := [{ Path := pathOf "/proj", AllowedExts := linesOf [".js"], IgnoredDirs := [] }] }

/-- A tree with sidecars nested three levels deep. -/
def treeDeep : Tree :=
  [dirAt "/w", fileAt "/w/a.go", fileAt "/w/a.go.map.txt", fileAt "/w/_level_0.map.txt",
   dirAt "/w/x", fileAt "/w/x/b.py.map.txt", dirAt "/w/x/y", dirAt "/w/x/y/z",
   fileAt "/w/x/y/z/c.js", fileAt "/w/x/y/z/c.js.map.txt", dirAt "/w/x/y/z/d.map.txt",
   dirAt "/other", fileAt "/other/e.go.map.txt"]

/-- A walk callback that never answers `SkipDir`, creates nothing and removes nothing but
entries whose path ends in `.map.txt`. -/
def OnlyRemovesMaps (fn : Tree → Path → Option Entry → Tree × Bool) : Prop :=
  ∀ (fs : Tree) (p : Path) (info : Option Entry),
    (fn fs p info).2 = false ∧ (∀ x ∈ (fn fs p info).1, x ∈ fs) ∧
      (∀ x ∈ fs, isMapPath x.path = false → x ∈ (fn fs p info).1)

/-! # Theorems -/

/-! ## The insertion sort meets the contract of `sort.Slice` -/

theorem bubble_perm (x : Region) (l : List Region) : List.Perm (bubble x l) (x :: l) := by
  induction l with
  | nil => simp [bubble]
  | cons y ys ih =>
    simp only [bubble]
    split
    · exact (List.Perm.cons y ih).trans (List.Perm.swap x y ys)
    · exact List.Perm.refl _

theorem bubble_sorted (x : Region) (l : List Region)
    (h : l.Pairwise (fun a b => b.Start ≤ a.Start)) :
    (bubble x l).Pairwise (fun a b => b.Start ≤ a.Start) := by
  induction l with
  | nil => simp [bubble]
  | cons y ys ih =>
    simp only [bubble]
    rw [List.pairwise_cons] at h
    split
    · rw [List.pairwise_cons]
      refine ⟨?_, ih h.2⟩
      intro b hb
      have hb2 := (bubble_perm x ys).mem_iff.mp hb
      rcases List.mem_cons.mp hb2 with hb3 | hb3
      · subst hb3; omega
      · exact h.1 b hb3
    · rw [List.pairwise_cons]
      refine ⟨?_, List.pairwise_cons.mpr h⟩
      intro b hb
      rcases List.mem_cons.mp hb with hb3 | hb3
      · subst hb3; omega
      · have := h.1 b hb3; omega

theorem foldl_bubble_perm (l acc : List Region) :
    List.Perm (l.foldl (fun acc x => bubble x acc) acc) (l.reverse ++ acc) := by
  induction l generalizing acc with
  | nil => simp
  | cons x xs ih =>
    simp only [List.foldl_cons, List.reverse_cons, List.append_assoc, List.singleton_append]
    exact (ih (bubble x acc)).trans (List.Perm.append_left _ (bubble_perm x acc))

theorem foldl_bubble_sorted (l acc : List Region)
    (h : acc.Pairwise (fun a b => b.Start ≤ a.Start)) :
    (l.foldl (fun acc x => bubble x acc) acc).Pairwise (fun a b => b.Start ≤ a.Start) := by
  induction l generalizing acc with
  | nil => simpa using h
  | cons x xs ih => exact ih _ (bubble_sorted x acc h)

theorem insertionSort_perm (l : List Region) : List.Perm (insertionSort l) l := by
  unfold insertionSort
  refine (List.reverse_perm _).trans ?_
  refine (foldl_bubble_perm l []).trans ?_
  simp

theorem insertionSort_sorted (l : List Region) :
    (insertionSort l).Pairwise (fun a b => a.Start ≤ b.Start) := by
  unfold insertionSort
  rw [List.pairwise_reverse]
  exact foldl_bubble_sorted l [] List.Pairwise.nil

/-- The insertion sort satisfies the contract of `sort.Slice`. -/
theorem insertionSort_contract : SliceSortContract insertionSort :=
  ⟨insertionSort_perm, insertionSort_sorted⟩

/-! ## Line counting -/

theorem closePhase_lineNum (ext : Str) (st : ScanState) (text : Str) :
    (closePhase ext st text).lineNum = st.lineNum + 1 := rfl

theorem openPhase_lineNum (ext : Str) (st : ScanState) (text : Str) :
    (openPhase ext st text).lineNum = st.lineNum := by
  unfold openPhase
  split
  · split <;> rfl
  · split
    · rfl
    · dsimp only
      split <;> split <;> rfl

theorem processLine_lineNum (ext : Str) (st : ScanState) (text : Str) :
    (processLine ext st text).lineNum = st.lineNum + 1 := by
  unfold processLine
  rw [openPhase_lineNum, closePhase_lineNum]

theorem scanFrom_lineNum (ext : Str) (st : ScanState) (lines : List Str) :
    (scanFrom ext st lines).lineNum = st.lineNum + lines.length := by
  induction lines generalizing st with
  | nil => simp [scanFrom]
  | cons l ls ih =>
    have := ih (processLine ext st l)
    simp only [scanFrom, List.foldl_cons, List.length_cons] at this ⊢
    rw [this, processLine_lineNum]; omega

theorem GenerateMap_LOC (sort : List Region → List Region) (ext : Str) (lines : List Str) :
    (GenerateMap sort ext lines).LOC = lines.length := by
  simp [GenerateMap, scanFrom_lineNum, initState]

/-! ## What one line does to the regions and to the stack -/

theorem newScope_congr (ext text : Str) (s t : ScanState) (v : Vars)
    (h1 : s.lineNum = t.lineNum) (h2 : s.scopeStack = t.scopeStack)
    (h3 : s.braceLevel = t.braceLevel) (h4 : s.parenLevel = t.parenLevel) :
    newScope ext text s v = newScope ext text t v := by
  simp [newScope, h1, h2, h3, h4]

/-- One iteration of the scan loop, field by field. -/
theorem processLine_eq (ext : Str) (st : ScanState) (text : Str) :
    processLine ext st text =
      { lineNum := st.lineNum + 1
        braceLevel := braceAfter ext st text
        parenLevel := parenAfter ext st text
        scopeStack := (pushedNow ext st text).toList ++ stackAfterClose ext st text
        regions := st.regions ++ closedNow ext st text ++ pointNow ext st text } := by
  unfold processLine openPhase pointNow pushedNow
  cases h1 : markerLabel text with
  | some c => by_cases h2 : c.length > 0 <;> simp [closePhase, h2]
  | none =>
    cases h3 : autoDetect ext text with
    | heading n => simp [closePhase]
    | vars v =>
      by_cases h4 : depName ext text = [] <;>
        by_cases h5 : (detectLine ext text v).matched = true <;>
          simp [closePhase, h4, h5, newScope]

theorem processLine_regions (ext : Str) (st : ScanState) (text : Str) :
    (processLine ext st text).regions =
      st.regions ++ closedNow ext st text ++ pointNow ext st text := by
  rw [processLine_eq]

theorem processLine_stack (ext : Str) (st : ScanState) (text : Str) :
    (processLine ext st text).scopeStack =
      (pushedNow ext st text).toList ++ stackAfterClose ext st text := by
  rw [processLine_eq]

theorem pointNow_shape (ext : Str) (st : ScanState) (text : Str) :
    ∀ r ∈ pointNow ext st text, r.Start = st.lineNum + 1 ∧ r.End = st.lineNum + 1 := by
  intro r hr
  unfold pointNow at hr
  split at hr
  · split at hr
    · simp at hr; subst hr; exact ⟨rfl, rfl⟩
    · simp at hr
  · split at hr
    · simp at hr; subst hr; exact ⟨rfl, rfl⟩
    · split at hr
      · simp at hr; subst hr; exact ⟨rfl, rfl⟩
      · simp at hr

theorem pushedNow_start (ext : Str) (st : ScanState) (text : Str) :
    ∀ sc ∈ pushedNow ext st text, sc.Region.Start = st.lineNum + 1 := by
  intro sc hsc
  unfold pushedNow at hsc
  split at hsc
  · simp at hsc
  · split at hsc
    · simp at hsc
    · split at hsc
      · simp at hsc; subst hsc; rfl
      · simp at hsc

theorem closedNow_shape (ext : Str) (st : ScanState) (text : Str) :
    ∀ r ∈ closedNow ext st text, r.End = st.lineNum + 1 ∧
      ∃ s ∈ st.scopeStack, s.Region.Start = r.Start ∧ s.Region.Name = r.Name := by
  intro r hr
  simp only [closedNow, List.mem_map] at hr
  obtain ⟨s, hs, rfl⟩ := hr
  exact ⟨rfl, s, (List.takeWhile_prefix _).subset hs, rfl, rfl⟩

theorem stackAfterClose_sub (ext : Str) (st : ScanState) (text : Str) :
    ∀ s ∈ stackAfterClose ext st text, s ∈ st.scopeStack := by
  intro s hs
  exact (List.dropWhile_suffix _).subset hs

/-! ## Line bounds of the regions -/

theorem bounded_init : Bounded initState := by
  constructor <;> intro x hx <;> simp [initState] at hx

theorem bounded_step (ext : Str) (st : ScanState) (text : Str) (h : Bounded st) :
    Bounded (processLine ext st text) := by
  obtain ⟨hr, hs⟩ := h
  rw [processLine_eq]
  constructor
  · intro r hmem
    simp only [List.mem_append] at hmem
    rcases hmem with (hmem | hmem) | hmem
    · have := hr r hmem
      dsimp only; omega
    · obtain ⟨he, s, hs1, hs2, _⟩ := closedNow_shape ext st text r hmem
      have := hs s hs1
      dsimp only; omega
    · have := pointNow_shape ext st text r hmem
      dsimp only; omega
  · intro s hmem
    simp only [List.mem_append, Option.mem_toList] at hmem
    rcases hmem with hmem | hmem
    · have := pushedNow_start ext st text s hmem
      dsimp only; omega
    · have := hs s (stackAfterClose_sub ext st text s hmem)
      dsimp only; omega

theorem bounded_scan (ext : Str) (st : ScanState) (lines : List Str) (h : Bounded st) :
    Bounded (scanFrom ext st lines) := by
  induction lines generalizing st with
  | nil => simpa [scanFrom] using h
  | cons l ls ih => exact ih (processLine ext st l) (bounded_step ext st l h)

theorem scanRegions_bounds (ext : Str) (lines : List Str) :
    ∀ r ∈ scanRegions ext lines, 1 ≤ r.Start ∧ r.Start ≤ r.End ∧ r.End ≤ lines.length := by
  intro r hr
  have hb := bounded_scan ext initState lines bounded_init
  have hn : (scanFrom ext initState lines).lineNum = lines.length := by
    simp [scanFrom_lineNum, initState]
  simp only [scanRegions, List.mem_append, closeRemaining, List.mem_map] at hr
  rcases hr with hr | ⟨s, hs, rfl⟩
  · have := hb.1 r hr; omega
  · have := hb.2 s hs
    dsimp only; omega

/-! ## The post-processing loop and the sanity check -/

theorem extendMarkers_length (N : Nat) (l : List Region) :
    (extendMarkers N l).length = l.length := by
  induction l with
  | nil => rfl
  | cons r t ih =>
    cases t with
    | nil => simp [extendMarkers]
    | cons n rest => simp only [extendMarkers, List.length_cons] at ih ⊢; omega

theorem extendMarkers_start (N : Nat) (l : List Region) :
    (extendMarkers N l).map (fun r => (r.Start, r.Name)) = l.map (fun r => (r.Start, r.Name)) := by
  induction l with
  | nil => rfl
  | cons r t ih =>
    cases t with
    | nil => simp only [extendMarkers, List.map_cons, List.map_nil]; split <;> rfl
    | cons n rest =>
      simp only [extendMarkers, List.map_cons] at ih ⊢
      rw [ih]
      congr 1
      split
      · split <;> rfl
      · rfl

theorem extendMarkers_bounds (N : Nat) (l : List Region)
    (h : ∀ r ∈ l, 1 ≤ r.Start ∧ r.Start ≤ N ∧ r.End ≤ N) :
    ∀ r ∈ extendMarkers N l, 1 ≤ r.Start ∧ r.Start ≤ N ∧ r.End ≤ N := by
  induction l with
  | nil => intro r hr; simp [extendMarkers] at hr
  | cons a t ih =>
    have ha := h a (List.mem_cons_self _ _)
    cases t with
    | nil =>
      intro r hr
      simp only [extendMarkers, List.mem_singleton] at hr
      subst hr
      split
      · dsimp only; omega
      · exact ha
    | cons n rest =>
      intro r hr
      simp only [extendMarkers, List.mem_cons] at hr
      have hn := h n (List.mem_cons_of_mem _ (List.mem_cons_self _ _))
      rcases hr with hr | hr
      · subst hr
        split
        · split
          · dsimp only; omega
          · exact ha
        · exact ha
      · exact ih (fun r hr => h r (List.mem_cons_of_mem _ hr)) r
          (by simpa only [extendMarkers, List.mem_cons] using hr)

theorem clampEnd_start (r : Region) : (clampEnd r).Start = r.Start ∧ (clampEnd r).Name = r.Name := by
  unfold clampEnd; split <;> exact ⟨rfl, rfl⟩

theorem clampEnd_le (r : Region) : (clampEnd r).Start ≤ (clampEnd r).End := by
  unfold clampEnd; split
  · exact Nat.le_refl _
  · omega

theorem clampEnd_end_le (N : Nat) (r : Region) (h1 : r.Start ≤ N) (h2 : r.End ≤ N) :
    (clampEnd r).End ≤ N := by
  unfold clampEnd; split
  · exact h1
  · exact h2

theorem sort_nil (sort : List Region → List Region) (hS : SliceSortContract sort) : sort [] = [] :=
  List.Perm.eq_nil (hS.1 [])

theorem sort_length (sort : List Region → List Region) (hS : SliceSortContract sort)
    (l : List Region) : (sort l).length = l.length := (hS.1 l).length_eq

/-- The rows written, in the two cases of the writing step. -/
theorem GenerateMap_rows (sort : List Region → List Region) (hS : SliceSortContract sort)
    (ext : Str) (lines : List Str) :
    (scanRegions ext lines = [] →
      (GenerateMap sort ext lines).rows = [⟨1, lines.length, "(Entire File)".data⟩]) ∧
    (scanRegions ext lines ≠ [] →
      (GenerateMap sort ext lines).rows =
        (extendMarkers lines.length (sort (scanRegions ext lines))).map clampEnd) := by
  have hn : (scanFrom ext initState lines).lineNum = lines.length := by
    simp [scanFrom_lineNum, initState]
  constructor
  · intro h
    simp [GenerateMap, h, sort_nil sort hS, extendMarkers, writeRows, hn]
  · intro h
    have hl : 0 < (scanRegions ext lines).length := List.length_pos.mpr h
    simp only [GenerateMap, writeRows, hn, extendMarkers_length, sort_length sort hS]
    rw [if_pos hl]

/-! ## C1, C2, C3, C10 -/

/-- C1: for every file content and every extension, the rows that `GenerateMap` writes
are in non-decreasing order of their start line. -/
theorem C1_rows_sorted_by_start (sort : List Region → List Region)
    (hS : SliceSortContract sort) (ext : Str) (lines : List Str) :
    (GenerateMap sort ext lines).rows.Pairwise (fun a b => a.Start ≤ b.Start) := by
  by_cases h : scanRegions ext lines = []
  · rw [(GenerateMap_rows sort hS ext lines).1 h]
    exact List.pairwise_singleton _ _
  · rw [(GenerateMap_rows sort hS ext lines).2 h]
    have h0 : (extendMarkers lines.length (sort (scanRegions ext lines))).map (fun r => r.Start) =
        (sort (scanRegions ext lines)).map (fun r => r.Start) := by
      have := congrArg (List.map Prod.fst)
        (extendMarkers_start lines.length (sort (scanRegions ext lines)))
      simpa [List.map_map, Function.comp_def] using this
    have h1 : ((extendMarkers lines.length (sort (scanRegions ext lines))).map clampEnd).map
        (fun r => r.Start) = (sort (scanRegions ext lines)).map (fun r => r.Start) := by
      rw [List.map_map, ← h0]
      apply List.map_congr_left
      intro r _
      simp [(clampEnd_start r).1]
    have h2 : ((sort (scanRegions ext lines)).map (fun r => r.Start)).Pairwise (· ≤ ·) := by
      rw [List.pairwise_map]
      exact hS.2 _
    rw [← h1, List.pairwise_map] at h2
    exact h2

/-- Witness of C1: the rows of the markdown file with three headings are sorted. -/
theorem C1_rows_sorted_by_start_witness :
    (GenerateMap insertionSort ".md".data fileMdHeadings).rows.Pairwise
      (fun a b => a.Start ≤ b.Start) :=
  C1_rows_sorted_by_start insertionSort insertionSort_contract ".md".data fileMdHeadings

/-- C2 (the code departs from the claim): for a file of zero lines the only row written is
the fallback row, `start = 1` and `end = 0`, so `start ≤ end` fails there; in every file
with at least one line every row has `start ≤ end`. -/
theorem C2_empty_file_row_inverted (sort : List Region → List Region)
    (hS : SliceSortContract sort) (ext : Str) :
    (GenerateMap sort ext []).rows = [⟨1, 0, "(Entire File)".data⟩] ∧
    (∀ lines : List Str, lines ≠ [] →
      ∀ r ∈ (GenerateMap sort ext lines).rows, r.Start ≤ r.End) := by
  constructor
  · exact (GenerateMap_rows sort hS ext []).1 rfl
  · intro lines hne r hr
    by_cases h : scanRegions ext lines = []
    · rw [(GenerateMap_rows sort hS ext lines).1 h, List.mem_singleton] at hr
      subst hr
      have : 0 < lines.length := List.length_pos.mpr hne
      dsimp only; omega
    · rw [(GenerateMap_rows sort hS ext lines).2 h, List.mem_map] at hr
      obtain ⟨x, _, rfl⟩ := hr
      exact clampEnd_le x

/-- Witness of C2: the empty `.py` file, with the insertion sort. -/
theorem C2_empty_file_row_inverted_witness :
    (GenerateMap insertionSort ".py".data []).rows = [⟨1, 0, "(Entire File)".data⟩] ∧
    (∀ lines : List Str, lines ≠ [] →
      ∀ r ∈ (GenerateMap insertionSort ".py".data lines).rows, r.Start ≤ r.End) :=
  C2_empty_file_row_inverted insertionSort insertionSort_contract ".py".data

/-- C3: for every file content and every extension, each row that `GenerateMap` writes has
`start ≥ 1` and `end ≤` the line count written in the header as `LOC`, and that count is
the number of lines of the file. -/
theorem C3_rows_within_file (sort : List Region → List Region)
    (hS : SliceSortContract sort) (ext : Str) (lines : List Str) :
    (GenerateMap sort ext lines).LOC = lines.length ∧
    ∀ r ∈ (GenerateMap sort ext lines).rows,
      1 ≤ r.Start ∧ r.End ≤ (GenerateMap sort ext lines).LOC := by
  refine ⟨GenerateMap_LOC sort ext lines, ?_⟩
  intro r hr
  rw [GenerateMap_LOC]
  by_cases h : scanRegions ext lines = []
  · rw [(GenerateMap_rows sort hS ext lines).1 h, List.mem_singleton] at hr
    subst hr
    exact ⟨Nat.le_refl _, Nat.le_refl _⟩
  · rw [(GenerateMap_rows sort hS ext lines).2 h, List.mem_map] at hr
    obtain ⟨x, hx, rfl⟩ := hr
    have hb := extendMarkers_bounds lines.length (sort (scanRegions ext lines))
      (fun r hr => by
        have := scanRegions_bounds ext lines r ((hS.1 _).mem_iff.mp hr)
        omega) x hx
    exact ⟨by rw [(clampEnd_start x).1]; exact hb.1, clampEnd_end_le _ x hb.2.1 hb.2.2⟩

/-- Witness of C3: the markdown file with three headings. -/
theorem C3_rows_within_file_witness :
    (GenerateMap insertionSort ".md".data fileMdHeadings).LOC = fileMdHeadings.length ∧
    ∀ r ∈ (GenerateMap insertionSort ".md".data fileMdHeadings).rows,
      1 ≤ r.Start ∧ r.End ≤ (GenerateMap insertionSort ".md".data fileMdHeadings).LOC :=
  C3_rows_within_file insertionSort insertionSort_contract ".md".data fileMdHeadings

/-- C10: when the scan detects no region the map has exactly one row, `1 .. line count`
named `(Entire File)`; when it detects at least one, the rows are the detected regions
(one row per region, same start lines and names) and no fallback row is added. -/
theorem C10_fallback_row (sort : List Region → List Region)
    (hS : SliceSortContract sort) (ext : Str) (lines : List Str) :
    (scanRegions ext lines = [] →
      (GenerateMap sort ext lines).rows = [⟨1, lines.length, "(Entire File)".data⟩]) ∧
    (scanRegions ext lines ≠ [] →
      (GenerateMap sort ext lines).rows.length = (scanRegions ext lines).length ∧
      List.Perm ((GenerateMap sort ext lines).rows.map (fun r => (r.Start, r.Name)))
        ((scanRegions ext lines).map (fun r => (r.Start, r.Name)))) := by
  refine ⟨(GenerateMap_rows sort hS ext lines).1, ?_⟩
  intro h
  rw [(GenerateMap_rows sort hS ext lines).2 h]
  refine ⟨by rw [List.length_map, extendMarkers_length, sort_length sort hS], ?_⟩
  have h1 : ((extendMarkers lines.length (sort (scanRegions ext lines))).map clampEnd).map
      (fun r => (r.Start, r.Name)) = (sort (scanRegions ext lines)).map (fun r => (r.Start, r.Name)) := by
    rw [List.map_map, ← extendMarkers_start lines.length]
    apply List.map_congr_left
    intro r _
    simp [(clampEnd_start r).1, (clampEnd_start r).2]
  rw [h1]
  exact (hS.1 _).map _

/-- Witness of C10: a text file in which nothing is detected gets the single fallback row,
and the markdown file with three headings gets its three heading rows. -/
theorem C10_fallback_row_witness :
    (GenerateMap insertionSort ".txt".data filePlain).rows = [⟨1, 2, "(Entire File)".data⟩] ∧
    (GenerateMap insertionSort ".md".data fileMdHeadings).rows.length = 3 :=
  ⟨(C10_fallback_row insertionSort insertionSort_contract ".txt".data filePlain).1 (by decide),
   ((C10_fallback_row insertionSort insertionSort_contract ".md".data fileMdHeadings).2
      (by decide)).1.trans (by decide)⟩

/-! ## The scope stack is ordered, and the regions it yields are nested -/

theorem stackOrdered_init : StackOrdered initState := by
  constructor
  · simp [initState]
  · intro s hs; simp [initState] at hs

theorem stackOrdered_step (ext : Str) (st : ScanState) (text : Str) (h : StackOrdered st) :
    StackOrdered (processLine ext st text) := by
  obtain ⟨hp, hb⟩ := h
  have hsub : ∀ s ∈ stackAfterClose ext st text, s.Region.Start ≤ st.lineNum :=
    fun s hs => hb s (stackAfterClose_sub ext st text s hs)
  have hpw : (stackAfterClose ext st text).Pairwise
      (fun a b => b.Region.Start < a.Region.Start) :=
    hp.sublist (List.dropWhile_suffix _).sublist
  rw [processLine_eq]
  constructor
  · dsimp only
    cases hpush : pushedNow ext st text with
    | none => simpa using hpw
    | some sc =>
      have hsc := pushedNow_start ext st text sc (by simp [hpush])
      simp only [Option.toList_some, List.singleton_append, List.pairwise_cons]
      refine ⟨?_, hpw⟩
      intro b hb2
      have := hsub b hb2
      omega
  · intro s hmem
    simp only [List.mem_append, Option.mem_toList] at hmem
    rcases hmem with hmem | hmem
    · have := pushedNow_start ext st text s hmem
      dsimp only; omega
    · have := hsub s hmem
      dsimp only; omega

/-- A scope that closes at a line and a scope that stays open: the one that stays started earlier. -/
theorem closed_above_open (ext : Str) (st : ScanState) (text : Str) (h : StackOrdered st)
    (a : Region) (ha : a ∈ closedNow ext st text)
    (s : Scope) (hs : s ∈ stackAfterClose ext st text) : s.Region.Start < a.Start := by
  simp only [closedNow, List.mem_map] at ha
  obtain ⟨t, ht, rfl⟩ := ha
  have hp := h.1
  rw [← List.takeWhile_append_dropWhile (closesAt ext st text) st.scopeStack,
    List.pairwise_append] at hp
  exact hp.2.2 t ht s hs

/-- Facts about the regions that the scope stack yields from a state on: where they
start, where they end, and that they are nested. -/
theorem scopeRegionsFrom_facts (ext : Str) (lines : List Str) :
    ∀ st : ScanState, StackOrdered st →
      (∀ r ∈ scopeRegionsFrom ext st lines,
        (st.lineNum < r.Start ∨ ∃ s ∈ st.scopeStack, s.Region.Start = r.Start) ∧
        st.lineNum ≤ r.End ∧ r.Start ≤ r.End ∧
        (r.Start < r.End ∨ r.End = st.lineNum + lines.length)) ∧
      (∀ A ∈ scopeRegionsFrom ext st lines, ∀ B ∈ scopeRegionsFrom ext st lines,
        A.Start < B.Start → B.Start < A.End → B.End ≤ A.End) := by
  induction lines with
  | nil =>
    intro st h
    constructor
    · intro r hr
      simp only [scopeRegionsFrom, closeRemaining, List.mem_map] at hr
      obtain ⟨s, hs, rfl⟩ := hr
      have := h.2 s hs
      exact ⟨Or.inr ⟨s, hs, rfl⟩, Nat.le_refl _, this, Or.inr rfl⟩
    · intro A hA B hB _ _
      simp only [scopeRegionsFrom, closeRemaining, List.mem_map] at hA hB
      obtain ⟨s, _, rfl⟩ := hA
      obtain ⟨t, _, rfl⟩ := hB
      exact Nat.le_refl _
  | cons l ls ih =>
    intro st h
    have h' := stackOrdered_step ext st l h
    obtain ⟨ih1, ih2⟩ := ih (processLine ext st l) h'
    have hn : (processLine ext st l).lineNum = st.lineNum + 1 := processLine_lineNum ext st l
    have hfirst : ∀ r ∈ closedNow ext st l,
        r.End = st.lineNum + 1 ∧ ∃ s ∈ st.scopeStack, s.Region.Start = r.Start := by
      intro r hr
      obtain ⟨he, s, hs, hs2, _⟩ := closedNow_shape ext st l r hr
      exact ⟨he, s, hs, hs2⟩
    have hrest : ∀ r ∈ scopeRegionsFrom ext (processLine ext st l) ls,
        (st.lineNum < r.Start ∨ ∃ s ∈ stackAfterClose ext st l, s.Region.Start = r.Start) ∧
        st.lineNum + 1 ≤ r.End ∧ r.Start ≤ r.End ∧
        (r.Start < r.End ∨ r.End = st.lineNum + (ls.length + 1)) := by
      intro r hr
      obtain ⟨f1, f2, f3, f4⟩ := ih1 r hr
      rw [hn] at f1 f2 f4
      refine ⟨?_, f2, f3, by omega⟩
      rcases f1 with f1 | ⟨s, hs, hs2⟩
      · left; omega
      · rw [processLine_stack, List.mem_append, Option.mem_toList] at hs
        rcases hs with hs | hs
        · have := pushedNow_start ext st l s hs
          left; omega
        · exact Or.inr ⟨s, hs, hs2⟩
    constructor
    · intro r hr
      simp only [scopeRegionsFrom, List.mem_append] at hr
      rcases hr with hr | hr
      · obtain ⟨he, s, hs, hs2⟩ := hfirst r hr
        have := h.2 s hs
        exact ⟨Or.inr ⟨s, hs, hs2⟩, by omega, by omega, by omega⟩
      · obtain ⟨f1, f2, f3, f4⟩ := hrest r hr
        refine ⟨?_, by omega, f3, by simpa [List.length_cons] using f4⟩
        rcases f1 with f1 | ⟨s, hs, hs2⟩
        · exact Or.inl f1
        · exact Or.inr ⟨s, stackAfterClose_sub ext st l s hs, hs2⟩
    · intro A hA B hB hAB hBA
      simp only [scopeRegionsFrom, List.mem_append] at hA hB
      rcases hA with hA | hA <;> rcases hB with hB | hB
      · have := (hfirst A hA).1
        have := (hfirst B hB).1
        omega
      · have hAe := (hfirst A hA).1
        obtain ⟨f1, _, _, _⟩ := hrest B hB
        rcases f1 with f1 | ⟨s, hs, hs2⟩
        · omega
        · have := closed_above_open ext st l h A hA s hs
          omega
      · have := (hfirst B hB).1
        have := (hrest A hA).2.1
        omega
      · exact ih2 A hA B hB hAB hBA

/-! ## The regions of the scope stack are among the regions of the scan -/

theorem scanFrom_regions_mono (ext : Str) (lines : List Str) :
    ∀ st : ScanState, ∀ r ∈ st.regions, r ∈ (scanFrom ext st lines).regions := by
  induction lines with
  | nil => intro st r hr; simpa [scanFrom] using hr
  | cons l ls ih =>
    intro st r hr
    have : r ∈ (processLine ext st l).regions := by
      rw [processLine_regions]; simp [hr]
    exact ih (processLine ext st l) r this

theorem scopeRegionsFrom_sub (ext : Str) (lines : List Str) :
    ∀ st : ScanState, ∀ r ∈ scopeRegionsFrom ext st lines,
      r ∈ (scanFrom ext st lines).regions ++ closeRemaining (scanFrom ext st lines) := by
  induction lines with
  | nil => intro st r hr; simp only [scopeRegionsFrom] at hr; simp [scanFrom, hr]
  | cons l ls ih =>
    intro st r hr
    simp only [scopeRegionsFrom, List.mem_append] at hr
    rcases hr with hr | hr
    · have h1 : r ∈ (processLine ext st l).regions := by
        rw [processLine_regions]; simp [hr]
      have := scanFrom_regions_mono ext ls (processLine ext st l) r h1
      simp only [scanFrom, List.foldl_cons, List.mem_append] at this ⊢
      exact Or.inl this
    · exact ih (processLine ext st l) r hr

theorem scopeRegions_sub (ext : Str) (lines : List Str) :
    ∀ r ∈ scopeRegions ext lines, r ∈ scanRegions ext lines :=
  scopeRegionsFrom_sub ext lines initState

/-- The post-processing loop leaves alone a region that spans more than one line, and one
that ends on the last line of the file. -/
theorem extendMarkers_keeps (N : Nat) (l : List Region) (hl : ∀ x ∈ l, x.Start ≤ N) :
    ∀ r ∈ l, (r.Start < r.End ∨ r.End = N) → r ∈ extendMarkers N l := by
  induction l with
  | nil => intro r hr; simp at hr
  | cons a t ih =>
    have ha := hl a (List.mem_cons_self _ _)
    cases t with
    | nil =>
      intro r hr hcase
      simp only [List.mem_singleton] at hr
      subst hr
      simp only [extendMarkers, List.mem_singleton]
      split
      · rename_i heq
        have : r.Start = r.End := by simpa using heq
        have : r.End = N := by omega
        cases r; simp_all
      · rfl
    | cons n rest =>
      intro r hr hcase
      have hn := hl n (List.mem_cons_of_mem _ (List.mem_cons_self _ _))
      simp only [extendMarkers, List.mem_cons]
      rcases List.mem_cons.mp hr with hr | hr
      · subst hr
        left
        split
        · rename_i heq
          have : r.Start = r.End := by simpa using heq
          rw [if_neg (by omega)]
        · rfl
      · right
        have := ih (fun x hx => hl x (List.mem_cons_of_mem _ hx)) r hr hcase
        simpa only [extendMarkers, List.mem_cons] using this

theorem clampEnd_id (r : Region) (h : r.Start ≤ r.End) : clampEnd r = r := by
  unfold clampEnd; rw [if_neg (by omega)]

/-- Every region of the scope stack is written to the map as it was closed. -/
theorem scopeRegions_in_rows (sort : List Region → List Region)
    (hS : SliceSortContract sort) (ext : Str) (lines : List Str) :
    ∀ r ∈ scopeRegions ext lines, r ∈ (GenerateMap sort ext lines).rows := by
  have hf := scopeRegionsFrom_facts ext lines initState stackOrdered_init
  intro r hr
  have hmem := scopeRegions_sub ext lines r hr
  have hne : scanRegions ext lines ≠ [] := List.ne_nil_of_mem hmem
  obtain ⟨_, _, hle, hcase⟩ := hf.1 r hr
  rw [(GenerateMap_rows sort hS ext lines).2 hne, List.mem_map]
  refine ⟨r, ?_, clampEnd_id r hle⟩
  apply extendMarkers_keeps
  · intro x hx
    have := scanRegions_bounds ext lines x ((hS.1 _).mem_iff.mp hx)
    omega
  · exact (hS.1 _).mem_iff.mpr hmem
  · simpa [initState] using hcase

/-- C4: the regions opened through the scope stack are written to the map as they were
closed, and they are properly nested: for any two of them, A and B, of one file, if
`A.start < B.start` and `B.start < A.end` then `B.end ≤ A.end`. -/
theorem C4_scope_regions_nested (sort : List Region → List Region)
    (hS : SliceSortContract sort) (ext : Str) (lines : List Str) :
    (∀ r ∈ scopeRegions ext lines, r ∈ (GenerateMap sort ext lines).rows) ∧
    (∀ A ∈ scopeRegions ext lines, ∀ B ∈ scopeRegions ext lines,
      A.Start < B.Start → B.Start < A.End → B.End ≤ A.End) :=
  ⟨scopeRegions_in_rows sort hS ext lines,
   (scopeRegionsFrom_facts ext lines initState stackOrdered_init).2⟩

/-- Witness of C4: the class with a method; the method's region lies inside the class's. -/
theorem C4_scope_regions_nested_witness :
    scopeRegions ".js".data fileJsWidget =
      [⟨2, 4, "ƒ Widget.method".data⟩, ⟨1, 5, "📦 Widget".data⟩] ∧
    (∀ r ∈ scopeRegions ".js".data fileJsWidget,
      r ∈ (GenerateMap insertionSort ".js".data fileJsWidget).rows) ∧
    (∀ A ∈ scopeRegions ".js".data fileJsWidget, ∀ B ∈ scopeRegions ".js".data fileJsWidget,
      A.Start < B.Start → B.Start < A.End → B.End ≤ A.End) :=
  ⟨by decide, C4_scope_regions_nested insertionSort insertionSort_contract ".js".data fileJsWidget⟩

/-! ## Scopes and the lines after them -/

theorem scanFrom_append (ext : Str) (st : ScanState) (a b : List Str) :
    scanFrom ext st (a ++ b) = scanFrom ext (scanFrom ext st a) b := by
  simp [scanFrom, List.foldl_append]

theorem scanFrom_single (ext : Str) (st : ScanState) (text : Str) :
    scanFrom ext st [text] = processLine ext st text := rfl

theorem scopeRegionsFrom_append (ext : Str) (a b : List Str) :
    ∀ st : ScanState, ∀ r ∈ scopeRegionsFrom ext (scanFrom ext st a) b,
      r ∈ scopeRegionsFrom ext st (a ++ b) := by
  induction a with
  | nil => intro st r hr; simpa [scanFrom] using hr
  | cons l ls ih =>
    intro st r hr
    simp only [List.cons_append, scopeRegionsFrom, List.mem_append]
    right
    exact ih (processLine ext st l) r (by simpa [scanFrom] using hr)

/-- No scope is lost: every open scope yields a region with its start line and name. -/
theorem open_scope_yields_region (ext : Str) (lines : List Str) :
    ∀ st : ScanState, ∀ s ∈ st.scopeStack, ∃ r ∈ scopeRegionsFrom ext st lines,
      r.Start = s.Region.Start ∧ r.Name = s.Region.Name := by
  induction lines with
  | nil =>
    intro st s hs
    refine ⟨{ s.Region with End := st.lineNum }, ?_, rfl, rfl⟩
    simp only [scopeRegionsFrom, closeRemaining, List.mem_map]
    exact ⟨s, hs, rfl⟩
  | cons l ls ih =>
    intro st s hs
    rw [← List.takeWhile_append_dropWhile (closesAt ext st l) st.scopeStack,
      List.mem_append] at hs
    rcases hs with hs | hs
    · refine ⟨{ s.Region with End := st.lineNum + 1 }, ?_, rfl, rfl⟩
      simp only [scopeRegionsFrom, List.mem_append, closedNow, List.mem_map]
      exact Or.inl ⟨s, hs, rfl⟩
    · have hs2 : s ∈ (processLine ext st l).scopeStack := by
        rw [processLine_stack, List.mem_append]
        exact Or.inr hs
      obtain ⟨r, hr, h1, h2⟩ := ih (processLine ext st l) s hs2
      refine ⟨r, ?_, h1, h2⟩
      simp only [scopeRegionsFrom, List.mem_append]
      exact Or.inr hr

theorem isBraceLang_not_html (ext : Str) (h : isBraceLang ext = true) : isHtml ext = false := by
  simp only [isBraceLang, extIn, List.any_cons, List.any_nil, Bool.or_false, Bool.or_eq_true,
    beq_iff_eq] at h
  rcases h with h | h | h | h | h | h | h | h | h | h <;> subst h <;> decide

theorem detectLine_of_not_html (ext text : Str) (v : Vars) (h : isHtml ext = false) :
    detectLine ext text v = v := by
  simp [detectLine, htmlDetect, h]

/-- What the scan does with a construct-opening line of a brace dialect that holds an
opening brace, whether or not it also holds the matching closing brace: the scope is
pushed after the closure check of the line, with a recorded depth one below the depth
after the line, and stays on the scope stack; it yields a region that ends on a later line
when a line follows, and on the line itself only when that line is the last of the file. -/
theorem opening_line_scope_stays (ext : Str) (pre post : List Str) (text : Str) (v0 : Vars)
    (hb : isBraceLang ext = true) (hm : markerLabel text = none)
    (hd : autoDetect ext text = Detect.vars v0) (hv : v0.matched = true)
    (hc : v0.closeChar = [chRBrace]) (ho : strings.Contains text [chLBrace] = true) :
    ∃ sc : Scope,
      (scanFrom ext initState (pre ++ [text])).scopeStack =
        sc :: stackAfterClose ext (scanFrom ext initState pre) text ∧
      sc.Region.Start = pre.length + 1 ∧
      sc.OpenLevel = braceAfter ext (scanFrom ext initState pre) text - 1 ∧
      (∃ r ∈ scopeRegions ext (pre ++ text :: post),
        r.Start = pre.length + 1 ∧ r.Name = sc.Region.Name) ∧
      (∀ r ∈ scopeRegions ext (pre ++ text :: post), r.Start = pre.length + 1 →
        (post ≠ [] → r.Start < r.End) ∧ (post = [] → r.End = r.Start)) := by
  have hln : (scanFrom ext initState pre).lineNum = pre.length := by
    simp [scanFrom_lineNum, initState]
  have hdl : detectLine ext text v0 = v0 :=
    detectLine_of_not_html ext text v0 (isBraceLang_not_html ext hb)
  have hpush : pushedNow ext (scanFrom ext initState pre) text =
      some (newScope ext text (closePhase ext (scanFrom ext initState pre) text) v0) := by
    simp [pushedNow, hm, hd, hdl, hv]
  refine ⟨newScope ext text (closePhase ext (scanFrom ext initState pre) text) v0, ?_, ?_, ?_, ?_, ?_⟩
  · rw [scanFrom_append, scanFrom_single, processLine_stack, hpush]; rfl
  · simp [newScope, closePhase, hln]
  · simp [newScope, startParam, hb, hc, ho, closePhase]
  · have hmem : newScope ext text (closePhase ext (scanFrom ext initState pre) text) v0 ∈
        (scanFrom ext initState (pre ++ [text])).scopeStack := by
      rw [scanFrom_append, scanFrom_single, processLine_stack, hpush]; simp
    obtain ⟨r, hr, h1, h2⟩ :=
      open_scope_yields_region ext post (scanFrom ext initState (pre ++ [text])) _ hmem
    refine ⟨r, ?_, ?_, h2⟩
    · have := scopeRegionsFrom_append ext (pre ++ [text]) post initState r hr
      simpa [scopeRegions] using this
    · rw [h1]; simp [newScope, closePhase, hln]
  · intro r hr hstart
    obtain ⟨_, _, hle, hcase⟩ :=
      (scopeRegionsFrom_facts ext (pre ++ text :: post) initState stackOrdered_init).1 r hr
    have hbd := scanRegions_bounds ext (pre ++ text :: post) r (scopeRegions_sub ext _ r hr)
    simp only [initState, List.length_append, List.length_cons, Nat.zero_add] at hcase hbd
    constructor
    · intro hne
      have : 0 < post.length := List.length_pos.mpr hne
      omega
    · intro he
      subst he
      simp only [List.length_nil] at hcase hbd
      omega

/-- C5 (the code departs from the claim): the line `function foo() \x7b return 1; \x7d`
starts at brace depth 0 and leaves the depth at 0, but its scope is pushed with recorded
depth -1 (the depth after the line, minus one because the line holds an opening brace), no
region is closed while the line is processed and the scope stays on the stack; no later
line reaches depth -1, so with two more lines in the file the region is written as lines
1 to 3, not 1 to 1. In the same way a Go struct type opened and closed on line 1 stays open
to the end of the file and the functions after it are named as its members. -/
theorem C5_one_line_construct_stays_open :
    initState.braceLevel = 0 ∧
    (processLine ".js".data initState "function foo() \x7b return 1; \x7d".data).braceLevel = 0 ∧
    (processLine ".js".data initState "function foo() \x7b return 1; \x7d".data).regions = [] ∧
    (processLine ".js".data initState "function foo() \x7b return 1; \x7d".data).scopeStack =
      [⟨⟨1, 0, "ƒ foo".data⟩, -1, -1, [chRBrace], []⟩] ∧
    (GenerateMap insertionSort ".js".data fileJsOneLiner).rows = [⟨1, 3, "ƒ foo".data⟩] ∧
    (GenerateMap insertionSort ".go".data fileGoStruct).rows =
      [⟨1, 5, "📦 T (struct)".data⟩, ⟨2, 3, "ƒ T.A".data⟩, ⟨4, 5, "ƒ T.B".data⟩] := by
  refine ⟨by decide, by decide, by decide, by decide, by decide, by decide⟩

/-! ## Parent naming -/

theorem parentName_of_no_container (stack : List Scope)
    (h : ∀ s ∈ stack, hasContainerIcon s = false) : parentName stack = [] := by
  have : stack.find? hasContainerIcon = none := by
    rw [List.find?_eq_none]
    intro s hs
    simp [h s hs]
  simp [parentName, this]

theorem sliceFrom_fn (x : Str) : sliceFrom (byteLen "ƒ ".data) ("ƒ ".data ++ x) = x := by
  have h : byteLen "ƒ ".data = 3 := by decide
  have h1 : Char.utf8Size 'ƒ' = 2 := by decide
  have h2 : Char.utf8Size ' ' = 1 := by decide
  rw [h]
  show sliceFrom 3 ('ƒ' :: ' ' :: x) = x
  cases x with
  | nil => simp [sliceFrom, h1, h2]
  | cons c cs => simp [sliceFrom, h1, h2]

theorem sliceFrom_check (x : Str) : sliceFrom (byteLen "✓ ".data) ("✓ ".data ++ x) = x := by
  have h : byteLen "✓ ".data = 4 := by decide
  have h1 : Char.utf8Size '✓' = 3 := by decide
  have h2 : Char.utf8Size ' ' = 1 := by decide
  rw [h]
  show sliceFrom 4 ('✓' :: ' ' :: x) = x
  cases x with
  | nil => simp [sliceFrom, h1, h2]
  | cons c cs => simp [sliceFrom, h1, h2]

theorem qualifyName_fn (parent x : Str) (hp : parent ≠ []) :
    qualifyName parent ("ƒ ".data ++ x) = "ƒ ".data ++ parent ++ ".".data ++ strings.TrimSpace x := by
  have h1 : strings.HasPrefix ("ƒ ".data ++ x) "ƒ".data = true := by
    simp [strings.HasPrefix, List.isPrefixOf]
  have h2 : strings.HasPrefix ("ƒ ".data ++ x) "✓".data = false := by
    simp [strings.HasPrefix, List.isPrefixOf]
  unfold qualifyName
  rw [h1, h2, sliceFrom_fn]
  simp [hp]

theorem qualifyName_check (parent x : Str) (hp : parent ≠ []) :
    qualifyName parent ("✓ ".data ++ x) = "✓ ".data ++ parent ++ " » ".data ++ strings.TrimSpace x := by
  have h2 : strings.HasPrefix ("✓ ".data ++ x) "✓".data = true := by
    simp [strings.HasPrefix, List.isPrefixOf]
  unfold qualifyName
  rw [h2, sliceFrom_check]
  simp [hp]

theorem qualifyName_other (parent name : Str)
    (h1 : strings.HasPrefix name "ƒ".data = false) (h2 : strings.HasPrefix name "✓".data = false) :
    qualifyName parent name = name := by
  simp [qualifyName, h1, h2]

theorem parentName_innermost (pre post : List Scope) (s : Scope)
    (hpre : ∀ t ∈ pre, hasContainerIcon t = false) (hs : hasContainerIcon s = true) :
    parentName (pre ++ s :: post) =
      if (strings.Fields s.Region.Name).length > 1 then sub (strings.Fields s.Region.Name) 1
      else [] := by
  have : (pre ++ s :: post).find? hasContainerIcon = some s := by
    induction pre with
    | nil => simp [List.find?, hs]
    | cons t ts ih =>
      have ht := hpre t (List.mem_cons_self _ _)
      simp only [List.cons_append, List.find?, ht]
      exact ih (fun u hu => hpre u (List.mem_cons_of_mem _ hu))
  simp [parentName, this]

/-- C6 (the code departs from the claim): the parent search takes the innermost open scope
whose name contains one of the three container icons, and the icon of an object literal is
also the icon of a Go `const` block, so a function inside only a `const` block is written
as `ƒ Const.Foo`. The rest is as the claim says: a method inside a class is written as
`ƒ Widget.method`; the qualifier is the second field of the name of the innermost
icon-bearing scope; a function name becomes `ƒ C.name`, a test case `✓ C » name`; a name of
another category, and any name when no icon-bearing scope is open, is kept. -/
theorem C6_const_block_qualifies :
    (GenerateMap insertionSort ".go".data fileGoConst).rows =
      [⟨3, 8, "🧱 Const".data⟩, ⟨7, 8, "ƒ Const.Foo".data⟩] ∧
    (GenerateMap insertionSort ".js".data fileJsWidget).rows =
      [⟨1, 5, "📦 Widget".data⟩, ⟨2, 4, "ƒ Widget.method".data⟩] ∧
    (∀ (pre post : List Scope) (s : Scope), (∀ t ∈ pre, hasContainerIcon t = false) →
      hasContainerIcon s = true →
      parentName (pre ++ s :: post) =
        if (strings.Fields s.Region.Name).length > 1 then sub (strings.Fields s.Region.Name) 1
        else []) ∧
    (∀ parent x : Str, parent ≠ [] →
      qualifyName parent ("ƒ ".data ++ x) =
        "ƒ ".data ++ parent ++ ".".data ++ strings.TrimSpace x) ∧
    (∀ parent x : Str, parent ≠ [] →
      qualifyName parent ("✓ ".data ++ x) =
        "✓ ".data ++ parent ++ " » ".data ++ strings.TrimSpace x) ∧
    (∀ parent name : Str, strings.HasPrefix name "ƒ".data = false →
      strings.HasPrefix name "✓".data = false → qualifyName parent name = name) ∧
    (∀ (stack : List Scope) (name : Str), (∀ s ∈ stack, hasContainerIcon s = false) →
      qualifyName (parentName stack) name = name) := by
  refine ⟨by decide, by decide, parentName_innermost, qualifyName_fn, qualifyName_check,
    qualifyName_other, ?_⟩
  intro stack name h
  simp [parentName_of_no_container stack h, qualifyName]

/-! ## Closure in the indentation dialect -/

theorem closesAt_py (st : ScanState) (text : Str) (hnb : strings.TrimSpace text ≠ []) :
    closesAt ".py".data st text = fun s => decide ((currentIndent text : Int) ≤ s.Indent) := by
  funext s
  have h1 : isBraceLang ".py".data = false := by decide
  have h2 : isPython ".py".data = true := by decide
  simp [closesAt, shouldClose, h1, h2, hnb]

theorem closedNow_in_scopeRegions (ext : Str) (pre post : List Str) (text : Str) :
    ∀ r ∈ closedNow ext (scanFrom ext initState pre) text,
      r ∈ scopeRegions ext (pre ++ text :: post) := by
  intro r hr
  apply scopeRegionsFrom_append ext pre (text :: post) initState
  simp only [scopeRegionsFrom, List.mem_append]
  exact Or.inl hr

/-- C7 (amended): in a `.py` file, the scopes that a non-blank line closes are the open
scopes, from the innermost outward, whose recorded indent is at least the line's count of
leading spaces, up to the first that is not; each of them is written with its end on that
dedenting line itself (not on the line before it). -/
theorem C7_dedent_line_is_end (sort : List Region → List Region)
    (hS : SliceSortContract sort) (pre post : List Str) (text : Str)
    (hnb : strings.TrimSpace text ≠ []) :
    ∀ s ∈ (scanFrom ".py".data initState pre).scopeStack.takeWhile
        (fun s => decide ((currentIndent text : Int) ≤ s.Indent)),
      (⟨s.Region.Start, pre.length + 1, s.Region.Name⟩ : Region) ∈
        (GenerateMap sort ".py".data (pre ++ text :: post)).rows := by
  intro s hs
  apply scopeRegions_in_rows sort hS
  apply closedNow_in_scopeRegions
  have hln : (scanFrom ".py".data initState pre).lineNum = pre.length := by
    simp [scanFrom_lineNum, initState]
  simp only [closedNow, List.mem_map, closesAt_py _ text hnb]
  exact ⟨s, hs, by simp [hln]⟩

/-- Witness of C7: the class with a method and the statement at column 0 on line 5. -/
theorem C7_dedent_line_is_end_witness :
    ((scanFrom ".py".data initState
        (linesOf ["class A:", "    def m(self):", "        x = 1", "        return x"])).scopeStack.takeWhile
        (fun s => decide ((currentIndent "y = 2".data : Int) ≤ s.Indent))).map
        (fun s => s.Region.Start) = [2, 1] ∧
    ∀ s ∈ (scanFrom ".py".data initState
        (linesOf ["class A:", "    def m(self):", "        x = 1", "        return x"])).scopeStack.takeWhile
        (fun s => decide ((currentIndent "y = 2".data : Int) ≤ s.Indent)),
      (⟨s.Region.Start,
        (linesOf ["class A:", "    def m(self):", "        x = 1", "        return x"]).length + 1,
        s.Region.Name⟩ : Region) ∈
        (GenerateMap insertionSort ".py".data
          (linesOf ["class A:", "    def m(self):", "        x = 1", "        return x"] ++
            "y = 2".data :: [])).rows :=
  ⟨by decide, C7_dedent_line_is_end insertionSort insertionSort_contract
    (linesOf ["class A:", "    def m(self):", "        x = 1", "        return x"]) []
    "y = 2".data (by decide)⟩

/-- Counterexample to C7 as stated: in the five-line file the regions of the class and of
the method both end at line 5, the dedenting line, not at line 4. -/
theorem C7_counterexample :
    (GenerateMap insertionSort ".py".data filePyClass).rows =
      [⟨1, 5, "📦 A".data⟩, ⟨2, 5, "ƒ A.m".data⟩] := by
  decide

/-! ## The extension of point regions, row by row -/

/-- What the post-processing loop does to the region at a given position. -/
theorem extendMarkers_at (N : Nat) (l : List Region) :
    ∀ (i : Nat) (r : Region), l[i]? = some r →
      ∃ row, (extendMarkers N l)[i]? = some row ∧ row.Start = r.Start ∧ row.Name = r.Name ∧
        (r.Start ≠ r.End → row.End = r.End) ∧
        (r.Start = r.End →
          (∀ n, l[i + 1]? = some n →
            (r.Start < n.Start → row.End = n.Start - 1) ∧
            (n.Start ≤ r.Start → row.End = r.Start)) ∧
          (l[i + 1]? = none → row.End = N)) := by
  induction l with
  | nil => intro i r h; simp at h
  | cons a t ih =>
    intro i r h
    cases i with
    | zero =>
      simp only [List.getElem?_cons_zero, Option.some.injEq] at h
      subst h
      cases t with
      | nil =>
        by_cases hp : a.Start = a.End
        · have h1 : (a.Start == a.End) = true := by simpa using hp
          refine ⟨{ a with End := N }, ?_, rfl, rfl, ?_, ?_⟩
          · simp only [extendMarkers, List.getElem?_cons_zero]; rw [if_pos h1]
          · intro hne; exact absurd hp hne
          · intro _
            exact ⟨by intro n hn; simp at hn, fun _ => rfl⟩
        · have h1 : ¬ (a.Start == a.End) = true := by simpa using hp
          refine ⟨a, ?_, rfl, rfl, fun _ => rfl, ?_⟩
          · simp only [extendMarkers, List.getElem?_cons_zero]; rw [if_neg h1]
          · intro heq; exact absurd heq hp
      | cons n rest =>
        by_cases hp : a.Start = a.End
        · have h1 : (a.Start == a.End) = true := by simpa using hp
          by_cases hlt : a.Start < n.Start
          · refine ⟨{ a with End := n.Start - 1 }, ?_, rfl, rfl, ?_, ?_⟩
            · simp only [extendMarkers, List.getElem?_cons_zero]; rw [if_pos h1, if_pos hlt]
            · intro hne; exact absurd hp hne
            · intro _
              refine ⟨?_, by intro hn; simp at hn⟩
              intro m hm
              simp only [Nat.zero_add, List.getElem?_cons_succ, List.getElem?_cons_zero,
                Option.some.injEq] at hm
              subst hm
              exact ⟨fun _ => rfl, fun hle => by omega⟩
          · refine ⟨a, ?_, rfl, rfl, fun _ => rfl, ?_⟩
            · simp only [extendMarkers, List.getElem?_cons_zero]; rw [if_pos h1, if_neg hlt]
            · intro _
              refine ⟨?_, by intro hn; simp at hn⟩
              intro m hm
              simp only [Nat.zero_add, List.getElem?_cons_succ, List.getElem?_cons_zero,
                Option.some.injEq] at hm
              subst hm
              exact ⟨fun h => absurd h hlt, fun _ => hp.symm⟩
        · have h1 : ¬ (a.Start == a.End) = true := by simpa using hp
          refine ⟨a, ?_, rfl, rfl, fun _ => rfl, ?_⟩
          · simp only [extendMarkers, List.getElem?_cons_zero]; rw [if_neg h1]
          · intro heq; exact absurd heq hp
    | succ k =>
      simp only [List.getElem?_cons_succ] at h
      cases t with
      | nil => simp at h
      | cons n rest =>
        obtain ⟨row, h1, h2⟩ := ih k r h
        refine ⟨row, ?_, ?_⟩
        · simpa only [extendMarkers, List.getElem?_cons_succ] using h1
        · simpa only [List.getElem?_cons_succ] using h2

/-- C8 (amended): in the written map, a region recorded with `start == end` (a marker,
heading or dependency reference) ends one line before the start of the region that follows
it in the sorted list when that region starts on a later line; it stays a single line when
the following region starts on the same line; and it ends at the last line of the file
when it is the last region. Its start and its name are written unchanged. -/
theorem C8_point_region_extension (sort : List Region → List Region)
    (hS : SliceSortContract sort) (ext : Str) (lines : List Str) (i : Nat) (r : Region)
    (hi : (sort (scanRegions ext lines))[i]? = some r) (hpoint : r.Start = r.End) :
    ∃ row, (GenerateMap sort ext lines).rows[i]? = some row ∧
      row.Start = r.Start ∧ row.Name = r.Name ∧
      (∀ n, (sort (scanRegions ext lines))[i + 1]? = some n →
        (r.Start < n.Start → row.End = n.Start - 1) ∧
        (n.Start ≤ r.Start → row.End = r.Start)) ∧
      ((sort (scanRegions ext lines))[i + 1]? = none → row.End = lines.length) := by
  have hmem : r ∈ sort (scanRegions ext lines) := List.getElem?_mem hi
  have hmem2 : r ∈ scanRegions ext lines := (hS.1 _).mem_iff.mp hmem
  have hne : scanRegions ext lines ≠ [] := List.ne_nil_of_mem hmem2
  have hb := scanRegions_bounds ext lines r hmem2
  obtain ⟨row, h1, h2, h3, _, h5⟩ :=
    extendMarkers_at lines.length (sort (scanRegions ext lines)) i r hi
  obtain ⟨h6, h7⟩ := h5 hpoint
  have hle : row.Start ≤ row.End := by
    cases hnext : (sort (scanRegions ext lines))[i + 1]? with
    | none => have := h7 hnext; omega
    | some n =>
      obtain ⟨ha, hb2⟩ := h6 n hnext
      by_cases hlt : r.Start < n.Start
      · have := ha hlt; omega
      · have := hb2 (by omega); omega
  refine ⟨row, ?_, h2, h3, h6, h7⟩
  rw [(GenerateMap_rows sort hS ext lines).2 hne, List.getElem?_map, h1]
  simp [clampEnd_id row hle]

/-- Witness of C8: the markdown file of 20 lines with headings on lines 1, 5 and 12 is
written as `[1,4]`, `[5,11]`, `[12,20]`; the theorem is applied to its first heading. -/
theorem C8_point_region_extension_witness :
    (GenerateMap insertionSort ".md".data fileMdHeadings).rows =
      [⟨1, 4, "Intro".data⟩, ⟨5, 11, "Usage".data⟩, ⟨12, 20, "Notes".data⟩] ∧
    ∃ row, (GenerateMap insertionSort ".md".data fileMdHeadings).rows[0]? = some row ∧
      row.Start = 1 ∧ row.Name = "Intro".data ∧
      (∀ n, (insertionSort (scanRegions ".md".data fileMdHeadings))[0 + 1]? = some n →
        (1 < n.Start → row.End = n.Start - 1) ∧ (n.Start ≤ 1 → row.End = 1)) ∧
      ((insertionSort (scanRegions ".md".data fileMdHeadings))[0 + 1]? = none →
        row.End = fileMdHeadings.length) :=
  ⟨by decide,
   C8_point_region_extension insertionSort insertionSort_contract ".md".data fileMdHeadings 0
     ⟨1, 1, "Intro".data⟩ (by decide) rfl⟩

/-- Counterexample to C8 as stated: in the HTML file the dependency reference of line 1 is
followed in the sorted list by the script element, which starts on line 1 too; the
reference is written as `[1,1]`, not as ending one line before that start. -/
theorem C8_counterexample :
    (GenerateMap insertionSort ".html".data fileHtmlScript).rows =
      [⟨1, 1, "🔗 depends on: app.js".data⟩, ⟨1, 3, "<script>".data⟩,
        ⟨2, 3, "<div> #main".data⟩] := by
  decide

/-! ## Manual markers -/

theorem FindStringSubmatch_length (r : Re) (text : Str) :
    FindStringSubmatch r text = [] ∨ (FindStringSubmatch r text).length = r.numCap + 1 := by
  unfold FindStringSubmatch
  split
  · exact Or.inl rfl
  · right; simp

theorem codeRe_numCap : codeRe.numCap = 2 := by decide

/-- C9 (amended): for every line that matches the manual marker syntax, in any extension,
the scan emits one single-line region, `start = end =` the line's number, named by the
cleaned label, when the cleaned label is not empty, and no region when it is empty; in both
cases nothing else is detected on the line and no scope is pushed (the scopes that the line
closes are closed before the marker is looked at). -/
theorem C9_marker_line (ext : Str) (st : ScanState) (text : Str)
    (hc : strings.Contains text "//".data = true)
    (hm : FindStringSubmatch codeRe text ≠ []) :
    ∃ label : Str,
      label = strings.TrimFunc (strings.TrimSpace (sub (FindStringSubmatch codeRe text) 2))
        (fun c => c == '=' || c == '-' || c == ' ' || c == '\t') ∧
      (processLine ext st text).scopeStack = stackAfterClose ext st text ∧
      (processLine ext st text).regions = st.regions ++ closedNow ext st text ++
        (if label.length > 0 then
          [⟨st.lineNum + 1, st.lineNum + 1, "📍 ".data ++ label⟩] else []) := by
  have hlen : (FindStringSubmatch codeRe text).length = 3 := by
    rcases FindStringSubmatch_length codeRe text with h | h
    · exact absurd h hm
    · rw [h, codeRe_numCap]
  have hml : markerLabel text = some (strings.TrimFunc
      (strings.TrimSpace (sub (FindStringSubmatch codeRe text) 2))
      (fun c => c == '=' || c == '-' || c == ' ' || c == '\t')) := by
    simp [markerLabel, hc, hlen]
  refine ⟨_, rfl, ?_, ?_⟩
  · rw [processLine_stack]
    simp [pushedNow, hml]
  · rw [processLine_regions]
    simp [pointNow, hml]

/-- Witness of C9: the numbered marker `// 1. Setup` as the first line of a Go file. -/
theorem C9_marker_line_witness :
    (processLine ".go".data initState "// 1. Setup".data).regions = [⟨1, 1, "📍 Setup".data⟩] ∧
    ∃ label : Str,
      label = strings.TrimFunc
        (strings.TrimSpace (sub (FindStringSubmatch codeRe "// 1. Setup".data) 2))
        (fun c => c == '=' || c == '-' || c == ' ' || c == '\t') ∧
      (processLine ".go".data initState "// 1. Setup".data).scopeStack =
        stackAfterClose ".go".data initState "// 1. Setup".data ∧
      (processLine ".go".data initState "// 1. Setup".data).regions =
        initState.regions ++ closedNow ".go".data initState "// 1. Setup".data ++
        (if label.length > 0 then
          [⟨initState.lineNum + 1, initState.lineNum + 1, "📍 ".data ++ label⟩] else []) :=
  ⟨by decide, C9_marker_line ".go".data initState "// 1. Setup".data (by decide) (by decide)⟩

/-- Counterexample to C9 as stated: the banner line `// ==========` matches the marker
syntax, its cleaned label is empty, and the scan emits no region for it. -/
theorem C9_counterexample :
    strings.Contains "// ==========".data "//".data = true ∧
    FindStringSubmatch codeRe "// ==========".data =
      ["// ==========".data, [], "=======".data] ∧
    (processLine ".go".data initState "// ==========".data).regions = [] ∧
    (GenerateMap insertionSort ".go".data fileGoBanner).rows = [⟨2, 3, "📍 Setup".data⟩] := by
  refine ⟨by decide, by decide, by decide, by decide⟩

/-! ## Closure in the tag dialect -/

theorem isHtml_not_brace_py (ext : Str) (h : isHtml ext = true) :
    isBraceLang ext = false ∧ isPython ext = false := by
  simp only [isHtml, extIn, List.any_cons, List.any_nil, Bool.or_false, Bool.or_eq_true,
    beq_iff_eq] at h
  rcases h with h | h | h | h | h <;> subst h <;> exact ⟨by decide, by decide⟩

theorem closesAt_html (ext : Str) (st : ScanState) (text : Str) (h : isHtml ext = true)
    (s : Scope) :
    closesAt ext st text s =
      (s.Tag != [] && strings.Contains (strings.ToLower text)
        ("</".data ++ strings.ToLower s.Tag ++ ">".data)) := by
  obtain ⟨h1, h2⟩ := isHtml_not_brace_py ext h
  simp [closesAt, shouldClose, h1, h2, h]

theorem mem_takeWhile_of_run {α : Type} (p : α → Bool) (run rest : List α)
    (h : ∀ x ∈ run, p x = true) : ∀ x ∈ run, x ∈ (run ++ rest).takeWhile p := by
  induction run with
  | nil => intro x hx; simp at hx
  | cons a t ih =>
    intro x hx
    have ha := h a (List.mem_cons_self _ _)
    simp only [List.cons_append, List.takeWhile_cons, ha, if_true]
    rcases List.mem_cons.mp hx with hx | hx
    · subst hx; exact List.mem_cons_self _ _
    · exact List.mem_cons_of_mem _ (ih (fun y hy => h y (List.mem_cons_of_mem _ hy)) x hx)

/-- C19: in a tag-dialect file, a line that contains the closing tag `</t>` closes every open
scope with tag name `t` in the run of such scopes at the top of the scope stack, not only the
innermost: each of them is written with its end on that line. -/
theorem C19_closing_tag_closes_run (sort : List Region → List Region)
    (hS : SliceSortContract sort) (ext : Str) (pre post : List Str) (text t : Str)
    (run rest : List Scope) (hh : isHtml ext = true)
    (hstack : (scanFrom ext initState pre).scopeStack = run ++ rest)
    (hrun : ∀ s ∈ run, s.Tag = t) (ht : t ≠ [])
    (hc : strings.Contains (strings.ToLower text)
      ("</".data ++ strings.ToLower t ++ ">".data) = true) :
    ∀ s ∈ run, (⟨s.Region.Start, pre.length + 1, s.Region.Name⟩ : Region) ∈
      (GenerateMap sort ext (pre ++ text :: post)).rows := by
  intro s hs
  apply scopeRegions_in_rows sort hS
  apply closedNow_in_scopeRegions
  have hln : (scanFrom ext initState pre).lineNum = pre.length := by
    simp [scanFrom_lineNum, initState]
  have hall : ∀ x ∈ run, closesAt ext (scanFrom ext initState pre) text x = true := by
    intro x hx
    rw [closesAt_html ext _ text hh, hrun x hx, hc]
    simp [ht]
  simp only [closedNow, List.mem_map, hstack]
  exact ⟨s, mem_takeWhile_of_run _ run rest hall s hs, by simp [hln]⟩

/-- Witness of C19: two nested `div` elements opened on lines 1 and 2; the first line that
contains `</div>` is line 4, and both regions end there. -/
theorem C19_closing_tag_closes_run_witness :
    (GenerateMap insertionSort ".html".data fileHtmlNested).rows =
      [⟨1, 4, "<div> .outer".data⟩, ⟨2, 4, "<div> .inner".data⟩] ∧
    ∀ s ∈ [(⟨⟨2, 0, "<div> .inner".data⟩, 0, 0, "</div>".data, "div".data⟩ : Scope),
        ⟨⟨1, 0, "<div> .outer".data⟩, 0, 0, "</div>".data, "div".data⟩],
      (⟨s.Region.Start,
        (linesOf ["<div class=\"outer\">", "<div class=\"inner\">", "text"]).length + 1,
        s.Region.Name⟩ : Region) ∈
      (GenerateMap insertionSort ".html".data
        (linesOf ["<div class=\"outer\">", "<div class=\"inner\">", "text"] ++
          "</div>".data :: linesOf ["</div>"])).rows :=
  ⟨by decide,
   C19_closing_tag_closes_run insertionSort insertionSort_contract ".html".data
     (linesOf ["<div class=\"outer\">", "<div class=\"inner\">", "text"]) (linesOf ["</div>"])
     "</div>".data "div".data
     [⟨⟨2, 0, "<div> .inner".data⟩, 0, 0, "</div>".data, "div".data⟩,
      ⟨⟨1, 0, "<div> .outer".data⟩, 0, 0, "</div>".data, "div".data⟩] []
     (by decide) (by decide) (by decide) (by decide) (by decide)⟩

/-! ## C18: the two measures of indentation -/

/-- C18 (the code departs from the claim): the closing test measures a line by its leading
spaces only, the recorded indent of a `def` / `class` line counts every leading whitespace
character. With a method indented by a tab, the line `\tdef m(self):` has width 0 for the
closing test, so it closes the class of line 1 at line 2, and the method (recorded indent
1, and no longer inside the class) is closed by its own body line at line 3. -/
theorem C18_tab_indent_closes_early :
    currentIndent "\tdef m(self):".data = 0 ∧
    (detectPy "\tdef m(self):".data).newIndent = 1 ∧
    (GenerateMap insertionSort ".py".data filePyTabs).rows =
      [⟨1, 2, "📦 A".data⟩, ⟨2, 3, "ƒ m".data⟩] := by
  refine ⟨by decide, by decide, by decide⟩

/-! ## Brace-governed scopes end where the depth returns -/

theorem contains_of_count_pos (s : Str) (c : Char) (h : 0 < strings.Count s c) :
    strings.Contains s [c] = true := by
  induction s with
  | nil => simp [strings.Count] at h
  | cons d ds ih =>
    by_cases hd : d = c
    · subst hd
      simp [strings.Contains, List.isPrefixOf]
    · have h2 : 0 < strings.Count ds c := by
        simp only [strings.Count] at h ⊢
        rw [List.count_cons] at h
        have : (d == c) = false := by simpa using hd
        simpa [this] using h
      simp [strings.Contains, ih h2]

theorem mem_takeWhile_of_mono {α : Type} (R : α → α → Prop) (p : α → Bool) (l : List α)
    (hR : l.Pairwise R) (hmono : ∀ a ∈ l, ∀ b ∈ l, R a b → p b = true → p a = true) :
    ∀ x ∈ l, p x = true → x ∈ l.takeWhile p := by
  induction l with
  | nil => intro x hx; simp at hx
  | cons a t ih =>
    intro x hx hp
    rw [List.pairwise_cons] at hR
    have hpa : p a = true := by
      rcases List.mem_cons.mp hx with hx | hx
      · subst hx; exact hp
      · exact hmono a (List.mem_cons_self _ _) x (List.mem_cons_of_mem _ hx) (hR.1 x hx) hp
    simp only [List.takeWhile_cons, hpa, if_true]
    rcases List.mem_cons.mp hx with hx | hx
    · subst hx; exact List.mem_cons_self _ _
    · exact List.mem_cons_of_mem _
        (ih hR.2 (fun u hu v hv => hmono u (List.mem_cons_of_mem _ hu) v
          (List.mem_cons_of_mem _ hv)) x hx hp)

theorem not_of_mem_dropWhile_mono {α : Type} (R : α → α → Prop) (p : α → Bool) (l : List α)
    (hR : l.Pairwise R) (hmono : ∀ a ∈ l, ∀ b ∈ l, R a b → p b = true → p a = true) :
    ∀ x ∈ l.dropWhile p, p x = false := by
  induction l with
  | nil => intro x hx; simp at hx
  | cons a t ih =>
    intro x hx
    rw [List.pairwise_cons] at hR
    by_cases hpa : p a = true
    · simp only [List.dropWhile_cons, hpa, if_true] at hx
      exact ih hR.2 (fun u hu v hv => hmono u (List.mem_cons_of_mem _ hu) v
        (List.mem_cons_of_mem _ hv)) x hx
    · simp only [List.dropWhile_cons, hpa] at hx
      rcases List.mem_cons.mp hx with hx | hx
      · subst hx; simpa using hpa
      · by_contra hpx
        exact hpa (hmono a (List.mem_cons_self _ _) x (List.mem_cons_of_mem _ hx)
          (hR.1 x hx) (by simpa using hpx))

theorem mem_dropWhile_of_not {α : Type} (p : α → Bool) (l : List α) :
    ∀ x ∈ l, p x = false → x ∈ l.dropWhile p := by
  intro x hx hp
  rw [← List.takeWhile_append_dropWhile p l, List.mem_append] at hx
  rcases hx with hx | hx
  · have := List.mem_takeWhile_imp hx
    rw [hp] at this
    exact absurd this (by simp)
  · exact hx

theorem pushedNow_shape (ext : Str) (st : ScanState) (text : Str) (sc : Scope)
    (h : pushedNow ext st text = some sc) :
    ∃ v : Vars, sc = newScope ext text (closePhase ext st text) v := by
  unfold pushedNow at h
  split at h
  · simp at h
  · split at h
    · simp at h
    · split at h
      · simp only [Option.some.injEq] at h
        exact ⟨_, h.symm⟩
      · simp at h

theorem braceAfter_eq (ext : Str) (st : ScanState) (text : Str) (hb : isBraceLang ext = true) :
    braceAfter ext st text =
      st.braceLevel + (strings.Count text chLBrace : Int) - (strings.Count text chRBrace : Int) := by
  simp [braceAfter, hb]

/-- In a brace-governed scan, if the depth after a line is at most the recorded depth of an
open scope, the line contains a closing brace. -/
theorem closing_line_has_brace (ext : Str) (st : ScanState) (text : Str)
    (hb : isBraceLang ext = true) (hK : BraceStack st) (s : Scope) (hs : s ∈ st.scopeStack)
    (hd : braceAfter ext st text ≤ s.OpenLevel) :
    strings.Contains text [chRBrace] = true := by
  apply contains_of_count_pos
  have h1 := (hK.1 s hs).2
  rw [braceAfter_eq ext st text hb] at hd
  have h2 : (0 : Int) ≤ (strings.Count text chLBrace : Int) := Int.ofNat_nonneg _
  have h3 : (0 : Int) < (strings.Count text chRBrace : Int) := by omega
  exact_mod_cast h3

theorem closesAt_brace (ext : Str) (st : ScanState) (text : Str)
    (hb : isBraceLang ext = true) (hK : BraceStack st) (s : Scope) (hs : s ∈ st.scopeStack) :
    closesAt ext st text s = decide (braceAfter ext st text ≤ s.OpenLevel) := by
  have hc := (hK.1 s hs).1
  by_cases hd : braceAfter ext st text ≤ s.OpenLevel
  · have := closing_line_has_brace ext st text hb hK s hs hd
    simp [closesAt, shouldClose, hb, hc, hd, this]
  · simp [closesAt, shouldClose, hb, hc, hd]

theorem closesAt_brace_mono (ext : Str) (st : ScanState) (text : Str)
    (hb : isBraceLang ext = true) (hK : BraceStack st) :
    ∀ a ∈ st.scopeStack, ∀ b ∈ st.scopeStack, b.OpenLevel < a.OpenLevel →
      closesAt ext st text b = true → closesAt ext st text a = true := by
  intro a ha b hb2 hlt hcb
  rw [closesAt_brace ext st text hb hK b hb2] at hcb
  rw [closesAt_brace ext st text hb hK a ha]
  have : braceAfter ext st text ≤ b.OpenLevel := by simpa using hcb
  simp only [decide_eq_true_eq]
  omega

theorem braceStack_init : BraceStack initState := by
  constructor
  · intro s hs; simp [initState] at hs
  · simp [initState]

theorem braceStack_step (ext : Str) (st : ScanState) (text : Str)
    (hb : isBraceLang ext = true) (hK : BraceStack st)
    (hline : ∀ sc, pushedNow ext st text = some sc →
      sc.CloseChar = [chRBrace] ∧ strings.Contains text [chLBrace] = true ∧
        braceAfter ext st text = st.braceLevel + 1) :
    BraceStack (processLine ext st text) ∧
    (∀ sc, pushedNow ext st text = some sc → sc.OpenLevel = st.braceLevel) := by
  have hmono := closesAt_brace_mono ext st text hb hK
  have hrest : ∀ r ∈ stackAfterClose ext st text,
      r.CloseChar = [chRBrace] ∧ r.OpenLevel < braceAfter ext st text ∧
        r.OpenLevel < st.braceLevel := by
    intro r hr
    have hmem := stackAfterClose_sub ext st text r hr
    have hnc := not_of_mem_dropWhile_mono _ (closesAt ext st text) st.scopeStack hK.2 hmono r hr
    rw [closesAt_brace ext st text hb hK r hmem] at hnc
    have : ¬ braceAfter ext st text ≤ r.OpenLevel := by simpa using hnc
    exact ⟨(hK.1 r hmem).1, by omega, (hK.1 r hmem).2⟩
  have hpw : (stackAfterClose ext st text).Pairwise (fun a b => b.OpenLevel < a.OpenLevel) :=
    hK.2.sublist (List.dropWhile_suffix _).sublist
  have hopen : ∀ sc, pushedNow ext st text = some sc → sc.OpenLevel = st.braceLevel := by
    intro sc hsc
    obtain ⟨h1, h2, h3⟩ := hline sc hsc
    obtain ⟨v, rfl⟩ := pushedNow_shape ext st text sc hsc
    have hv : v.closeChar = [chRBrace] := h1
    simp only [newScope, startParam, hb, hv, h2, closePhase, if_true, beq_self_eq_true]
    omega
  refine ⟨?_, hopen⟩
  rw [processLine_eq]
  constructor
  · intro s hs
    simp only [List.mem_append, Option.mem_toList] at hs
    rcases hs with hs | hs
    · obtain ⟨h1, _, h3⟩ := hline s hs
      have := hopen s hs
      exact ⟨h1, by dsimp only; omega⟩
    · exact ⟨(hrest s hs).1, (hrest s hs).2.1⟩
  · dsimp only
    cases hpush : pushedNow ext st text with
    | none => simpa using hpw
    | some sc =>
      simp only [Option.toList_some, List.singleton_append, List.pairwise_cons]
      refine ⟨?_, hpw⟩
      intro r hr
      have := hopen sc hpush
      have := (hrest r hr).2.2
      omega

theorem bracePushesOnly_cons (ext : Str) (st : ScanState) (l : Str) (ls : List Str)
    (h : bracePushesOnly ext st (l :: ls) = true) :
    (∀ sc, pushedNow ext st l = some sc →
      sc.CloseChar = [chRBrace] ∧ strings.Contains l [chLBrace] = true ∧
        braceAfter ext st l = st.braceLevel + 1) ∧
    bracePushesOnly ext (processLine ext st l) ls = true := by
  simp only [bracePushesOnly, Bool.and_eq_true] at h
  refine ⟨?_, h.2⟩
  intro sc hsc
  have h1 := h.1
  rw [hsc] at h1
  simp only [Bool.and_eq_true, beq_iff_eq, decide_eq_true_eq] at h1
  exact ⟨h1.1.1, h1.1.2, h1.2⟩

/-- The invariant holds after every prefix of a brace-governed file. -/
theorem braceStack_scan (ext : Str) (hb : isBraceLang ext = true) (a b : List Str) :
    ∀ st : ScanState, BraceStack st → bracePushesOnly ext st (a ++ b) = true →
      BraceStack (scanFrom ext st a) ∧ bracePushesOnly ext (scanFrom ext st a) b = true := by
  induction a with
  | nil => intro st hK h; exact ⟨by simpa [scanFrom] using hK, by simpa [scanFrom] using h⟩
  | cons l ls ih =>
    intro st hK h
    obtain ⟨h1, h2⟩ := bracePushesOnly_cons ext st l (ls ++ b) h
    have := ih (processLine ext st l) (braceStack_step ext st l hb hK h1).1 h2
    simpa [scanFrom] using this

/-- In a brace-governed scan, every open scope yields the region that ends at the first
line at which the depth is back at its recorded depth, or at the last line. -/
theorem brace_scope_region (ext : Str) (hb : isBraceLang ext = true) (rest : List Str) :
    ∀ st : ScanState, BraceStack st → bracePushesOnly ext st rest = true →
      ∀ s ∈ st.scopeStack,
        (⟨s.Region.Start, firstLineAtDepth ext st rest s.OpenLevel, s.Region.Name⟩ : Region) ∈
          scopeRegionsFrom ext st rest := by
  induction rest with
  | nil =>
    intro st _ _ s hs
    simp only [scopeRegionsFrom, closeRemaining, List.mem_map, firstLineAtDepth]
    exact ⟨s, hs, rfl⟩
  | cons l ls ih =>
    intro st hK h s hs
    obtain ⟨h1, h2⟩ := bracePushesOnly_cons ext st l ls h
    simp only [scopeRegionsFrom, List.mem_append, firstLineAtDepth]
    by_cases hd : braceAfter ext st l ≤ s.OpenLevel
    · left
      rw [if_pos hd]
      simp only [closedNow, List.mem_map]
      refine ⟨s, ?_, rfl⟩
      apply mem_takeWhile_of_mono _ _ _ hK.2 (closesAt_brace_mono ext st l hb hK) s hs
      rw [closesAt_brace ext st l hb hK s hs]
      simpa using hd
    · right
      rw [if_neg hd]
      apply ih (processLine ext st l) (braceStack_step ext st l hb hK h1).1 h2
      rw [processLine_stack, List.mem_append]
      right
      apply mem_dropWhile_of_not _ _ s hs
      rw [closesAt_brace ext st l hb hK s hs]
      simpa using hd

/-- C17: in a brace-dialect file in which every opened scope is brace-governed and every
construct-opening line contains `\x7b` with a net brace change of exactly +1, the recorded
enclosing depth of a scope is the running brace depth before its opening line; its region
is written with its end at the first later line whose post-line depth is at most that
depth, or at the last line of the file if there is none; whenever the post-line depth is at
most the recorded depth of an open scope the line contains `\x7d`; and every scope opened
inside the region is closed no later than the region's end. -/
theorem C17_brace_scope_end (sort : List Region → List Region)
    (hS : SliceSortContract sort) (ext : Str) (pre post : List Str) (l : Str) (sc : Scope)
    (hb : isBraceLang ext = true)
    (hfile : bracePushesOnly ext initState (pre ++ l :: post) = true)
    (hpush : pushedNow ext (scanFrom ext initState pre) l = some sc) :
    sc.OpenLevel = (scanFrom ext initState pre).braceLevel ∧
    (⟨pre.length + 1,
      firstLineAtDepth ext (scanFrom ext initState (pre ++ [l])) post sc.OpenLevel,
      sc.Region.Name⟩ : Region) ∈ (GenerateMap sort ext (pre ++ l :: post)).rows ∧
    (∀ (a b : List Str) (text : Str), pre ++ l :: post = a ++ text :: b →
      ∀ s ∈ (scanFrom ext initState a).scopeStack,
        braceAfter ext (scanFrom ext initState a) text ≤ s.OpenLevel →
        strings.Contains text [chRBrace] = true) ∧
    (∀ r ∈ scopeRegions ext (pre ++ l :: post), pre.length + 1 < r.Start →
      r.Start < firstLineAtDepth ext (scanFrom ext initState (pre ++ [l])) post sc.OpenLevel →
      r.End ≤ firstLineAtDepth ext (scanFrom ext initState (pre ++ [l])) post sc.OpenLevel) := by
  obtain ⟨hK, hrest⟩ := braceStack_scan ext hb pre (l :: post) initState braceStack_init hfile
  obtain ⟨hline, hpost⟩ := bracePushesOnly_cons ext _ l post hrest
  obtain ⟨hK2, hopen⟩ := braceStack_step ext _ l hb hK hline
  have hln : (scanFrom ext initState pre).lineNum = pre.length := by
    simp [scanFrom_lineNum, initState]
  have hstart : sc.Region.Start = pre.length + 1 := by
    rw [← hln]; exact pushedNow_start ext _ l sc (by simp [hpush])
  have hstate : scanFrom ext initState (pre ++ [l]) =
      processLine ext (scanFrom ext initState pre) l := by
    rw [scanFrom_append, scanFrom_single]
  have hmem : sc ∈ (scanFrom ext initState (pre ++ [l])).scopeStack := by
    rw [hstate, processLine_stack, hpush]; simp
  have hreg : (⟨pre.length + 1,
      firstLineAtDepth ext (scanFrom ext initState (pre ++ [l])) post sc.OpenLevel,
      sc.Region.Name⟩ : Region) ∈ scopeRegions ext (pre ++ l :: post) := by
    have h1 := brace_scope_region ext hb post (scanFrom ext initState (pre ++ [l]))
      (by rw [hstate]; exact hK2) (by rw [hstate]; exact hpost) sc hmem
    rw [hstart] at h1
    have h2 := scopeRegionsFrom_append ext (pre ++ [l]) post initState _ h1
    simpa [scopeRegions] using h2
  refine ⟨hopen sc hpush, scopeRegions_in_rows sort hS ext _ _ hreg, ?_, ?_⟩
  · intro a b text hsplit s hs hd
    have hfile2 : bracePushesOnly ext initState (a ++ text :: b) = true := by
      rw [← hsplit]; exact hfile
    have hKa := (braceStack_scan ext hb a (text :: b) initState braceStack_init hfile2).1
    exact closing_line_has_brace ext _ text hb hKa s hs hd
  · intro r hr h1 h2
    exact (scopeRegionsFrom_facts ext (pre ++ l :: post) initState stackOrdered_init).2
      _ hreg r hr h1 h2

/-- Witness of C17: the class on lines 1 to 5 with a method on lines 2 to 4; the theorem
is applied to the method, opened at depth 1 and closed at line 4, where the depth is 1 again. -/
theorem C17_brace_scope_end_witness :
    firstLineAtDepth ".js".data
      (scanFrom ".js".data initState (linesOf ["class Widget \x7b"] ++ ["  method() \x7b".data]))
      (linesOf ["    return 1;", "  \x7d", "\x7d"]) 1 = 4 ∧
    ((⟨⟨2, 0, "ƒ Widget.method".data⟩, 1, 1, [chRBrace], []⟩ : Scope).OpenLevel =
      (scanFrom ".js".data initState (linesOf ["class Widget \x7b"])).braceLevel ∧
    (⟨(linesOf ["class Widget \x7b"]).length + 1,
      firstLineAtDepth ".js".data
        (scanFrom ".js".data initState (linesOf ["class Widget \x7b"] ++ ["  method() \x7b".data]))
        (linesOf ["    return 1;", "  \x7d", "\x7d"])
        (⟨⟨2, 0, "ƒ Widget.method".data⟩, 1, 1, [chRBrace], []⟩ : Scope).OpenLevel,
      (⟨⟨2, 0, "ƒ Widget.method".data⟩, 1, 1, [chRBrace], []⟩ : Scope).Region.Name⟩ : Region) ∈
      (GenerateMap insertionSort ".js".data
        (linesOf ["class Widget \x7b"] ++ "  method() \x7b".data ::
          linesOf ["    return 1;", "  \x7d", "\x7d"])).rows ∧
    (∀ (a b : List Str) (text : Str),
      linesOf ["class Widget \x7b"] ++ "  method() \x7b".data ::
          linesOf ["    return 1;", "  \x7d", "\x7d"] = a ++ text :: b →
      ∀ s ∈ (scanFrom ".js".data initState a).scopeStack,
        braceAfter ".js".data (scanFrom ".js".data initState a) text ≤ s.OpenLevel →
        strings.Contains text [chRBrace] = true) ∧
    (∀ r ∈ scopeRegions ".js".data
        (linesOf ["class Widget \x7b"] ++ "  method() \x7b".data ::
          linesOf ["    return 1;", "  \x7d", "\x7d"]),
      (linesOf ["class Widget \x7b"]).length + 1 < r.Start →
      r.Start < firstLineAtDepth ".js".data
        (scanFrom ".js".data initState (linesOf ["class Widget \x7b"] ++ ["  method() \x7b".data]))
        (linesOf ["    return 1;", "  \x7d", "\x7d"])
        (⟨⟨2, 0, "ƒ Widget.method".data⟩, 1, 1, [chRBrace], []⟩ : Scope).OpenLevel →
      r.End ≤ firstLineAtDepth ".js".data
        (scanFrom ".js".data initState (linesOf ["class Widget \x7b"] ++ ["  method() \x7b".data]))
        (linesOf ["    return 1;", "  \x7d", "\x7d"])
        (⟨⟨2, 0, "ƒ Widget.method".data⟩, 1, 1, [chRBrace], []⟩ : Scope).OpenLevel)) :=
  ⟨by decide,
   C17_brace_scope_end insertionSort insertionSort_contract ".js".data
     (linesOf ["class Widget \x7b"]) (linesOf ["    return 1;", "  \x7d", "\x7d"])
     "  method() \x7b".data ⟨⟨2, 0, "ƒ Widget.method".data⟩, 1, 1, [chRBrace], []⟩
     (by decide) (by decide) (by decide)⟩

/-! ## The run-time checks never fail -/

theorem index?_sub (m : List Str) (i : Nat) (h : i < m.length) : index? m i = some (sub m i) := by
  simp [index?, sub, List.getD, List.getElem?_eq_getElem h]

theorem find_length_of_gt (r : Re) (text : Str) (n : Nat) (hn : r.numCap = n)
    (h : 1 < (FindStringSubmatch r text).length) :
    (FindStringSubmatch r text).length = n + 1 := by
  rcases FindStringSubmatch_length r text with h0 | h0
  · rw [h0] at h; simp at h
  · rw [h0, hn]

theorem index?_one (r : Re) (text : Str) (h : 1 < (FindStringSubmatch r text).length) :
    index? (FindStringSubmatch r text) 1 = some (sub (FindStringSubmatch r text) 1) :=
  index?_sub _ 1 h

theorem index?_two (r : Re) (text : Str) (hn : r.numCap = 2)
    (h : 1 < (FindStringSubmatch r text).length) :
    index? (FindStringSubmatch r text) 2 = some (sub (FindStringSubmatch r text) 2) :=
  index?_sub _ 2 (by rw [find_length_of_gt r text 2 hn h]; omega)

theorem markerLabelC_eq (text : Str) : markerLabelC text = some (markerLabel text) := by
  unfold markerLabelC markerLabel
  by_cases h1 : strings.Contains text "//".data = true
  · by_cases h2 : (FindStringSubmatch codeRe text).length = 3
    · have := index?_sub (FindStringSubmatch codeRe text) 2 (by omega)
      simp [h1, h2, this]
    · simp [h1, h2]
  · simp [h1]

theorem detectGoC_eq (text : Str) : detectGoC text = some (detectGo text) := by
  unfold detectGoC detectGo
  by_cases h1 : 1 < (FindStringSubmatch goFuncRe text).length
  · simp [h1, index?_one goFuncRe text h1]
  · by_cases h2 : 1 < (FindStringSubmatch goTypeRe text).length
    · simp [h1, h2, index?_one goTypeRe text h2, index?_two goTypeRe text (by decide) h2]
    · simp only [gt_iff_lt, h1, h2, if_false]
      split
      · rfl
      · split
        · rfl
        · split <;> rfl

theorem detectJavaC_eq (text : Str) : detectJavaC text = some (detectJava text) := by
  unfold detectJavaC detectJava
  by_cases h1 : 1 < (FindStringSubmatch javaClassRe text).length
  · simp [h1, index?_one javaClassRe text h1]
  · by_cases h2 : 1 < (FindStringSubmatch javaMethodRe text).length
    · simp [h1, h2, index?_one javaMethodRe text h2]
    · simp [h1, h2]

theorem detectCssC_eq (text : Str) : detectCssC text = some (detectCss text) := by
  unfold detectCssC detectCss
  by_cases h0 : strings.Contains text [chLBrace] = true
  · by_cases h1 : 1 < (FindStringSubmatch cssRe (strings.TrimSpace text)).length
    · simp [h0, h1, index?_one cssRe _ h1]
    · simp [h0, h1]
  · simp [h0]

theorem detectPyC_eq (text : Str) : detectPyC text = some (detectPy text) := by
  unfold detectPyC detectPy
  by_cases h1 : 1 < (FindStringSubmatch pyDefRe text).length
  · simp [h1, index?_one pyDefRe text h1, index?_two pyDefRe text (by decide) h1]
  · by_cases h2 : 1 < (FindStringSubmatch pyClassRe text).length
    · simp [h1, h2, index?_one pyClassRe text h2, index?_two pyClassRe text (by decide) h2]
    · simp [h1, h2]

theorem detectJsC_eq (text : Str) : detectJsC text = some (detectJs text) := by
  unfold detectJsC detectJs
  by_cases h1 : 1 < (FindStringSubmatch jsFuncRe text).length
  · simp [h1, index?_one jsFuncRe text h1]
  by_cases h2 : 1 < (FindStringSubmatch jsClassRe text).length
  · simp [h1, h2, index?_one jsClassRe text h2]
  by_cases h3 : 1 < (FindStringSubmatch jsArrowRe text).length
  · simp [h1, h2, h3, index?_one jsArrowRe text h3]
  by_cases h4 : 1 < (FindStringSubmatch tsInterfaceRe text).length
  · simp [h1, h2, h3, h4, index?_one tsInterfaceRe text h4]
  by_cases h5 : 1 < (FindStringSubmatch jsDescribeRe text).length
  · simp [h1, h2, h3, h4, h5, index?_one jsDescribeRe text h5]
  by_cases h6 : 1 < (FindStringSubmatch jsItRe text).length
  · simp [h1, h2, h3, h4, h5, h6, index?_one jsItRe text h6]
  by_cases h7 : 1 < (FindStringSubmatch jsObjRe text).length
  · simp [h1, h2, h3, h4, h5, h6, h7, index?_one jsObjRe text h7]
  by_cases h8 : MatchString jsExportDefaultRe text = true
  · simp [h1, h2, h3, h4, h5, h6, h7, h8]
  by_cases h9 : 2 < (FindStringSubmatch jsRouteRe text).length
  · simp [h1, h2, h3, h4, h5, h6, h7, h8, h9, index?_sub _ 1 (Nat.lt_trans (by omega) h9),
      index?_sub _ 2 h9]
  by_cases h10 : 1 < (FindStringSubmatch jsMethodRe text).length
  · simp only [gt_iff_lt, h1, h2, h3, h4, h5, h6, h7, h8, h9, h10, if_true, if_false,
      index?_one jsMethodRe text h10, Option.some_bind]
    exact (apply_ite some _ _ _).symm
  by_cases h11 : 1 < (FindStringSubmatch jsPropFuncRe text).length
  · simp [h1, h2, h3, h4, h5, h6, h7, h8, h9, h10, h11, index?_one jsPropFuncRe text h11]
  by_cases h12 : 1 < (FindStringSubmatch jsPropArrowRe text).length
  · simp [h1, h2, h3, h4, h5, h6, h7, h8, h9, h10, h11, h12, index?_one jsPropArrowRe text h12]
  · simp [h1, h2, h3, h4, h5, h6, h7, h8, h9, h10, h11, h12]

theorem autoDetectC_eq (ext text : Str) : autoDetectC ext text = some (autoDetect ext text) := by
  unfold autoDetectC autoDetect
  simp only [detectGoC_eq, detectJsC_eq, detectJavaC_eq, detectCssC_eq, detectPyC_eq,
    Option.map_some']
  by_cases hm : 1 < (FindStringSubmatch mdRe text).length
  · simp only [gt_iff_lt, hm, if_true, index?_two mdRe text (by decide) hm, Option.map_some']
    repeat' split
    all_goals rfl
  · simp only [gt_iff_lt, hm, if_false]
    repeat' split
    all_goals rfl

theorem depNameC_eq (ext text : Str) : depNameC ext text = some (depName ext text) := by
  unfold depNameC depName
  dsimp only
  split
  · split
    · rename_i h; exact index?_one depGoRe text h
    · rfl
  · split
    · split
      · rename_i h; exact index?_one depJsRe text h
      · rfl
    · split
      · split
        · rename_i h; exact index?_one depHtmlScriptRe text h
        · split
          · rename_i h
            rw [index?_one depHtmlLinkRe text h, index?_two depHtmlLinkRe text (by decide) h]
            simp only [Option.some_bind]
            split <;> rfl
          · rfl
      · split
        · split
          · rename_i h; exact index?_one depCssRe text h
          · rfl
        · rfl

theorem htmlDetectC_eq (ext text : Str) (v : Vars) :
    htmlDetectC ext text v = some (htmlDetect ext text v) := by
  by_cases hh : isHtml ext = true
  swap
  · simp only [htmlDetectC, htmlDetect, hh]; rfl
  by_cases h1 : 1 < (FindStringSubmatch htmlTagRe text).length
  swap
  · simp only [htmlDetectC, htmlDetect, hh, gt_iff_lt, h1, if_true, if_false, Bool.false_eq_true, ↓reduceIte]
  by_cases h2 : (sub (FindStringSubmatch htmlTagRe text) 1 != []) = true
  swap
  · simp only [htmlDetectC, htmlDetect, hh, gt_iff_lt, h1, h2, if_true, if_false, Bool.false_eq_true, ↓reduceIte,
      index?_one htmlTagRe text h1, Option.some_bind]
  by_cases h3 : structuralTags.any
      (fun t => t.data == strings.ToLower (sub (FindStringSubmatch htmlTagRe text) 1)) = true
  swap
  · simp only [htmlDetectC, htmlDetect, hh, gt_iff_lt, h1, h2, h3, if_true, if_false, Bool.false_eq_true, ↓reduceIte,
      index?_one htmlTagRe text h1, Option.some_bind]
  by_cases hi : 1 < (FindStringSubmatch idRe text).length
  · simp only [htmlDetectC, htmlDetect, hh, gt_iff_lt, h1, h2, h3, hi, if_true, if_false, Bool.false_eq_true, ↓reduceIte,
      index?_one htmlTagRe text h1, index?_one idRe text hi, Option.some_bind]
  by_cases hc : 1 < (FindStringSubmatch classRe text).length
  swap
  · simp only [htmlDetectC, htmlDetect, hh, gt_iff_lt, h1, h2, h3, hi, hc, if_true, if_false, Bool.false_eq_true, ↓reduceIte,
      index?_one htmlTagRe text h1, Option.some_bind]
  by_cases hf : 0 < (strings.Fields (sub (FindStringSubmatch classRe text) 1)).length
  · simp only [htmlDetectC, htmlDetect, hh, gt_iff_lt, h1, h2, h3, hi, hc, hf, if_true, if_false, Bool.false_eq_true, ↓reduceIte,
      index?_one htmlTagRe text h1, index?_one classRe text hc, index?_sub _ 0 hf,
      Option.some_bind]
  · simp only [htmlDetectC, htmlDetect, hh, gt_iff_lt, h1, h2, h3, hi, hc, hf, if_true, if_false, Bool.false_eq_true, ↓reduceIte,
      index?_one htmlTagRe text h1, index?_one classRe text hc, Option.some_bind]

theorem parentNameC_eq (scopeStack : List Scope) :
    parentNameC scopeStack = some (parentName scopeStack) := by
  unfold parentNameC parentName
  split
  · rfl
  · dsimp only
    split
    · rename_i h; exact index?_sub _ 1 h
    · rfl

theorem byteLen_append (a b : Str) : byteLen (a ++ b) = byteLen a + byteLen b := by
  simp [byteLen]

theorem nameOk_fn (x : Str) : NameOk ("ƒ ".data ++ x) := by
  have h3 : byteLen "ƒ ".data = 3 := by decide
  constructor
  · intro _; rw [byteLen_append]; omega
  · intro h; simp [strings.HasPrefix, List.isPrefixOf] at h

theorem nameOk_check (x : Str) : NameOk ("✓ ".data ++ x) := by
  constructor
  · intro h; simp [strings.HasPrefix, List.isPrefixOf] at h
  · intro _; rw [byteLen_append]; omega

theorem nameOk_of_head (c : Char) (rest : Str) (h1 : c ≠ 'ƒ') (h2 : c ≠ '✓') :
    NameOk (c :: rest) := by
  constructor
  · intro h
    simp only [strings.HasPrefix, List.isPrefixOf, Bool.and_true, beq_iff_eq] at h
    exact absurd h.symm h1
  · intro h
    simp only [strings.HasPrefix, List.isPrefixOf, Bool.and_true, beq_iff_eq] at h
    exact absurd h.symm h2

theorem nameOk_nil : NameOk [] := by
  constructor <;> intro h <;> simp [strings.HasPrefix, List.isPrefixOf] at h

theorem qualifyNameC_eq (parent name : Str) (h : NameOk name) :
    qualifyNameC parent name = some (qualifyName parent name) := by
  unfold qualifyNameC qualifyName
  split
  · rename_i hc
    by_cases hk : strings.HasPrefix name "✓".data = true
    · have h2 := h.2 hk
      have h3 : byteLen "ƒ ".data ≤ byteLen name := by
        have : byteLen "ƒ ".data ≤ byteLen "✓ ".data := by decide
        omega
      simp [sliceFrom?, h2, h3, hk]
    · have hf : strings.HasPrefix name "ƒ".data = true := by
        simp only [Bool.and_eq_true, Bool.or_eq_true] at hc
        rcases hc.2 with hf | hf
        · exact hf
        · exact absurd hf hk
      have h3 := h.1 hf
      simp [sliceFrom?, h3, hk]
  · rfl

theorem nameOk_ite (c : Prop) [Decidable c] (a b : Vars) (ha : NameOk a.name)
    (hb : NameOk b.name) : NameOk (if c then a else b).name := by
  split <;> assumption

theorem detectGo_nameOk (text : Str) : NameOk (detectGo text).name := by
  unfold detectGo
  repeat' first
    | apply nameOk_ite
    | exact nameOk_fn _
    | exact nameOk_nil
    | exact nameOk_of_head _ _ (by decide) (by decide)

theorem detectJs_nameOk (text : Str) : NameOk (detectJs text).name := by
  unfold detectJs
  repeat' first
    | apply nameOk_ite
    | exact nameOk_fn _
    | exact nameOk_check _
    | exact nameOk_nil
    | exact nameOk_of_head _ _ (by decide) (by decide)

theorem detectJava_nameOk (text : Str) : NameOk (detectJava text).name := by
  unfold detectJava
  repeat' first
    | apply nameOk_ite
    | exact nameOk_fn _
    | exact nameOk_nil
    | exact nameOk_of_head _ _ (by decide) (by decide)

theorem detectCss_nameOk (text : Str) : NameOk (detectCss text).name := by
  unfold detectCss
  repeat' first
    | apply nameOk_ite
    | exact nameOk_nil
    | exact nameOk_of_head _ _ (by decide) (by decide)

theorem detectPy_nameOk (text : Str) : NameOk (detectPy text).name := by
  unfold detectPy
  repeat' first
    | apply nameOk_ite
    | exact nameOk_fn _
    | exact nameOk_nil
    | exact nameOk_of_head _ _ (by decide) (by decide)

theorem autoDetect_nameOk (ext text : Str) (v0 : Vars)
    (h : autoDetect ext text = Detect.vars v0) : NameOk v0.name := by
  unfold autoDetect at h
  dsimp only at h
  split_ifs at h
  all_goals
    simp only [Detect.vars.injEq] at h
    subst h
    first
    | exact detectGo_nameOk text
    | exact detectJs_nameOk text
    | exact detectJava_nameOk text
    | exact detectCss_nameOk text
    | exact detectPy_nameOk text
    | exact nameOk_nil

theorem htmlDetect_nameOk (ext text : Str) (v : Vars) (h : NameOk v.name) :
    NameOk (htmlDetect ext text v).name := by
  unfold htmlDetect
  repeat' first
    | apply nameOk_ite
    | exact h
    | (dsimp only
       split_ifs <;> exact nameOk_of_head _ _ (by decide) (by decide))

theorem newScopeC_eq (ext text : Str) (st : ScanState) (v : Vars) (h : NameOk v.name) :
    newScopeC ext text st v = some (newScope ext text st v) := by
  simp [newScopeC, newScope, parentNameC_eq, qualifyNameC_eq _ _ h]

theorem closePhaseC_eq (ext : Str) (st : ScanState) (text : Str) :
    closePhaseC ext st text = some (closePhase ext st text) := by
  have hlen : (st.scopeStack.takeWhile (closesAt ext st text)).length ≤ st.scopeStack.length :=
    (List.takeWhile_prefix _).length_le
  have hdrop : st.scopeStack.drop (st.scopeStack.takeWhile (closesAt ext st text)).length =
      st.scopeStack.dropWhile (closesAt ext st text) := by
    have h := List.takeWhile_append_dropWhile (closesAt ext st text) st.scopeStack
    have h2 := List.drop_left (st.scopeStack.takeWhile (closesAt ext st text))
      (st.scopeStack.dropWhile (closesAt ext st text))
    rw [h] at h2
    exact h2
  unfold closePhaseC closePhase stackAfterClose
  by_cases h0 : 0 < (st.scopeStack.takeWhile (closesAt ext st text)).length
  · simp [h0, dropTop?, hlen, hdrop]
  · have hz : (st.scopeStack.takeWhile (closesAt ext st text)).length = 0 := by omega
    have : st.scopeStack.dropWhile (closesAt ext st text) = st.scopeStack := by
      rw [← hdrop, hz]; rfl
    simp [h0, this]

theorem openPhaseC_eq (ext : Str) (st : ScanState) (text : Str) :
    openPhaseC ext st text = some (openPhase ext st text) := by
  unfold openPhaseC openPhase
  rw [markerLabelC_eq]
  simp only [Option.some_bind]
  cases hm : markerLabel text with
  | some c => dsimp only; split <;> rfl
  | none =>
    dsimp only
    rw [autoDetectC_eq]
    simp only [Option.some_bind]
    cases hd : autoDetect ext text with
    | heading n => rfl
    | vars v0 =>
      dsimp only
      rw [depNameC_eq, htmlDetectC_eq]
      simp only [Option.some_bind]
      have hok : NameOk (htmlDetect ext text v0).name :=
        htmlDetect_nameOk ext text v0 (autoDetect_nameOk ext text v0 hd)
      by_cases hmt : (htmlDetect ext text v0).matched = true
      · simp only [detectLine, hmt, if_true]
        rw [newScopeC_eq _ _ _ _ hok]
        rfl
      · simp only [detectLine, hmt, if_false]
        simp

theorem processLineC_eq (ext : Str) (st : ScanState) (text : Str) :
    processLineC ext st text = some (processLine ext st text) := by
  simp [processLineC, processLine, closePhaseC_eq, openPhaseC_eq]

theorem scanFromC_eq (ext : Str) (lines : List Str) :
    ∀ st : ScanState, scanFromC ext st lines = some (scanFrom ext st lines) := by
  induction lines with
  | nil => intro st; rfl
  | cons l ls ih =>
    intro st
    simp only [scanFromC, processLineC_eq, Option.some_bind, ih]
    rfl

theorem getElem?_append_length {α : Type} (pre : List α) (a : α) (t : List α) :
    (pre ++ a :: t)[pre.length]? = some a := by
  induction pre with
  | nil => simp
  | cons x xs ih => simpa using ih

theorem getElem?_append_length_succ {α : Type} (pre : List α) (a n : α) (t : List α) :
    (pre ++ a :: n :: t)[pre.length + 1]? = some n := by
  induction pre with
  | nil => simp
  | cons x xs ih => simpa using ih

theorem set_append_length {α : Type} (pre : List α) (a b : α) (t : List α) :
    (pre ++ a :: t).set pre.length b = pre ++ b :: t := by
  induction pre with
  | nil => rfl
  | cons x xs ih => simp [ih]

/-- The in-place post-processing loop, run from an index on, rewrites the regions from that
index as `extendMarkers` does, and no index expression in it is out of range. -/
theorem extendLoopC_eq (N : Nat) (suffix : List Region) :
    ∀ pre : List Region, extendLoopC N suffix.length pre.length (pre ++ suffix) =
      some (pre ++ extendMarkers N suffix) := by
  induction suffix with
  | nil => intro pre; simp [extendLoopC, extendMarkers]
  | cons a t ih =>
    intro pre
    have hstep : ∀ b : Region, extendLoopC N t.length (pre.length + 1) (pre ++ b :: t) =
        some (pre ++ b :: extendMarkers N t) := by
      intro b
      have := ih (pre ++ [b])
      simpa using this
    simp only [List.length_cons, extendLoopC, extendStepC, index?,
      getElem?_append_length, Option.some_bind]
    cases t with
    | nil =>
      have hlt : ¬ pre.length + 1 < (pre ++ [a]).length := by simp
      by_cases hp : (a.Start == a.End) = true
      · simp only [hp, if_true, hlt, if_false, Option.some_bind, set_append_length]
        rw [hstep]
        simp [extendMarkers, hp]
      · simp only [hp, if_false, Option.some_bind, Bool.false_eq_true]
        rw [hstep]
        simp [extendMarkers, hp]
    | cons n rest =>
      have hlt : pre.length + 1 < (pre ++ a :: n :: rest).length := by simp
      by_cases hp : (a.Start == a.End) = true
      · by_cases hgt : n.Start > a.Start
        · simp only [hp, if_true, hlt, getElem?_append_length_succ, Option.some_bind, hgt,
            set_append_length]
          rw [hstep]
          simp [extendMarkers, hp, hgt]
        · simp only [hp, if_true, hlt, getElem?_append_length_succ, Option.some_bind, hgt,
            if_false]
          rw [hstep]
          simp [extendMarkers, hp, hgt]
      · simp only [hp, if_false, Option.some_bind, Bool.false_eq_true]
        rw [hstep]
        simp [extendMarkers, hp]

/-- C11: for every file content and every extension, the scan loop, the naming resolution
and the post-processing of `GenerateMap` run to their end without a run-time panic: every
submatch and field index, the two byte slices that strip the icon of a name, the slice of
the scope stack and the indexes of the post-processing loop are within bounds, and the
result is that of the scan without the checks. -/
theorem C11_no_runtime_panic (sort : List Region → List Region) (ext : Str)
    (lines : List Str) :
    GenerateMapC sort ext lines = some (GenerateMap sort ext lines) := by
  unfold GenerateMapC GenerateMap
  rw [scanFromC_eq]
  simp only [Option.some_bind]
  have := extendLoopC_eq (scanFrom ext initState lines).lineNum
    (sort ((scanFrom ext initState lines).regions ++ closeRemaining (scanFrom ext initState lines)))
    []
  simp only [List.length_nil, List.nil_append] at this
  rw [this]
  rfl

theorem cut_append (a rest : Str) (sep : Char) (h : sep ∉ a) :
    strings.Cut (a ++ sep :: rest) sep = some (a, rest) := by
  induction a with
  | nil => simp [strings.Cut]
  | cons c cs ih =>
    have hc : ¬ c = sep := fun e => h (by simp [e])
    have hcs : sep ∉ cs := fun e => h (by simp [e])
    simp [strings.Cut, hc, ih hcs]

theorem splitN_three (s e n : Str) (hs : '|' ∉ s) (he : '|' ∉ e) :
    strings.SplitN (s ++ '|' :: (e ++ '|' :: n)) '|' 3 = [s, e, n] := by
  simp [strings.SplitN, cut_append _ _ _ hs, cut_append _ _ _ he]

theorem splitN_two (r n : Str) (hr : '|' ∉ r) :
    strings.SplitN (r ++ '|' :: n) '|' 2 = [r, n] := by
  simp [strings.SplitN, cut_append _ _ _ hr]

theorem sliceFrom_one_pipe (x : Str) : sliceFrom 1 ('|' :: x) = x := by
  have h1 : Char.utf8Size '|' = 1 := by decide
  cases x with
  | nil => simp [sliceFrom]
  | cons c cs => simp [sliceFrom, h1]

theorem level1Row_current (s e n : Str) (hs : '|' ∉ s) (he : '|' ∉ e) :
    level1Row (Record.current s e n).text =
      fmtRow (strings.TrimSpace s) (strings.TrimSpace e) (strings.TrimSpace n) := by
  simp [level1Row, Record.text, sliceFrom_one_pipe, splitN_three s e n hs he,
    strings.HasPrefix, sub]

theorem hasPrefix_pipe_legacy (r n : Str) (hr : '|' ∉ r) (hne : r ≠ []) :
    strings.HasPrefix (r ++ '|' :: n) "|".data = false := by
  cases r with
  | nil => exact absurd rfl hne
  | cons c cs =>
    have hc : ¬ c = '|' := fun e => hr (by simp [e])
    have hc' : ¬ '|' = c := fun e => hc e.symm
    simp [strings.HasPrefix, List.isPrefixOf, hc']

theorem level1Row_legacy (r n : Str) (hr : '|' ∉ r) (hne : r ≠ []) :
    level1Row (Record.legacy r n).text =
      fmtRow (strings.TrimSpace r) (strings.TrimSpace r) (strings.TrimSpace n) := by
  simp [level1Row, Record.text, hasPrefix_pipe_legacy r n hr hne, splitN_two r n hr, sub]

theorem record_text_ne_nil (rec : Record) : rec.text ≠ [] := by
  cases rec <;> simp [Record.text]

theorem isHeaderField_pipe (x : Str) : isHeaderField ('|' :: x) = false := by
  simp [isHeaderField, strings.HasPrefix, List.isPrefixOf]

theorem dashes_pipe (x : Str) : strings.HasPrefix ('|' :: x) "-----".data = false := by
  simp [strings.HasPrefix, List.isPrefixOf]

theorem isHeaderField_digit (l : Str) (hd : firstByteIsDigit l = true) :
    isHeaderField l = false := by
  cases l with
  | nil => simp [firstByteIsDigit] at hd
  | cons d ds =>
    simp only [firstByteIsDigit] at hd
    have hne : ∀ q : Char, q.isDigit = false → ¬ q = d := by
      intro q hq e
      subst e
      rw [hd] at hq
      exact absurd hq (by simp)
    simp [isHeaderField, strings.HasPrefix, List.isPrefixOf, hne 'F' (by decide),
      hne 'P' (by decide), hne 'S' (by decide), hne 'L' (by decide), hne 'M' (by decide)]

theorem dashes_digit (l : Str) (hd : firstByteIsDigit l = true) :
    strings.HasPrefix l "-----".data = false := by
  cases l with
  | nil => simp [firstByteIsDigit] at hd
  | cons d ds =>
    simp only [firstByteIsDigit] at hd
    have hne : ¬ '-' = d := by
      intro e
      subst e
      exact absurd hd (by decide)
    simp [strings.HasPrefix, List.isPrefixOf, hne]

theorem firstByteIsDigit_append (r x : Str) (h : firstByteIsDigit r = true) :
    firstByteIsDigit (r ++ x) = true := by
  cases r with
  | nil => simp [firstByteIsDigit] at h
  | cons c cs => simpa [firstByteIsDigit] using h

theorem contains_pipe_legacy (r n : Str) : strings.Contains (r ++ '|' :: n) "|".data = true := by
  apply contains_of_count_pos
  simp [strings.Count]

/-- A well-formed record is re-emitted in its canonical form, and ends the header, whenever
the header is over or the record is recognised in the header. -/
theorem level1Step_record (st : Level1State) (raw : Str) (rec : Record)
    (hraw : strings.TrimSpace raw = rec.text) (hwf : rec.wellFormed = true)
    (hmode : st.inHeader = true → rec.selfDetecting = true) :
    level1Step st raw = { inHeader := false, out := st.out ++ [rec.canonical] } := by
  have hne : (rec.text).isEmpty = false := by
    cases rec <;> simp [Record.text]
  cases rec with
  | current s e n =>
    simp [Record.wellFormed] at hwf
    have hrow := level1Row_current s e n hwf.1 hwf.2
    simp only [level1Step, hraw, hne]
    simp only [Record.text] at hrow ⊢
    simp [isHeaderField_pipe, dashes_pipe, strings.HasPrefix, List.isPrefixOf, hrow,
      Record.canonical]
  | legacy r n =>
    simp [Record.wellFormed] at hwf
    have hrow := level1Row_legacy r n hwf.1 hwf.2
    have hpipe := hasPrefix_pipe_legacy r n hwf.1 hwf.2
    have hcont := contains_pipe_legacy r n
    simp only [level1Step, hraw, hne]
    simp only [Record.text] at hrow hpipe hcont ⊢
    cases hh : st.inHeader with
    | false => simp [hrow, Record.canonical]
    | true =>
      have hd : firstByteIsDigit r = true := by simpa [Record.selfDetecting] using hmode hh
      have hd2 := firstByteIsDigit_append r ('|' :: n) hd
      simp [isHeaderField_digit _ hd2, dashes_digit _ hd2, hpipe, hcont, hd2, hrow,
        Record.canonical]

theorem level1Step_blank (st : Level1State) (raw : Str) (h : strings.TrimSpace raw = []) :
    level1Step st raw = st := by
  simp [level1Step, h]

theorem level1Step_header (st : Level1State) (raw : Str) (hst : st.inHeader = true)
    (h : isHeaderField (strings.TrimSpace raw) = true) : level1Step st raw = st := by
  simp [level1Step, h, hst]

theorem isHeaderField_dashes (l : Str) (h : strings.HasPrefix l "-----".data = true) :
    isHeaderField l = false ∧ l.isEmpty = false := by
  cases l with
  | nil => simp [strings.HasPrefix, List.isPrefixOf] at h
  | cons d ds =>
    have hd : d = '-' := by
      simp [strings.HasPrefix, List.isPrefixOf] at h
      exact h.1.symm
    subst hd
    simp [isHeaderField, strings.HasPrefix, List.isPrefixOf]

theorem level1Step_separator (st : Level1State) (raw : Str) (hst : st.inHeader = true)
    (h : strings.HasPrefix (strings.TrimSpace raw) "-----".data = true) :
    level1Step st raw = { st with inHeader := false } := by
  have h2 := isHeaderField_dashes _ h
  simp [level1Step, h, hst, h2.1, h2.2]

/-- The header fields and blank lines before the separator write no row and leave the
reader in the header. -/
theorem level1_header_fold (hdr : List Str) (st : Level1State) (hst : st.inHeader = true)
    (hH : ∀ h ∈ hdr, strings.TrimSpace h = [] ∨ isHeaderField (strings.TrimSpace h) = true) :
    hdr.foldl level1Step st = st := by
  induction hdr with
  | nil => rfl
  | cons h hs ih =>
    have hstep : level1Step st h = st := by
      rcases hH h (by simp) with hb | hf
      · exact level1Step_blank st h hb
      · exact level1Step_header st h hst hf
    simp only [List.foldl_cons, hstep]
    exact ih (fun x hx => hH x (by simp [hx]))

/-- The records of the body are re-emitted in order, one canonical row each; blank lines
write nothing. -/
theorem level1_body_fold (body : List Str) :
    ∀ (st : Level1State) (recs : List Record),
      List.Forall₂ (fun raw rec => strings.TrimSpace raw = Record.text rec ∧
        rec.wellFormed = true)
        (body.filter fun raw => !(strings.TrimSpace raw).isEmpty) recs →
      (st.inHeader = true → ∀ rec ∈ recs, rec.selfDetecting = true) →
      (body.foldl level1Step st).out = st.out ++ recs.map Record.canonical := by
  induction body with
  | nil =>
    intro st recs hB _
    simp only [List.filter_nil] at hB
    cases hB
    simp
  | cons raw rest ih =>
    intro st recs hB hD
    by_cases hb : strings.TrimSpace raw = []
    · have hf : (raw :: rest).filter (fun raw => !(strings.TrimSpace raw).isEmpty) =
          rest.filter (fun raw => !(strings.TrimSpace raw).isEmpty) := by
        simp [List.filter_cons, hb]
      rw [hf] at hB
      simp only [List.foldl_cons, level1Step_blank st raw hb]
      exact ih st recs hB hD
    · have hf : (raw :: rest).filter (fun raw => !(strings.TrimSpace raw).isEmpty) =
          raw :: rest.filter (fun raw => !(strings.TrimSpace raw).isEmpty) := by
        simp [List.filter_cons, hb]
      rw [hf] at hB
      cases hB with
      | cons hhead htail =>
        rename_i rec recs'
        have hstep := level1Step_record st raw rec hhead.1 hhead.2
          (fun hh => hD hh rec (by simp))
        simp only [List.foldl_cons, hstep]
        rw [ih _ recs' htail (by intro hh; simp at hh)]
        simp

theorem level1Lines_records (hdr : List Str) (sep : Option Str) (body : List Str)
    (recs : List Record)
    (hH : ∀ h ∈ hdr, strings.TrimSpace h = [] ∨ isHeaderField (strings.TrimSpace h) = true)
    (hS : ∀ s, sep = some s → strings.HasPrefix (strings.TrimSpace s) "-----".data = true)
    (hB : List.Forall₂ (fun raw rec => strings.TrimSpace raw = Record.text rec ∧
        rec.wellFormed = true)
        (body.filter fun raw => !(strings.TrimSpace raw).isEmpty) recs)
    (hD : sep = none → ∀ rec ∈ recs, rec.selfDetecting = true) :
    level1Lines (hdr ++ sep.toList ++ body) = recs.map Record.canonical := by
  unfold level1Lines
  rw [List.foldl_append, List.foldl_append,
    level1_header_fold hdr _ rfl hH]
  cases sep with
  | none =>
    simp only [Option.toList, List.foldl_nil]
    rw [level1_body_fold body _ recs hB (fun _ => hD rfl)]
    simp
  | some s =>
    simp only [Option.toList, List.foldl_cons, List.foldl_nil]
    rw [level1Step_separator _ s rfl (hS s rfl)]
    rw [level1_body_fold body _ recs hB (by intro hh; simp at hh)]
    simp

/-- C12: the Level-1 reader accepts both record formats. For a sidecar content whose lines
are header fields (`File:`, `Path:`, `Size:`, `LOC:`, `Modified:`) and blank lines, then
possibly a separator line of dashes, then records and blank lines, the header lines and
the separator produce no row, and the rows written are exactly the canonical rows of the
records, in order: a current row `|s|e|n` gives start `s`, end `e` and the whole name `n`
(fields trimmed, the name may contain `|`), an old row `r|n` gives start = end = `r` and
name `n`. Without a separator the old rows are those whose range starts with a digit. -/
theorem C12_level1_reader_formats (content : Str) (hdr : List Str) (sep : Option Str)
    (body : List Str) (recs : List Record)
    (hC : strings.Split content '\n' = hdr ++ sep.toList ++ body)
    (hH : ∀ h ∈ hdr, strings.TrimSpace h = [] ∨ isHeaderField (strings.TrimSpace h) = true)
    (hS : ∀ s, sep = some s → strings.HasPrefix (strings.TrimSpace s) "-----".data = true)
    (hB : List.Forall₂ (fun raw rec => strings.TrimSpace raw = Record.text rec ∧
        rec.wellFormed = true)
        (body.filter fun raw => !(strings.TrimSpace raw).isEmpty) recs)
    (hD : sep = none → ∀ rec ∈ recs, rec.selfDetecting = true) :
    level1Rows content = recs.map Record.canonical := by
  rw [level1Rows, hC]
  exact level1Lines_records hdr sep body recs hH hS hB hD

/-- C12 at a sidecar with the header `GenerateMap` writes, a current row whose name holds
a `|` and an old row: the five header lines and the separator write nothing, the current
row keeps its whole name, and `3-4|old name` comes out with start = end = `3-4`. -/
theorem C12_level1_reader_formats_witness :
    level1Rows ("File: w.js\nPath: /p/w.js\nSize: 0.10 KB\nLOC: 5\n".data ++
        "Modified: 2024-01-01 10:00:00\n".data ++
        "--------------------------------------------------\n".data ++
        "|    1 |    5 | 📦 Widget | x\n3-4|old name\n".data) =
      [fmtRow "1".data "5".data "📦 Widget | x".data,
       fmtRow "3-4".data "3-4".data "old name".data] :=
  C12_level1_reader_formats _
    (linesOf ["File: w.js", "Path: /p/w.js", "Size: 0.10 KB", "LOC: 5",
      "Modified: 2024-01-01 10:00:00"])
    (some "--------------------------------------------------".data)
    (linesOf ["|    1 |    5 | 📦 Widget | x", "3-4|old name", ""])
    [Record.current "    1 ".data "    5 ".data " 📦 Widget | x".data,
     Record.legacy "3-4".data "old name".data]
    (by decide) (by decide) (by intro s hs; cases hs; decide)
    (List.Forall₂.cons ⟨by decide, by decide⟩
      (List.Forall₂.cons ⟨by decide, by decide⟩ List.Forall₂.nil))
    (by intro h; cases h)

/-- C13: on the markdown file `# a | b`, `text`, the sidecar holds the region row
`|    1 |    2 | a | b`; Level-1 re-emits it with the whole name `a | b`, while Level-3,
which splits the line at every `|` and takes the fourth piece, inlines it with the name
cut to `a`. The header lines give no Level-3 row. -/
theorem C13_level3_cuts_name_at_pipe :
    (GenerateMap insertionSort ".md".data fileMdPipe).rows = [⟨1, 2, "a | b".data⟩] ∧
    level1Rows (sidecarContent "x.md".data "/p/x.md".data "0.01".data
        "2024-01-01 10:00:00".data (GenerateMap insertionSort ".md".data fileMdPipe)) =
      [fmtRow "1".data "2".data "a | b".data] ∧
    level3Rows [] (sidecarContent "x.md".data "/p/x.md".data "0.01".data
        "2024-01-01 10:00:00".data (GenerateMap insertionSort ".md".data fileMdPipe)) =
      ["    ".data ++ fmtRow "1".data "2".data "a".data] := by
  decide

theorem mem_insertEntry (e x : Entry) (l : List Entry) :
    x ∈ insertEntry e l ↔ x = e ∨ x ∈ l := by
  induction l with
  | nil => simp [insertEntry]
  | cons y ys ih =>
    simp only [insertEntry]
    split
    · simp only [List.mem_cons, ih]
      tauto
    · simp only [List.mem_cons]

theorem mem_foldr_insertEntry (x : Entry) (l : List Entry) :
    x ∈ l.foldr insertEntry [] ↔ x ∈ l := by
  induction l with
  | nil => simp
  | cons y ys ih => simp [mem_insertEntry, ih]

/-- The walk reaches exactly the entries at or below its root. -/
theorem mem_walkOrder (fs : Tree) (root : Path) (x : Entry) :
    x ∈ walkOrder fs root ↔ x ∈ fs ∧ root.isPrefixOf x.path = true := by
  simp [walkOrder, mem_foldr_insertEntry]

theorem remove_sub (fs : Tree) (p : Path) (x : Entry) (h : x ∈ os.Remove fs p) : x ∈ fs :=
  (List.mem_filter.mp h).1

theorem remove_keeps (fs : Tree) (p : Path) (x : Entry) (h : x ∈ fs) (hp : x.path ≠ p) :
    x ∈ os.Remove fs p := by
  simp [os.Remove, h, hp]

theorem remove_file (fs : Tree) (x : Entry) (hf : x.isDir = false) :
    x ∉ os.Remove fs x.path := by
  simp [os.Remove, hf]

theorem prefix_of_not_mem {α : Type} (s a b : List α) (c : α) (h : s <+: a ++ c :: b)
    (hc : c ∉ s) : s <+: a := by
  by_cases hl : s.length ≤ a.length
  · exact List.prefix_of_prefix_length_le h (List.prefix_append a (c :: b)) hl
  · exfalso
    have h1 : a ++ [c] <+: a ++ c :: b := by
      have : a ++ c :: b = (a ++ [c]) ++ b := by simp
      rw [this]
      exact List.prefix_append _ _
    have h2 : a ++ [c] <+: s :=
      List.prefix_of_prefix_length_le h1 h (by simp; omega)
    exact hc (h2.subset (by simp))

theorem hasSuffix_after_slash (x n : Str) :
    strings.HasSuffix (x ++ '/' :: n) ".map.txt".data = strings.HasSuffix n ".map.txt".data := by
  have key : ∀ s : Str, '/' ∉ s →
      (s.isPrefixOf (n.reverse ++ '/' :: x.reverse) = true ↔ s.isPrefixOf n.reverse = true) := by
    intro s hs
    rw [List.isPrefixOf_iff_prefix, List.isPrefixOf_iff_prefix]
    constructor
    · intro h; exact prefix_of_not_mem s _ _ _ h hs
    · intro h; exact h.trans (List.prefix_append _ _)
  have := key ".map.txt".data.reverse (by decide)
  simp only [strings.HasSuffix, List.reverse_append, List.reverse_cons, List.append_assoc,
    List.singleton_append]
  rw [Bool.eq_iff_iff]
  exact this

theorem pathString_snoc (ns : Path) (n : Str) :
    ∃ x : Str, pathString (ns ++ [n]) = x ++ '/' :: n := by
  cases ns with
  | nil => exact ⟨[], by simp [pathString]⟩
  | cons m ms =>
    refine ⟨(m :: ms).flatMap fun name => '/' :: name, ?_⟩
    simp [pathString, List.flatMap_append]

/-- A path ends in `.map.txt` exactly if its last name does. -/
theorem isMapPath_snoc (ns : Path) (n : Str) :
    isMapPath (ns ++ [n]) = strings.HasSuffix n ".map.txt".data := by
  obtain ⟨x, hx⟩ := pathString_snoc ns n
  rw [isMapPath, hx, hasSuffix_after_slash]

theorem isMapPath_eq_name (e : Entry) :
    isMapPath e.path = strings.HasSuffix e.Name ".map.txt".data := by
  rcases List.eq_nil_or_concat e.path with h | ⟨ns, n, h⟩
  · simp only [Entry.Name, h]
    decide
  · simp only [Entry.Name, h, List.concat_eq_append] at *
    rw [isMapPath_snoc]
    simp

theorem isMapPath_level (p : Path) (f : Str) (hf : f ∈ levelFiles) :
    isMapPath (p ++ [f]) = true := by
  rw [isMapPath_snoc]
  revert f
  decide

theorem remove_onlyMaps (fs : Tree) (p : Path) (hp : isMapPath p = true) :
    (∀ x ∈ os.Remove fs p, x ∈ fs) ∧
      (∀ x ∈ fs, isMapPath x.path = false → x ∈ os.Remove fs p) := by
  refine ⟨fun x hx => remove_sub fs p x hx, fun x hx hm => remove_keeps fs p x hx ?_⟩
  intro e
  rw [e, hp] at hm
  exact absurd hm (by simp)

theorem removeLevelFiles_onlyMaps (path : Path) (fs : Tree) :
    (∀ x ∈ removeLevelFiles fs path, x ∈ fs) ∧
      (∀ x ∈ fs, isMapPath x.path = false → x ∈ removeLevelFiles fs path) := by
  unfold removeLevelFiles
  have gen : ∀ (l : List Str), (∀ f ∈ l, f ∈ levelFiles) → ∀ fs : Tree,
      (∀ x ∈ l.foldl (fun fs f => if os.exists fs (path ++ [f]) then os.Remove fs (path ++ [f])
          else fs) fs, x ∈ fs) ∧
      (∀ x ∈ fs, isMapPath x.path = false →
        x ∈ l.foldl (fun fs f => if os.exists fs (path ++ [f]) then os.Remove fs (path ++ [f])
          else fs) fs) := by
    intro l
    induction l with
    | nil => intro _ fs; exact ⟨fun x hx => hx, fun x hx _ => hx⟩
    | cons f fs' ih =>
      intro hl fs
      have hf := isMapPath_level path f (hl f (by simp))
      have hstep : (∀ x ∈ (if os.exists fs (path ++ [f]) then os.Remove fs (path ++ [f])
            else fs), x ∈ fs) ∧
          (∀ x ∈ fs, isMapPath x.path = false →
            x ∈ (if os.exists fs (path ++ [f]) then os.Remove fs (path ++ [f]) else fs)) := by
        split
        · exact remove_onlyMaps fs _ hf
        · exact ⟨fun x hx => hx, fun x hx _ => hx⟩
      have ih' := ih (fun g hg => hl g (by simp [hg]))
        (if os.exists fs (path ++ [f]) then os.Remove fs (path ++ [f]) else fs)
      simp only [List.foldl_cons]
      exact ⟨fun x hx => hstep.1 x (ih'.1 x hx), fun x hx hm => ih'.2 x (hstep.2 x hx hm) hm⟩
  exact gen levelFiles (fun f hf => hf) fs

/-- The callback of `DeepClean` never skips a directory and removes only `.map.txt`
entries. -/
theorem deepCleanVisit_onlyRemovesMaps : OnlyRemovesMaps deepCleanVisit := by
  intro fs p info
  unfold deepCleanVisit
  cases info with
  | none => exact ⟨rfl, fun x hx => hx, fun x hx _ => hx⟩
  | some i =>
    dsimp only
    split
    · rename_i h
      simp only [Bool.and_eq_true] at h
      exact ⟨rfl, remove_onlyMaps fs p h.2⟩
    · exact ⟨rfl, fun x hx => hx, fun x hx _ => hx⟩

/-- The callback of `CleanupMaps` never skips a directory, ignored or not, and removes
only `.map.txt` entries. -/
theorem cleanupVisit_onlyRemovesMaps (go : CaseFns) (rc : RootConfig) :
    OnlyRemovesMaps (cleanupVisit go rc) := by
  intro fs p info
  unfold cleanupVisit
  cases info with
  | none => exact ⟨rfl, fun x hx => hx, fun x hx _ => hx⟩
  | some i =>
    dsimp only
    split
    · split
      · exact ⟨rfl, removeLevelFiles_onlyMaps p fs⟩
      · exact ⟨rfl, fun x hx => hx, fun x hx _ => hx⟩
    · split
      · rename_i hm
        split
        · exact ⟨rfl, remove_onlyMaps fs p hm⟩
        · split
          · exact ⟨rfl, remove_onlyMaps fs p hm⟩
          · split
            · exact ⟨rfl, remove_onlyMaps fs p hm⟩
            · exact ⟨rfl, fun x hx => hx, fun x hx _ => hx⟩
      · exact ⟨rfl, fun x hx => hx, fun x hx _ => hx⟩

theorem walkStep_noSkip (fn : Tree → Path → Option Entry → Tree × Bool)
    (hfn : OnlyRemovesMaps fn) (fs : Tree) (e : Entry) :
    walkStep fn { fs := fs, skipped := [] } e =
      { fs := (fn fs e.path (if fs.contains e then some e else none)).1, skipped := [] } := by
  simp [walkStep, (hfn fs e.path _).1]

/-- A walk whose callback only removes `.map.txt` entries: nothing is created, and every
entry whose path does not end in `.map.txt` stays. -/
theorem walk_fold_frame (fn : Tree → Path → Option Entry → Tree × Bool)
    (hfn : OnlyRemovesMaps fn) (l : List Entry) :
    ∀ fs : Tree, ∃ fs' : Tree,
      l.foldl (walkStep fn) { fs := fs, skipped := [] } = { fs := fs', skipped := [] } ∧
      (∀ x ∈ fs', x ∈ fs) ∧ (∀ x ∈ fs, isMapPath x.path = false → x ∈ fs') := by
  induction l with
  | nil => intro fs; exact ⟨fs, rfl, fun x hx => hx, fun x hx _ => hx⟩
  | cons e es ih =>
    intro fs
    obtain ⟨fs', h1, h2, h3⟩ := ih (fn fs e.path (if fs.contains e then some e else none)).1
    have hs := hfn fs e.path (if fs.contains e then some e else none)
    refine ⟨fs', ?_, fun x hx => hs.2.1 x (h2 x hx), fun x hx hm => h3 x (hs.2.2 x hx hm) hm⟩
    rw [List.foldl_cons, walkStep_noSkip fn hfn, h1]

/-- A walk whose callback only removes `.map.txt` entries reaches every entry of its list:
an entry that the step on some listed entry removes from every tree is gone at the end. -/
theorem walk_fold_removes (fn : Tree → Path → Option Entry → Tree × Bool)
    (hfn : OnlyRemovesMaps fn) (fs0 : Tree) (e target : Entry)
    (hstep : ∀ fs : Tree, (∀ x ∈ fs, x ∈ fs0) →
      (∀ x ∈ fs0, isMapPath x.path = false → x ∈ fs) →
      target ∉ (fn fs e.path (if fs.contains e then some e else none)).1)
    (l : List Entry) (he : e ∈ l) :
    ∀ fs : Tree, (∀ x ∈ fs, x ∈ fs0) → (∀ x ∈ fs0, isMapPath x.path = false → x ∈ fs) →
      target ∉ (l.foldl (walkStep fn) { fs := fs, skipped := [] }).fs := by
  induction l with
  | nil => simp at he
  | cons a as ih =>
    intro fs hsub hkeep
    rw [List.foldl_cons, walkStep_noSkip fn hfn]
    have hs := hfn fs a.path (if fs.contains a then some a else none)
    rcases List.mem_cons.mp he with hea | hea
    · subst hea
      obtain ⟨fs', h1, h2, _⟩ := walk_fold_frame fn hfn as
        (fn fs e.path (if fs.contains e then some e else none)).1
      rw [h1]
      exact fun hx => hstep fs hsub hkeep (h2 _ hx)
    · exact ih hea _ (fun x hx => hsub x (hs.2.1 x hx))
        (fun x hx hm => hs.2.2 x (hkeep x hx hm) hm)

/-- A walk whose callback only removes `.map.txt` entries creates nothing and keeps every
entry whose path does not end in `.map.txt`. -/
theorem walk_frame (fn : Tree → Path → Option Entry → Tree × Bool)
    (hfn : OnlyRemovesMaps fn) (root : Path) (fs : Tree) :
    (∀ x ∈ filepath.Walk fn root fs, x ∈ fs) ∧
      (∀ x ∈ fs, isMapPath x.path = false → x ∈ filepath.Walk fn root fs) := by
  unfold filepath.Walk
  split
  · obtain ⟨fs', h1, h2, h3⟩ := walk_fold_frame fn hfn (walkOrder fs root) fs
    rw [h1]
    exact ⟨h2, h3⟩
  · exact (hfn fs root none).2

/-- An entry at or below an existing root that the callback removes when it reaches it is
absent after the walk. -/
theorem walk_removes (fn : Tree → Path → Option Entry → Tree × Bool)
    (hfn : OnlyRemovesMaps fn) (root : Path) (fs : Tree) (e target : Entry)
    (hroot : ∃ r ∈ fs, r.path = root) (he : e ∈ fs) (hu : root.isPrefixOf e.path = true)
    (hstep : ∀ st : Tree, (∀ x ∈ st, x ∈ fs) →
      (∀ x ∈ fs, isMapPath x.path = false → x ∈ st) →
      target ∉ (fn st e.path (if st.contains e then some e else none)).1) :
    target ∉ filepath.Walk fn root fs := by
  unfold filepath.Walk
  have hany : (fs.any fun x => x.path == root) = true := by
    obtain ⟨r, hr, hp⟩ := hroot
    exact List.any_eq_true.mpr ⟨r, hr, by simp [hp]⟩
  rw [if_pos hany]
  exact walk_fold_removes fn hfn fs e target hstep (walkOrder fs root)
    ((mem_walkOrder fs root e).mpr ⟨he, hu⟩) fs (fun x hx => hx) (fun x hx _ => hx)

theorem deepCleanVisit_removes (st : Tree) (e : Entry) (hf : e.isDir = false)
    (hm : isMapPath e.path = true) :
    e ∉ (deepCleanVisit st e.path (if st.contains e then some e else none)).1 := by
  by_cases hc : st.contains e = true
  · simp only [hc, if_true, deepCleanVisit, hf, hm, Bool.not_false, Bool.and_self]
    exact remove_file st e hf
  · simp only [hc, deepCleanVisit]
    simpa using hc

/-- C16: after `DeepClean(target)` on a tree in which the target exists, nothing was
created, no file at or beneath the target whose name ends in `.map.txt` remains, at
whatever depth and without any configuration being read, and every entry whose name does
not end in `.map.txt` is still in place. -/
theorem C16_deep_clean_leaves_no_sidecar (targetDir : Path) (fs : Tree)
    (hT : ∃ d ∈ fs, d.path = targetDir) :
    (∀ e ∈ DeepClean targetDir fs, e ∈ fs) ∧
    (∀ e ∈ DeepClean targetDir fs, targetDir.isPrefixOf e.path = true → e.isDir = false →
      strings.HasSuffix e.Name ".map.txt".data = false) ∧
    (∀ e ∈ fs, strings.HasSuffix e.Name ".map.txt".data = false →
      e ∈ DeepClean targetDir fs) := by
  have hframe := walk_frame deepCleanVisit deepCleanVisit_onlyRemovesMaps targetDir fs
  refine ⟨hframe.1, ?_, ?_⟩
  · intro e he hu hf
    by_contra hm
    rw [← isMapPath_eq_name, Bool.not_eq_false] at hm
    exact walk_removes deepCleanVisit deepCleanVisit_onlyRemovesMaps targetDir fs e e hT
      (hframe.1 e he) hu (fun st _ _ => deepCleanVisit_removes st e hf hm) he
  · intro e he hm
    rw [← isMapPath_eq_name] at hm
    exact hframe.2 e he hm

/-- C16 on a tree with sidecars nested three levels deep beneath `/w`: the target exists,
the four sidecar files beneath it are gone, the sources, the directories (also the one
named `d.map.txt`) and the sidecar outside the target are in place. -/
theorem C16_deep_clean_leaves_no_sidecar_witness :
    DeepClean (pathOf "/w") treeDeep =
      [dirAt "/w", fileAt "/w/a.go", dirAt "/w/x", dirAt "/w/x/y", dirAt "/w/x/y/z",
       fileAt "/w/x/y/z/c.js", dirAt "/w/x/y/z/d.map.txt", dirAt "/other",
       fileAt "/other/e.go.map.txt"] ∧
    ((∀ e ∈ DeepClean (pathOf "/w") treeDeep, e ∈ treeDeep) ∧
    (∀ e ∈ DeepClean (pathOf "/w") treeDeep, (pathOf "/w").isPrefixOf e.path = true →
      e.isDir = false → strings.HasSuffix e.Name ".map.txt".data = false) ∧
    (∀ e ∈ treeDeep, strings.HasSuffix e.Name ".map.txt".data = false →
      e ∈ DeepClean (pathOf "/w") treeDeep)) :=
  ⟨by decide, C16_deep_clean_leaves_no_sidecar (pathOf "/w") treeDeep
    ⟨dirAt "/w", by decide, by decide⟩⟩

theorem exists_mono (st fs : Tree) (p : Path) (hsub : ∀ x ∈ st, x ∈ fs)
    (h : os.exists fs p = false) : os.exists st p = false := by
  simp only [os.exists, Bool.or_eq_false_iff, List.any_eq_false] at h ⊢
  exact ⟨h.1, fun x hx => h.2 x (hsub x hx)⟩

theorem not_mem_of_not_exists (fs : Tree) (x : Entry) (h : os.exists fs x.path = false) :
    x ∉ fs := by
  intro hx
  simp only [os.exists, Bool.or_eq_false_iff, List.any_eq_false] at h
  exact h.2 x hx (by simp)

/-- The clean-up of an ignored directory leaves none of its level artifacts as a file. -/
theorem removeLevelFiles_removes (path : Path) (f : Str) (hf : f ∈ levelFiles) (fs : Tree) :
    (⟨path ++ [f], false⟩ : Entry) ∉ removeLevelFiles fs path := by
  unfold removeLevelFiles
  have gen : ∀ (l : List Str), f ∈ l → ∀ fs : Tree,
      (⟨path ++ [f], false⟩ : Entry) ∉
        l.foldl (fun fs g => if os.exists fs (path ++ [g]) then os.Remove fs (path ++ [g])
          else fs) fs := by
    intro l
    induction l with
    | nil => intro h; simp at h
    | cons g gs ih =>
      intro hmem fs
      simp only [List.foldl_cons]
      have hshrink : ∀ (l : List Str) (fs : Tree),
          ∀ x ∈ l.foldl (fun fs g => if os.exists fs (path ++ [g]) then
            os.Remove fs (path ++ [g]) else fs) fs, x ∈ fs := by
        intro l
        induction l with
        | nil => intro fs x hx; exact hx
        | cons k ks ihk =>
          intro fs x hx
          simp only [List.foldl_cons] at hx
          have := ihk _ x hx
          split at this
          · exact remove_sub _ _ _ this
          · exact this
      rcases List.mem_cons.mp hmem with hfg | hfg
      · subst hfg
        intro hx
        have hx' := hshrink gs _ _ hx
        split at hx'
        · exact remove_file fs ⟨path ++ [f], false⟩ rfl hx'
        · rename_i hne
          exact not_mem_of_not_exists fs ⟨path ++ [f], false⟩ (by simpa using hne) hx'
      · exact ih hfg _
  exact gen levelFiles hf fs

theorem cleanupVisit_ignored_dir (go : CaseFns) (rc : RootConfig) (st : Tree) (dir : Entry)
    (hd : dir.isDir = true) (hI : ShouldIgnoreName go dir.Name rc.IgnoredDirs = true) :
    cleanupVisit go rc st dir.path (some dir) = (removeLevelFiles st dir.path, false) := by
  simp [cleanupVisit, hd, ShouldIgnore, hI]

theorem cleanupVisit_orphan (go : CaseFns) (rc : RootConfig) (st : Tree) (e : Entry)
    (hf : e.isDir = false) (hm : isMapPath e.path = true)
    (hsrc : os.exists st (os.resolve (sourcePath e.path)) = false) :
    e ∉ (cleanupVisit go rc st e.path (if st.contains e then some e else none)).1 := by
  by_cases hc : st.contains e = true
  · simp only [hc, if_true, cleanupVisit, hf, hm, hsrc, Bool.not_false, Bool.false_eq_true,
      if_false]
    exact remove_file st e hf
  · simp only [hc, cleanupVisit]
    simpa using hc

/-- The walks of the roots in turn create nothing and keep every entry whose path does not
end in `.map.txt`. -/
theorem cleanup_roots_frame (go : CaseFns) (roots : List RootConfig) :
    ∀ fs : Tree,
      (∀ x ∈ roots.foldl (fun fs rc => filepath.Walk (cleanupVisit go rc) rc.Path fs) fs, x ∈ fs) ∧
      (∀ x ∈ fs, isMapPath x.path = false →
        x ∈ roots.foldl (fun fs rc => filepath.Walk (cleanupVisit go rc) rc.Path fs) fs) := by
  induction roots with
  | nil => intro fs; exact ⟨fun x hx => hx, fun x hx _ => hx⟩
  | cons rc rs ih =>
    intro fs
    have h1 := walk_frame (cleanupVisit go rc) (cleanupVisit_onlyRemovesMaps go rc) rc.Path fs
    have h2 := ih (filepath.Walk (cleanupVisit go rc) rc.Path fs)
    simp only [List.foldl_cons]
    exact ⟨fun x hx => h1.1 x (h2.1 x hx), fun x hx hm => h2.2 x (h1.2 x hx hm) hm⟩

/-- An entry that the walk of one of the roots removes from every tree it can meet is
absent after `CleanupMaps`. -/
theorem cleanup_roots_removes (go : CaseFns) (roots : List RootConfig) (rc : RootConfig) (hrc : rc ∈ roots)
    (fs0 : Tree) (target : Entry)
    (hwalk : ∀ st : Tree, (∀ x ∈ st, x ∈ fs0) →
      (∀ x ∈ fs0, isMapPath x.path = false → x ∈ st) →
      target ∉ filepath.Walk (cleanupVisit go rc) rc.Path st) :
    ∀ fs : Tree, (∀ x ∈ fs, x ∈ fs0) → (∀ x ∈ fs0, isMapPath x.path = false → x ∈ fs) →
      target ∉ roots.foldl (fun fs rc => filepath.Walk (cleanupVisit go rc) rc.Path fs) fs := by
  induction roots with
  | nil => simp at hrc
  | cons a as ih =>
    intro fs hsub hkeep
    simp only [List.foldl_cons]
    have h1 := walk_frame (cleanupVisit go a) (cleanupVisit_onlyRemovesMaps go a) a.Path fs
    rcases List.mem_cons.mp hrc with h | h
    · subst h
      exact fun hx => hwalk fs hsub hkeep ((cleanup_roots_frame go as _).1 _ hx)
    · exact ih h _ (fun x hx => hsub x (h1.1 x hx))
        (fun x hx hm => h1.2 x (hkeep x hx hm) hm)

/-- C14: on the root `/proj` with `.go` the only allowed extension and `a.go` deleted,
`CleanupMaps` removes the orphaned `a.go.map.txt` and keeps `b.go.map.txt`, but it also
removes the four level artifacts of `/proj`, a directory that is not ignored (their
"source" `_level_N` does not exist), and it keeps `node_modules/x.go.map.txt`, whose
source lies in an ignored directory (only the last name of the source is tested). -/
theorem C14_cleanup_removes_level_artifacts :
    ShouldIgnoreName asciiCase "proj".data [] = false ∧
    ShouldIgnoreName asciiCase "node_modules".data [] = true ∧
    CleanupMaps asciiCase cfgGoRoot treeGoRoot =
      [dirAt "/proj", fileAt "/proj/b.go", fileAt "/proj/b.go.map.txt",
       dirAt "/proj/node_modules", fileAt "/proj/node_modules/x.go",
       fileAt "/proj/node_modules/x.go.map.txt"] := by
  decide

/-- C15, as stated, fails: `node_modules` matches the ignore predicate, and the orphaned
sidecar directly inside it and the one in its subdirectory `pkg` are both removed. -/
theorem C15_counterexample :
    ShouldIgnoreName asciiCase "node_modules".data [] = true ∧
    fileAt "/proj/node_modules/x.js.map.txt" ∈ treeIgnored ∧
    fileAt "/proj/node_modules/x.js.map.txt" ∉ CleanupMaps asciiCase cfgJsRoot treeIgnored ∧
    fileAt "/proj/node_modules/pkg/y.js.map.txt" ∈ treeIgnored ∧
    fileAt "/proj/node_modules/pkg/y.js.map.txt" ∉ CleanupMaps asciiCase cfgJsRoot treeIgnored := by
  decide

/-- C15, amended, for any case functions of the library: when the walk of a root reaches a
directory that matches the ignore predicate, the callback answers `nil`, not `SkipDir`; after `CleanupMaps` none of the four
level artifacts directly inside the directory is left as a file, and the walk has gone on
into the directory: every file beneath it, at any depth, whose name ends in `.map.txt` and
whose source does not exist is removed too. No entry whose name does not end in `.map.txt`
is removed. -/
theorem C15_ignored_dir_cleaned_and_entered (go : CaseFns) (cfg : Config) (rc : RootConfig) (fs : Tree)
    (root dir : Entry) (hrc : rc ∈ cfg.Roots)
    (hroot : root ∈ fs) (hrp : root.path = rc.Path)
    (hrm : strings.HasSuffix root.Name ".map.txt".data = false)
    (hdir : dir ∈ fs) (hd : dir.isDir = true) (hu : rc.Path.isPrefixOf dir.path = true)
    (hI : ShouldIgnoreName go dir.Name rc.IgnoredDirs = true)
    (hdm : strings.HasSuffix dir.Name ".map.txt".data = false) :
    (∀ st : Tree, (cleanupVisit go rc st dir.path (some dir)).2 = false) ∧
    (∀ f ∈ levelFiles, (⟨dir.path ++ [f], false⟩ : Entry) ∉ CleanupMaps go cfg fs) ∧
    (∀ e ∈ fs, dir.path.isPrefixOf e.path = true → e.isDir = false →
      strings.HasSuffix e.Name ".map.txt".data = true →
      os.exists fs (os.resolve (sourcePath e.path)) = false → e ∉ CleanupMaps go cfg fs) ∧
    (∀ e ∈ fs, strings.HasSuffix e.Name ".map.txt".data = false → e ∈ CleanupMaps go cfg fs) := by
  rw [← isMapPath_eq_name] at hrm hdm
  have hfn := cleanupVisit_onlyRemovesMaps go rc
  refine ⟨fun st => (hfn st dir.path (some dir)).1, ?_, ?_, ?_⟩
  · intro f hf
    refine cleanup_roots_removes go cfg.Roots rc hrc fs _ ?_ fs (fun x hx => hx)
      (fun x hx _ => hx)
    intro st hsub hkeep
    refine walk_removes (cleanupVisit go rc) hfn rc.Path st dir _
      ⟨root, hkeep root hroot hrm, hrp⟩ (hkeep dir hdir hdm) hu ?_
    intro st' _ hkeep'
    have hc : st'.contains dir = true := by
      simpa using hkeep' dir (hkeep dir hdir hdm) hdm
    rw [hc, if_pos rfl, cleanupVisit_ignored_dir go rc st' dir hd hI]
    exact removeLevelFiles_removes dir.path f hf st'
  · intro e he hue hf hm hsrc
    rw [← isMapPath_eq_name] at hm
    refine cleanup_roots_removes go cfg.Roots rc hrc fs _ ?_ fs (fun x hx => hx)
      (fun x hx _ => hx)
    intro st hsub hkeep
    by_cases hes : e ∈ st
    · have hpre : rc.Path.isPrefixOf e.path = true := by
        rw [List.isPrefixOf_iff_prefix] at hu hue ⊢
        exact hu.trans hue
      refine walk_removes (cleanupVisit go rc) hfn rc.Path st e e
        ⟨root, hkeep root hroot hrm, hrp⟩ hes hpre ?_
      intro st' hsub' _
      exact cleanupVisit_orphan go rc st' e hf hm
        (exists_mono st' fs _ (fun x hx => hsub x (hsub' x hx)) hsrc)
    · exact fun hx => hes ((walk_frame (cleanupVisit go rc) hfn rc.Path st).1 e hx)
  · intro e he hm
    rw [← isMapPath_eq_name] at hm
    exact (cleanup_roots_frame go cfg.Roots fs).2 e he hm

/-- C15, amended, at the ignored directory `/proj/node_modules`: its level artifact and
the orphaned sidecars inside it and in `pkg` are removed; `main.js.map.txt`, whose source
exists and is allowed, and `pkg/z.txt` stay. -/
theorem C15_ignored_dir_cleaned_and_entered_witness :
    CleanupMaps asciiCase cfgJsRoot treeIgnored =
      [dirAt "/proj", fileAt "/proj/main.js", fileAt "/proj/main.js.map.txt",
       dirAt "/proj/node_modules", dirAt "/proj/node_modules/pkg",
       fileAt "/proj/node_modules/pkg/z.txt"] ∧
    ((∀ st : Tree, (cleanupVisit asciiCase ⟨pathOf "/proj", linesOf [".js"], []⟩ st
        (dirAt "/proj/node_modules").path (some (dirAt "/proj/node_modules"))).2 = false) ∧
    (∀ f ∈ levelFiles, (⟨(dirAt "/proj/node_modules").path ++ [f], false⟩ : Entry) ∉
      CleanupMaps asciiCase cfgJsRoot treeIgnored) ∧
    (∀ e ∈ treeIgnored, (dirAt "/proj/node_modules").path.isPrefixOf e.path = true →
      e.isDir = false → strings.HasSuffix e.Name ".map.txt".data = true →
      os.exists treeIgnored (os.resolve (sourcePath e.path)) = false →
      e ∉ CleanupMaps asciiCase cfgJsRoot treeIgnored) ∧
    (∀ e ∈ treeIgnored, strings.HasSuffix e.Name ".map.txt".data = false →
      e ∈ CleanupMaps asciiCase cfgJsRoot treeIgnored)) :=
  ⟨by decide, C15_ignored_dir_cleaned_and_entered asciiCase cfgJsRoot
    ⟨pathOf "/proj", linesOf [".js"], []⟩ treeIgnored (dirAt "/proj")
    (dirAt "/proj/node_modules") (by decide) (by decide) (by decide) (by decide) (by decide)
    (by decide) (by decide) (by decide) (by decide)⟩

end Astrmap
